import Mathlib

/-!
# grf multi-outcome regression splitting rule

A shallow embedding of `src/splitting/MultiRegressionSplittingRule.cpp`
(`MultiRegressionSplittingRule::find_best_split` and
`MultiRegressionSplittingRule::find_best_split_value`) together with the
properties of the best-split search.

Modelling conventions.

* The rule is embedded twice. In the first embedding (`find_best_split`,
  `find_best_split_value`, `scan`, ...) a C++ `double` that holds an outcome, a mean,
  a dispersion or a loss is an exact rational number (`ℚ`): rounding, overflow and
  infinities are not modelled there. The second embedding (`fl_find_best_split`,
  `fl_find_best_split_value`, `fl_scan`, ...) follows the same lines in double
  arithmetic (`Dbl`): every operation rounds its exact result to the nearest double
  (ties to even, `round_double`), a result beyond `DBL_MAX` is an infinity, and the
  infinities and NaN propagate as in IEEE 754; the sign of zero and the subnormal
  numbers are not modelled. The two embeddings evaluate the same boundaries
  (`fl_search_evals_skeleton`) and return the same flag and outputs whenever no
  accumulator `ssl` overflows (`fl_find_best_split_eq_exact`).
* The parameter `alpha` is the value of the double `alpha`. The product
  `size_node * alpha` of line 56 is a product of doubles and is rounded before
  `std::ceil` is applied, in both embeddings.
* A C++ `double` that holds a covariate value of the dataset is a `Val`, a
  rational or NaN (`none`); the only operation the rule applies to such values
  is `!=`, modelled by `dne`.
* A `size_t` is a natural number. The unsigned subtraction `size_node - 1` of
  line 115, which wraps on an empty node, is modelled by `pred_size_t`. The
  subtraction `size_node - n_left` of line 146 is the subtraction of natural
  numbers: `n_left` adds up counters that were zeroed and then incremented at
  most `size_node - 1` times. The quotients `n_left / size_node` and
  `n_right / size_node` of line 167 are divisions of natural numbers, as in the
  source.
* `std::vector` is `List`; the raw scratch arrays `counter` and `sums` are
  functions from the index to the cell content. An index outside a vector, which
  is undefined behaviour in C++, reads a default value and writes nothing.
* The class `Data` is declared outside the splitting rule, so the two methods of
  it that the rule calls are the fields of the structure `Data`. What the rule
  expects of `Data::get_all_values` on a node without missing values is the
  predicate `accessor_contract`. On a node with missing values the accessor lists
  the non-missing distinct values and keeps the samples with a missing value in the
  ordering; the datasets `data_nan`, `data_nan4` and `data_nan22` are such nodes.
-/

namespace grf

/-! ## Data model -/

/-- A covariate value: `some q` is the finite double `q`, `none` is NaN. -/
abbrev Val := Option ℚ

/-- The C++ comparison `a != b` on doubles: every comparison with NaN is "different". -/
def dne : Val → Val → Bool
  | some x, some y => decide (x ≠ y)
  | _, _ => true

/-- The C++ comparison `a <= b` on doubles: false as soon as one side is NaN. -/
def dle : Val → Val → Bool
  | some x, some y => decide (x ≤ y)
  | _, _ => false

/-- The C++ comparison `a > b` on doubles: false as soon as one side is NaN. -/
def dgt : Val → Val → Bool
  | some x, some y => decide (y < x)
  | _, _ => false

/-- An outcome vector with `k` components (`Eigen::ArrayXd` / `Eigen::VectorXd`). -/
abbrev Vec (k : Nat) := Fin k → ℚ

/-- The dataset accessor used by the rule: `get sample var` is `Data::get`, and
`get_all_values node_samples var` is `Data::get_all_values`, returning
`(possible_split_values, sorted_samples)`. -/
structure Data where
  get : Nat → Nat → Val
  get_all_values : List Nat → Nat → List Val × List Nat

/-- The scratch buffers `counter` and `sums` owned by the rule. -/
structure Scratch (k : Nat) where
  counter : Nat → Nat
  sums : Nat → Vec k

/-- The rule object: `alpha`, `imbalance_penalty`, the scratch buffers and `sigma`.
The type parameter `k` is `num_outcomes`. -/
structure MultiRegressionSplittingRule (k : Nat) where
  alpha : ℚ
  imbalance_penalty : ℚ
  scratch : Scratch k
  sigma : Matrix (Fin 2) (Fin 2) ℚ

/-- The matrix written by the constructor: `sigma(0,0) = 1`, `sigma(0,1) = 0.5`,
`sigma(1,0) = 0.5`, `sigma(1,1) = 1`. -/
def constructor_sigma : Matrix (Fin 2) (Fin 2) ℚ :=
  fun i j => if i = j then 1 else 1 / 2

/-- The constructor `MultiRegressionSplittingRule(max_num_unique_values, alpha,
imbalance_penalty, num_outcomes)`; the freshly allocated scratch buffers hold
whatever `init` holds. -/
def MultiRegressionSplittingRule.new (k : Nat) (alpha imbalance_penalty : ℚ)
    (init : Scratch k) : MultiRegressionSplittingRule k :=
  { alpha := alpha, imbalance_penalty := imbalance_penalty, scratch := init,
    sigma := constructor_sigma }

/-- The running best split: `best_value`, `best_var`, `best_loss`. -/
structure Best where
  best_value : Val
  best_var : Nat
  best_loss : ℚ
deriving DecidableEq

/-- The sentinel `1e11` with which `best_loss` is initialised. -/
def sentinel_loss : ℚ := 100000000000

/-- The bound `1e10` of the final test `best_loss > 1e10`. -/
def leaf_bound : ℚ := 10000000000

/-- The initial running best of `find_best_split`. -/
def Best.init : Best :=
  { best_value := some 0, best_var := 0, best_loss := sentinel_loss }

/-! ## The dispersion -/

/-- `Matrix2d::inverse()`: the closed form of the inverse of a 2 x 2 matrix. -/
def inverse (m : Matrix (Fin 2) (Fin 2) ℚ) : Matrix (Fin 2) (Fin 2) ℚ :=
  let invdet := 1 / (m 0 0 * m 1 1 - m 0 1 * m 1 0)
  fun i j =>
    if i = 0 then (if j = 0 then m 1 1 * invdet else - m 0 1 * invdet)
    else (if j = 0 then - m 1 0 * invdet else m 0 0 * invdet)

/-- Component `i` of a vector, `0` outside its range. -/
def comp {k : Nat} (d : Vec k) (i : Nat) : ℚ :=
  if h : i < k then d ⟨i, h⟩ else 0

/-- The product `d.transpose() * sigma.inverse() * d` of line 157 and line 164. -/
def squared_distance {k : Nat} (sigma : Matrix (Fin 2) (Fin 2) ℚ) (d : Vec k) : ℚ :=
  let s := inverse sigma
  (comp d 0 * s 0 0 + comp d 1 * s 1 0) * comp d 0
    + (comp d 0 * s 0 1 + comp d 1 * s 1 1) * comp d 1

/-! ## find_best_split_value -/

/-- The value of the `size_t` expression `size_node - 1`. -/
def pred_size_t (n : Nat) : Nat := if n = 0 then 2 ^ 64 - 1 else n - 1

/-- Lines 109-110: `std::fill(counter, counter + num_splits, 0)` and
`sums.topRows(num_splits).setZero()`. -/
def zero_buckets {k : Nat} (num_splits : Nat) (s : Scratch k) : Scratch k :=
  { counter := fun j => if j < num_splits then 0 else s.counter j,
    sums := fun j => if j < num_splits then 0 else s.sums j }

/-- One iteration of the loop of lines 115-129; the state is `split_index` and
the scratch buffers. -/
def fill_step {k : Nat} (data : Data) (var : Nat) (responses_by_sample : Nat → Vec k)
    (sorted_samples : List Nat) (st : Nat × Scratch k) (i : Nat) : Nat × Scratch k :=
  let split_index := st.1
  let sample := sorted_samples.getD i 0
  let next_sample := sorted_samples.getD (i + 1) 0
  let sample_value := data.get sample var
  let sums := Function.update st.2.sums split_index
    (st.2.sums split_index + responses_by_sample sample)
  let counter := Function.update st.2.counter split_index (st.2.counter split_index + 1)
  let next_sample_value := data.get next_sample var
  (if dne sample_value next_sample_value then split_index + 1 else split_index,
    { counter := counter, sums := sums })

/-- Lines 113-129: the loop `for (size_t i = 0; i < size_node - 1; i++)`. -/
def fill_buckets {k : Nat} (data : Data) (var : Nat) (responses_by_sample : Nat → Vec k)
    (sorted_samples : List Nat) (size_node : Nat) (s : Scratch k) : Nat × Scratch k :=
  (List.range (pred_size_t size_node)).foldl
    (fill_step data var responses_by_sample sorted_samples) (0, s)

/-- Lines 152-165: the accumulator `ssl` after both inner loops. The first loop
adds the distances to `mu_left` of the samples at positions `0 .. n_left - 1`, the
second adds (to `ssl` again) the distances to `mu_right` of the samples at
positions `n_left .. size_node - 1`. -/
def ssl_of {k : Nat} (sigma : Matrix (Fin 2) (Fin 2) ℚ) (responses_by_sample : Nat → Vec k)
    (sorted_samples : List Nat) (size_node n_left : Nat) (mu_left mu_right : Vec k) : ℚ :=
  let ssl := (List.range n_left).foldl
    (fun acc i => acc + squared_distance sigma
      (responses_by_sample (sorted_samples.getD i 0) - mu_left)) 0
  (List.range' n_left (size_node - n_left)).foldl
    (fun acc i => acc + squared_distance sigma
      (responses_by_sample (sorted_samples.getD i 0) - mu_right)) ssl

/-- Line 160: `ssr` is initialised to `0` and never assigned afterwards. -/
def ssr_of : ℚ := 0

/-- Line 167: `n_left / size_node * ssl + n_right / size_node * ssr`, where both
quotients are divisions of `size_t` by `size_t`; in exact arithmetic, where `ssl` is
finite (`fl_loss_of` is the same line in doubles). -/
def loss_of (size_node n_left n_right : Nat) (ssl ssr : ℚ) : ℚ :=
  ((n_left / size_node : Nat) : ℚ) * ssl + ((n_right / size_node : Nat) : ℚ) * ssr

/-- Line 138: `mu_left = sum_left / n_left`. -/
def mu_left_of {k : Nat} (sum_left : Vec k) (n_left : Nat) : Vec k :=
  fun j => sum_left j / (n_left : ℚ)

/-- Line 150: `mu_right = (sum_node - sum_left) / n_right`. -/
def mu_right_of {k : Nat} (sum_node sum_left : Vec k) (n_right : Nat) : Vec k :=
  fun j => (sum_node j - sum_left j) / (n_right : ℚ)

/-- Lines 138-165: the accumulator `ssl` at a boundary that passed both size tests. -/
def boundary_ssl {k : Nat} (sigma : Matrix (Fin 2) (Fin 2) ℚ)
    (responses_by_sample : Nat → Vec k) (sorted_samples : List Nat) (sum_node : Vec k)
    (size_node n_left : Nat) (sum_left : Vec k) : ℚ :=
  ssl_of sigma responses_by_sample sorted_samples size_node n_left
    (mu_left_of sum_left n_left) (mu_right_of sum_node sum_left (size_node - n_left))

/-- Lines 138-167: the loss computed at a boundary that passed both size tests. -/
def boundary_loss {k : Nat} (sigma : Matrix (Fin 2) (Fin 2) ℚ)
    (responses_by_sample : Nat → Vec k) (sorted_samples : List Nat) (sum_node : Vec k)
    (size_node n_left : Nat) (sum_left : Vec k) : ℚ :=
  loss_of size_node n_left (size_node - n_left)
    (boundary_ssl sigma responses_by_sample sorted_samples sum_node size_node n_left sum_left)
    ssr_of

/-- Lines 169-174: the update of the running best by a boundary of loss `loss`. -/
def Best.consider (best : Best) (value : Val) (var : Nat) (loss : ℚ) : Best :=
  if loss < best.best_loss then { best_value := value, best_var := var, best_loss := loss }
  else best

/-- Lines 135-175: the loop `for (size_t i = 0; i < num_splits; ++i)`, started at
index `i` with `fuel = num_splits - i` iterations left. -/
def scan {k : Nat} (sigma : Matrix (Fin 2) (Fin 2) ℚ) (responses_by_sample : Nat → Vec k)
    (possible_split_values : List Val) (sorted_samples : List Nat) (var : Nat)
    (sum_node : Vec k) (size_node min_child_size : Nat) (s : Scratch k) :
    Nat → Nat → Nat → Vec k → Best → Best
  | 0, _, _, _, best => best
  | fuel + 1, i, n_left, sum_left, best =>
    let n_left := n_left + s.counter i
    let sum_left := sum_left + s.sums i
    if n_left < min_child_size then
      scan sigma responses_by_sample possible_split_values sorted_samples var sum_node
        size_node min_child_size s fuel (i + 1) n_left sum_left best
    else
      let n_right := size_node - n_left
      if n_right < min_child_size then best
      else
        let loss := boundary_loss sigma responses_by_sample sorted_samples sum_node
          size_node n_left sum_left
        scan sigma responses_by_sample possible_split_values sorted_samples var sum_node
          size_node min_child_size s fuel (i + 1) n_left sum_left
          (best.consider (possible_split_values.getD i none) var loss)

/-- The method `find_best_split_value` (lines 85-176): the scratch buffers and the
running best after the scan of variable `var`. -/
def find_best_split_value {k : Nat} (sigma : Matrix (Fin 2) (Fin 2) ℚ) (data : Data)
    (node var : Nat) (sum_node : Vec k) (size_node min_child_size : Nat)
    (responses_by_sample : Nat → Vec k) (samples : List (List Nat))
    (st : Scratch k × Best) : Scratch k × Best :=
  let possible_split_values := (data.get_all_values (samples.getD node []) var).1
  let sorted_samples := (data.get_all_values (samples.getD node []) var).2
  if possible_split_values.length < 2 then st
  else
    let num_splits := possible_split_values.length - 1
    let filled := (fill_buckets data var responses_by_sample sorted_samples size_node
      (zero_buckets num_splits st.1)).2
    (filled, scan sigma responses_by_sample possible_split_values sorted_samples var
      sum_node size_node min_child_size filled num_splits 0 0 0 st.2)

/-! ## find_best_split -/

/-- The number of halvings that bring `n` below `2`, at most `fuel` of them. -/
def log2_fuel : Nat → Nat → Nat
  | 0, _ => 0
  | fuel + 1, n => if n < 2 then 0 else log2_fuel fuel (n / 2) + 1

/-- The integer part of the binary logarithm of `n` (`0` for `n = 0`). -/
def floor_log2 (n : Nat) : Nat := log2_fuel n n

/-- The exponent `e` with `2 ^ e <= p / q < 2 ^ (e + 1)`, for positive `p` and `q`. -/
def binary_exponent (p q : Nat) : Int :=
  if q ≤ p then Int.ofNat (floor_log2 (p / q))
  else - Int.ofNat (floor_log2 ((q + p - 1) / p - 1) + 1)

/-- The integer nearest to `num / den`, a tie going to the even one. -/
def round_half_even (num den : Nat) : Nat :=
  let f := num / den
  let r := num % den
  if 2 * r < den then f
  else if den < 2 * r then f + 1
  else if f % 2 = 0 then f else f + 1

/-- The positive rational `p / q` rounded to a significand of 53 bits. -/
def round_pos (p q : Nat) : ℚ :=
  let e := binary_exponent p q
  if e ≤ 52 then
    let sh := (52 - e).toNat
    (round_half_even (p * 2 ^ sh) q : ℚ) / ((2 ^ sh : Nat) : ℚ)
  else
    let sh := (e - 52).toNat
    (round_half_even p (q * 2 ^ sh) : ℚ) * ((2 ^ sh : Nat) : ℚ)

/-- The rounding of an exact result to a `double`: round to nearest, ties to even,
with a significand of 53 bits. The exponent range is not bounded here; overflow is
the business of `Dbl.ofRat`. -/
def round_double (x : ℚ) : ℚ :=
  if x = 0 then 0
  else if 0 < x then round_pos x.num.natAbs x.den
  else - round_pos x.num.natAbs x.den

/-- Line 56: `std::max<size_t>(static_cast<size_t>(std::ceil(size_node * alpha)), 1uL)`.
The product is a product of doubles: `size_node` is converted to `double`, and the
product with `alpha` is rounded to a `double` before `std::ceil` is applied. -/
def min_child_size_of (alpha : ℚ) (size_node : Nat) : Nat :=
  max ⌈round_double (round_double (size_node : ℚ) * alpha)⌉₊ 1

/-- Lines 59-62: the sum of the outcome rows of the node's samples. -/
def sum_node_of {k : Nat} (responses_by_sample : Nat → Vec k) (node_samples : List Nat) : Vec k :=
  node_samples.foldl (fun acc sample => acc + responses_by_sample sample) 0

/-- What a call of `find_best_split` leaves behind: the returned flag, the two
output vectors and the rule's scratch buffers. -/
structure Outcome (k : Nat) where
  leaf : Bool
  split_vars : List Nat
  split_values : List Val
  scratch : Scratch k

/-- Lines 55-72: the scratch buffers and the running best after all candidate
variables were scanned. -/
def search {k : Nat} (rule : MultiRegressionSplittingRule k) (data : Data) (node : Nat)
    (possible_split_vars : List Nat) (responses_by_sample : Nat → Vec k)
    (samples : List (List Nat)) : Scratch k × Best :=
  let size_node := (samples.getD node []).length
  let min_child_size := min_child_size_of rule.alpha size_node
  let sum_node := sum_node_of responses_by_sample (samples.getD node [])
  possible_split_vars.foldl
    (fun st var => find_best_split_value rule.sigma data node var sum_node size_node
      min_child_size responses_by_sample samples st)
    (rule.scratch, Best.init)

/-- The method `find_best_split` (lines 47-83). -/
def find_best_split {k : Nat} (rule : MultiRegressionSplittingRule k) (data : Data) (node : Nat)
    (possible_split_vars : List Nat) (responses_by_sample : Nat → Vec k)
    (samples : List (List Nat)) (split_vars : List Nat) (split_values : List Val) :
    Outcome k :=
  let r := search rule data node possible_split_vars responses_by_sample samples
  if r.2.best_loss > leaf_bound then
    { leaf := true, split_vars := split_vars, split_values := split_values, scratch := r.1 }
  else
    { leaf := false, split_vars := split_vars.set node r.2.best_var,
      split_values := split_values.set node r.2.best_value, scratch := r.1 }

/-! ## The boundaries whose loss is computed -/

/-- A boundary that reached line 167: the loop index `i`, the cumulated `n_left`
and `sum_left`, the threshold `possible_split_values[i]`, the scanned variable
and the loss computed there. -/
structure Evaluated (k : Nat) where
  index : Nat
  n_left : Nat
  sum_left : Vec k
  value : Val
  var : Nat
  loss : ℚ

/-- The boundaries evaluated by the loop of lines 135-175 in scan order: the same
control flow as `scan` (`continue` on a small left child, `break` on a small right
child), recording each boundary instead of updating the running best. -/
def scan_evals {k : Nat} (sigma : Matrix (Fin 2) (Fin 2) ℚ) (responses_by_sample : Nat → Vec k)
    (possible_split_values : List Val) (sorted_samples : List Nat) (var : Nat)
    (sum_node : Vec k) (size_node min_child_size : Nat) (s : Scratch k) :
    Nat → Nat → Nat → Vec k → List (Evaluated k)
  | 0, _, _, _ => []
  | fuel + 1, i, n_left, sum_left =>
    let n_left := n_left + s.counter i
    let sum_left := sum_left + s.sums i
    if n_left < min_child_size then
      scan_evals sigma responses_by_sample possible_split_values sorted_samples var sum_node
        size_node min_child_size s fuel (i + 1) n_left sum_left
    else
      let n_right := size_node - n_left
      if n_right < min_child_size then []
      else
        { index := i, n_left := n_left, sum_left := sum_left,
          value := possible_split_values.getD i none, var := var,
          loss := boundary_loss sigma responses_by_sample sorted_samples sum_node
            size_node n_left sum_left } ::
        scan_evals sigma responses_by_sample possible_split_values sorted_samples var sum_node
          size_node min_child_size s fuel (i + 1) n_left sum_left

/-- The update of the running best by an evaluated boundary. -/
def Best.step {k : Nat} (best : Best) (e : Evaluated k) : Best :=
  best.consider e.value e.var e.loss

/-- The boundaries evaluated by one call of `find_best_split_value`, in scan order. -/
def value_evals {k : Nat} (sigma : Matrix (Fin 2) (Fin 2) ℚ) (data : Data)
    (node var : Nat) (sum_node : Vec k) (size_node min_child_size : Nat)
    (responses_by_sample : Nat → Vec k) (samples : List (List Nat))
    (s : Scratch k) : List (Evaluated k) :=
  let possible_split_values := (data.get_all_values (samples.getD node []) var).1
  let sorted_samples := (data.get_all_values (samples.getD node []) var).2
  if possible_split_values.length < 2 then []
  else
    let num_splits := possible_split_values.length - 1
    let filled := (fill_buckets data var responses_by_sample sorted_samples size_node
      (zero_buckets num_splits s)).2
    scan_evals sigma responses_by_sample possible_split_values sorted_samples var
      sum_node size_node min_child_size filled num_splits 0 0 0

/-- The boundaries evaluated while the candidate variables `vars` are scanned one
after the other, the scratch buffers being handed from one scan to the next. -/
def evals_from {k : Nat} (sigma : Matrix (Fin 2) (Fin 2) ℚ) (data : Data)
    (node : Nat) (sum_node : Vec k) (size_node min_child_size : Nat)
    (responses_by_sample : Nat → Vec k) (samples : List (List Nat)) :
    List Nat → Scratch k → List (Evaluated k)
  | [], _ => []
  | var :: vars, s =>
    value_evals sigma data node var sum_node size_node min_child_size
        responses_by_sample samples s ++
      evals_from sigma data node sum_node size_node min_child_size responses_by_sample samples
        vars (find_best_split_value sigma data node var sum_node size_node min_child_size
          responses_by_sample samples (s, Best.init)).1

/-- The boundaries evaluated by one call of `find_best_split`, in scan order. -/
def search_evals {k : Nat} (rule : MultiRegressionSplittingRule k) (data : Data) (node : Nat)
    (possible_split_vars : List Nat) (responses_by_sample : Nat → Vec k)
    (samples : List (List Nat)) : List (Evaluated k) :=
  let size_node := (samples.getD node []).length
  evals_from rule.sigma data node (sum_node_of responses_by_sample (samples.getD node []))
    size_node (min_child_size_of rule.alpha size_node) responses_by_sample samples
    possible_split_vars rule.scratch

/-! ## Notions used in the statements -/

/-- Two scratch states hold the same counts and sums in the cells `0 .. n - 1`. -/
def agree_below {k : Nat} (n : Nat) (s s' : Scratch k) : Prop :=
  ∀ j, j < n → s.counter j = s'.counter j ∧ s.sums j = s'.sums j

/-- The C++ comparison `a < b` on doubles: false as soon as one side is NaN. -/
def dlt : Val → Val → Bool
  | some x, some y => decide (x < y)
  | _, _ => false

/-- Modelled from the spec: the contract of `Data::get_all_values`, whose code is
not part of the splitting rule, on a node in which no sample has a missing value on
the variable. For the samples of a node and a variable, `sorted_samples` is a
permutation of the node's samples in non-decreasing order of value, and
`possible_split_values` are the distinct values the variable takes in the node, in
strictly ascending order. A node of two or more samples one of which has a missing
value does not meet it, every comparison with NaN being false. -/
def accessor_contract (data : Data) (node_samples : List Nat) (var : Nat) : Prop :=
  (data.get_all_values node_samples var).2.Perm node_samples ∧
  ((data.get_all_values node_samples var).2.map (fun s => data.get s var)).Pairwise
    (fun a b => dle a b = true) ∧
  (data.get_all_values node_samples var).1.Pairwise (fun a b => dlt a b = true) ∧
  ∀ v, v ∈ (data.get_all_values node_samples var).1 ↔
    ∃ s, s ∈ node_samples ∧ data.get s var = v

/-- The number of samples of the node that go left at threshold `t`: those whose
value on `var` is `<= t`. -/
def left_count (data : Data) (var : Nat) (t : Val) (node_samples : List Nat) : Nat :=
  node_samples.countP (fun s => dle (data.get s var) t)

/-- The number of samples of the node that go right at threshold `t`: those whose
value on `var` is `> t`. -/
def right_count (data : Data) (var : Nat) (t : Val) (node_samples : List Nat) : Nat :=
  node_samples.countP (fun s => dgt (data.get s var) t)

/-- The loop of lines 115-129 on one bucket array, by recursion over the sample
ordering: each sample but the last adds its weight `w` to the current bucket, and
the bucket index moves on when the next value compares different. -/
def fill_list {M : Type} [Add M] (val : Nat → Val) (w : Nat → M) :
    List Nat → Nat → (Nat → M) → Nat × (Nat → M)
  | [], idx, B => (idx, B)
  | [_], idx, B => (idx, B)
  | a :: b :: rest, idx, B =>
    fill_list val w (b :: rest) (if dne (val a) (val b) then idx + 1 else idx)
      (Function.update B idx (B idx + w a))

/-- The sum of the weights `w` of the samples of `l` that satisfy `p`. -/
def wsum {M : Type} [AddCommMonoid M] (w : Nat → M) (p : Nat → Bool) (l : List Nat) : M :=
  ((l.filter p).map w).sum

/-! ## The loss as the specification words it -/

/-- The samples of the node that go left at threshold `t` (value `<= t`). -/
def left_child (data : Data) (var : Nat) (t : Val) (node_samples : List Nat) : List Nat :=
  node_samples.filter (fun s => dle (data.get s var) t)

/-- The samples of the node that go right at threshold `t` (value `> t`). -/
def right_child (data : Data) (var : Nat) (t : Val) (node_samples : List Nat) : List Nat :=
  node_samples.filter (fun s => dgt (data.get s var) t)

/-- The arithmetic mean of the outcome vectors of the samples `l`. -/
def mean_of {k : Nat} (responses_by_sample : Nat → Vec k) (l : List Nat) : Vec k :=
  fun j => (l.map (fun s => responses_by_sample s j)).sum / (l.length : ℚ)

/-- The within-child dispersion of the specification: the sum over the child's
samples of the squared distance `(y - mu)^T sigma^{-1} (y - mu)` to the child's
mean `mu`. -/
def dispersion {k : Nat} (sigma : Matrix (Fin 2) (Fin 2) ℚ)
    (responses_by_sample : Nat → Vec k) (l : List Nat) : ℚ :=
  (l.map (fun s => squared_distance sigma
    (responses_by_sample s - mean_of responses_by_sample l))).sum

/-- The loss of the specification at threshold `t` of variable `var`:
`(n_left / size_node) * ss_left + (n_right / size_node) * ss_right` with the two
fractions taken in the rationals. -/
def spec_loss {k : Nat} (sigma : Matrix (Fin 2) (Fin 2) ℚ) (data : Data)
    (responses_by_sample : Nat → Vec k) (node_samples : List Nat) (var : Nat) (t : Val) : ℚ :=
  ((left_child data var t node_samples).length : ℚ) / (node_samples.length : ℚ)
      * dispersion sigma responses_by_sample (left_child data var t node_samples)
    + ((right_child data var t node_samples).length : ℚ) / (node_samples.length : ℚ)
      * dispersion sigma responses_by_sample (right_child data var t node_samples)

/-! ## A small dataset -/

/-- One covariate with the values `1, 2, 3, 4` on the samples `0, 1, 2, 3`. -/
def data4 : Data :=
  { get := fun sample _ => some ((sample : ℚ) + 1),
    get_all_values := fun _ _ => ([some 1, some 2, some 3, some 4], [0, 1, 2, 3]) }

/-- Two outcomes per sample: `(0, 0)` on the samples `0, 1` and `(10, 10)` on the
samples `2, 3`. -/
def responses4 : Nat → Vec 2 :=
  fun sample _ => if sample < 2 then 0 else 10

/-- A scratch state holding zeros. -/
def scratch0 (k : Nat) : Scratch k := { counter := fun _ => 0, sums := fun _ => 0 }

/-- A rule for two outcomes with `alpha = 0.05`. -/
def rule4 : MultiRegressionSplittingRule 2 :=
  MultiRegressionSplittingRule.new 2 (1 / 20) 0 (scratch0 2)

/-- A rule for two outcomes with `alpha = 0.5`. -/
def rule4_half : MultiRegressionSplittingRule 2 :=
  MultiRegressionSplittingRule.new 2 (1 / 2) 0 (scratch0 2)

/-- A rule for two outcomes with `alpha = 1`. -/
def rule4_one : MultiRegressionSplittingRule 2 :=
  MultiRegressionSplittingRule.new 2 1 0 (scratch0 2)

/-! ## Notions used for the later claims -/

/-- The numbers of rows and columns of a matrix with `m` rows and `n` columns. -/
def dims {m n : Nat} (_ : Matrix (Fin m) (Fin n) ℚ) : Nat × Nat := (m, n)

/-- The value of `n_left` after the step `idx` of a scan that entered step `i` with
the count `n0`: the counters of the buckets `i .. idx` added to `n0` (line 136). -/
def cum_count {k : Nat} (s : Scratch k) (i n0 idx : Nat) : Nat :=
  n0 + ∑ j in Finset.Ico i (idx + 1), s.counter j

/-- The value of `sum_left` after the step `idx` of a scan that entered step `i`
with the sum `s0`: the sums of the buckets `i .. idx` added to `s0` (line 137). -/
def cum_sum {k : Nat} (s : Scratch k) (i : Nat) (s0 : Vec k) (idx : Nat) : Vec k :=
  s0 + ∑ j in Finset.Ico i (idx + 1), s.sums j

/-- The scan of lines 135-175 without the early stop: a boundary whose right child
is too small is passed over like one whose left child is too small, and the scan
goes on to the next boundary. -/
def scan_no_break {k : Nat} (sigma : Matrix (Fin 2) (Fin 2) ℚ)
    (responses_by_sample : Nat → Vec k) (possible_split_values : List Val)
    (sorted_samples : List Nat) (var : Nat) (sum_node : Vec k)
    (size_node min_child_size : Nat) (s : Scratch k) :
    Nat → Nat → Nat → Vec k → Best → Best
  | 0, _, _, _, best => best
  | fuel + 1, i, n_left, sum_left, best =>
    let n_left := n_left + s.counter i
    let sum_left := sum_left + s.sums i
    if n_left < min_child_size ∨ size_node - n_left < min_child_size then
      scan_no_break sigma responses_by_sample possible_split_values sorted_samples var
        sum_node size_node min_child_size s fuel (i + 1) n_left sum_left best
    else
      scan_no_break sigma responses_by_sample possible_split_values sorted_samples var
        sum_node size_node min_child_size s fuel (i + 1) n_left sum_left
        (best.consider (possible_split_values.getD i none) var
          (boundary_loss sigma responses_by_sample sorted_samples sum_node size_node
            n_left sum_left))

/-- The method `find_best_split_value` with the scan replaced by the scan without
the early stop. -/
def find_best_split_value_no_break {k : Nat} (sigma : Matrix (Fin 2) (Fin 2) ℚ) (data : Data)
    (node var : Nat) (sum_node : Vec k) (size_node min_child_size : Nat)
    (responses_by_sample : Nat → Vec k) (samples : List (List Nat))
    (st : Scratch k × Best) : Scratch k × Best :=
  let possible_split_values := (data.get_all_values (samples.getD node []) var).1
  let sorted_samples := (data.get_all_values (samples.getD node []) var).2
  if possible_split_values.length < 2 then st
  else
    let num_splits := possible_split_values.length - 1
    let filled := (fill_buckets data var responses_by_sample sorted_samples size_node
      (zero_buckets num_splits st.1)).2
    (filled, scan_no_break sigma responses_by_sample possible_split_values sorted_samples var
      sum_node size_node min_child_size filled num_splits 0 0 0 st.2)

/-- The boundary of index `idx` of a scan that entered step `i` with the count `n0`
and the sum `s0`, as it is recorded when its loss is computed. -/
def boundary_at {k : Nat} (sigma : Matrix (Fin 2) (Fin 2) ℚ)
    (responses_by_sample : Nat → Vec k) (possible_split_values : List Val)
    (sorted_samples : List Nat) (var : Nat) (sum_node : Vec k) (size_node : Nat)
    (s : Scratch k) (i n0 : Nat) (s0 : Vec k) (idx : Nat) : Evaluated k :=
  { index := idx, n_left := cum_count s i n0 idx, sum_left := cum_sum s i s0 idx,
    value := possible_split_values.getD idx none, var := var,
    loss := boundary_loss sigma responses_by_sample sorted_samples sum_node size_node
      (cum_count s i n0 idx) (cum_sum s i s0 idx) }

/-- A step of the scan of lines 135-175: the loop index `i` and the values of
`n_left` and `sum_left` after lines 136-137. -/
structure Step (k : Nat) where
  index : Nat
  n_left : Nat
  sum_left : Vec k

/-- The steps the loop of lines 135-175 goes through, in order: the same control
flow as `scan`, recording every iteration that is entered (the one that stops the
loop included). -/
def scan_steps {k : Nat} (size_node min_child_size : Nat) (s : Scratch k) :
    Nat → Nat → Nat → Vec k → List (Step k)
  | 0, _, _, _ => []
  | fuel + 1, i, n_left, sum_left =>
    let n_left := n_left + s.counter i
    let sum_left := sum_left + s.sums i
    if n_left < min_child_size then
      { index := i, n_left := n_left, sum_left := sum_left } ::
        scan_steps size_node min_child_size s fuel (i + 1) n_left sum_left
    else
      let n_right := size_node - n_left
      if n_right < min_child_size then [{ index := i, n_left := n_left, sum_left := sum_left }]
      else
        { index := i, n_left := n_left, sum_left := sum_left } ::
          scan_steps size_node min_child_size s fuel (i + 1) n_left sum_left

/-- The scratch buffers as the scan of one call of `find_best_split_value` finds
them: zeroed on `0 .. num_splits - 1` and filled by the loop of lines 115-129. -/
def filled_buckets {k : Nat} (data : Data) (node var : Nat) (size_node : Nat)
    (responses_by_sample : Nat → Vec k) (samples : List (List Nat)) (s : Scratch k) :
    Scratch k :=
  (fill_buckets data var responses_by_sample
    (data.get_all_values (samples.getD node []) var).2 size_node
    (zero_buckets ((data.get_all_values (samples.getD node []) var).1.length - 1) s)).2

/-- The steps gone through by the scan of one call of `find_best_split_value`. -/
def value_steps {k : Nat} (data : Data) (node var : Nat) (size_node min_child_size : Nat)
    (responses_by_sample : Nat → Vec k) (samples : List (List Nat)) (s : Scratch k) :
    List (Step k) :=
  if (data.get_all_values (samples.getD node []) var).1.length < 2 then []
  else
    scan_steps size_node min_child_size
      (filled_buckets data node var size_node responses_by_sample samples s)
      ((data.get_all_values (samples.getD node []) var).1.length - 1) 0 0 0

/-- The accumulations made by the loop of lines 115-129 over the iterations `is`,
entered with the bucket index `split_index`: for each iteration `i`, in order, the
pair of the position `i` of the accumulated sample in `sorted_samples` and of the
bucket it is accumulated into. -/
def fill_trace (data : Data) (var : Nat) (sorted_samples : List Nat) :
    List Nat → Nat → List (Nat × Nat)
  | [], _ => []
  | i :: is, split_index =>
    (i, split_index) ::
      fill_trace data var sorted_samples is
        (if dne (data.get (sorted_samples.getD i 0) var)
            (data.get (sorted_samples.getD (i + 1) 0) var)
          then split_index + 1 else split_index)

/-- The accumulations made by the bucket-filling pass of one scan. -/
def fill_accumulations (data : Data) (var : Nat) (sorted_samples : List Nat)
    (size_node : Nat) : List (Nat × Nat) :=
  fill_trace data var sorted_samples (List.range (pred_size_t size_node)) 0

/-- One covariate with the values `1, 2` on the samples `0, 1` and a missing value
on the sample `2`; the accessor returns the non-missing distinct values and puts
the sample with the missing value last. -/
def data_nan : Data :=
  { get := fun sample _ => if sample = 0 then some 1 else if sample = 1 then some 2 else none,
    get_all_values := fun _ _ => ([some 1, some 2], [0, 1, 2]) }

/-- The threshold `t` of the variable `var` leaves at least `min_child_size` samples
of the node on both sides. -/
def admissible (data : Data) (var : Nat) (node_samples : List Nat) (min_child_size : Nat)
    (t : Val) : Prop :=
  min_child_size ≤ left_count data var t node_samples ∧
    min_child_size ≤ right_count data var t node_samples

instance admissible_decidable (data : Data) (var : Nat) (node_samples : List Nat)
    (min_child_size : Nat) (t : Val) :
    Decidable (admissible data var node_samples min_child_size t) :=
  inferInstanceAs (Decidable (_ ∧ _))

/-- The indices a call of `find_best_split_value` uses on its arrays: the cells of
`counter` and rows of `sums` zeroed by lines 109-110, those written by the filling
loop (lines 120-121), those read by the scan (lines 136-137), and the positions of
`sorted_samples` read by the filling loop (lines 116-117) and by the two inner loops
of the scan (lines 155 and 162). -/
structure Accesses where
  buckets_zeroed : List Nat
  buckets_written : List Nat
  buckets_read : List Nat
  positions : List Nat

/-- The accesses of one call of `find_best_split_value`. -/
def value_accesses {k : Nat} (sigma : Matrix (Fin 2) (Fin 2) ℚ) (data : Data)
    (node var : Nat) (sum_node : Vec k) (size_node min_child_size : Nat)
    (responses_by_sample : Nat → Vec k) (samples : List (List Nat)) (s : Scratch k) :
    Accesses :=
  if (data.get_all_values (samples.getD node []) var).1.length < 2 then
    { buckets_zeroed := [], buckets_written := [], buckets_read := [], positions := [] }
  else
    { buckets_zeroed :=
        List.range ((data.get_all_values (samples.getD node []) var).1.length - 1),
      buckets_written :=
        (fill_accumulations data var (data.get_all_values (samples.getD node []) var).2
          size_node).map Prod.snd,
      buckets_read :=
        (value_steps data node var size_node min_child_size responses_by_sample samples s).map
          (fun st => st.index),
      positions :=
        (List.range (pred_size_t size_node)).flatMap (fun i => [i, i + 1]) ++
        (value_evals sigma data node var sum_node size_node min_child_size
          responses_by_sample samples s).flatMap
          (fun e => List.range e.n_left ++ List.range' e.n_left (size_node - e.n_left)) }

/-! ## Double arithmetic with overflow

The second embedding of the rule follows the arithmetic on the outcomes in
doubles, so that an overflow to an infinity and the NaN it leads to are visible. -/

/-- A C++ `double` in the arithmetic on outcomes: a finite value, `+inf`, `-inf` or
NaN. The sign of zero and the subnormal numbers are not modelled. -/
inductive Dbl where
  | fin (q : ℚ)
  | pinf
  | ninf
  | nan
deriving DecidableEq

/-- The largest finite double, `DBL_MAX = (2^53 - 1) * 2^971`. -/
@[irreducible] def dbl_max : ℚ := (((2 ^ 53 - 1) * 2 ^ 971 : Nat) : ℚ)

/-- The double an exact result is rounded to: the nearest double, or an infinity
when the nearest double with an unbounded exponent lies beyond `DBL_MAX`. -/
def Dbl.ofRat (q : ℚ) : Dbl :=
  if dbl_max < round_double q then Dbl.pinf
  else if round_double q < - dbl_max then Dbl.ninf
  else Dbl.fin (round_double q)

/-- The test `std::isfinite`. -/
def Dbl.is_finite : Dbl → Bool
  | Dbl.fin _ => true
  | _ => false

/-- The negation of a double. -/
def Dbl.neg : Dbl → Dbl
  | Dbl.fin q => Dbl.fin (-q)
  | Dbl.pinf => Dbl.ninf
  | Dbl.ninf => Dbl.pinf
  | Dbl.nan => Dbl.nan

/-- The sum of two doubles; `inf + (-inf)` is NaN. -/
def Dbl.add : Dbl → Dbl → Dbl
  | Dbl.fin a, Dbl.fin b => Dbl.ofRat (a + b)
  | Dbl.fin _, Dbl.pinf => Dbl.pinf
  | Dbl.fin _, Dbl.ninf => Dbl.ninf
  | Dbl.pinf, Dbl.fin _ => Dbl.pinf
  | Dbl.pinf, Dbl.pinf => Dbl.pinf
  | Dbl.ninf, Dbl.fin _ => Dbl.ninf
  | Dbl.ninf, Dbl.ninf => Dbl.ninf
  | _, _ => Dbl.nan

/-- The difference of two doubles. -/
def Dbl.sub (a b : Dbl) : Dbl := a.add b.neg

/-- The product of two doubles; `0 * inf` is NaN. -/
def Dbl.mul : Dbl → Dbl → Dbl
  | Dbl.fin a, Dbl.fin b => Dbl.ofRat (a * b)
  | Dbl.fin a, Dbl.pinf => if a = 0 then Dbl.nan else if 0 < a then Dbl.pinf else Dbl.ninf
  | Dbl.fin a, Dbl.ninf => if a = 0 then Dbl.nan else if 0 < a then Dbl.ninf else Dbl.pinf
  | Dbl.pinf, Dbl.fin b => if b = 0 then Dbl.nan else if 0 < b then Dbl.pinf else Dbl.ninf
  | Dbl.ninf, Dbl.fin b => if b = 0 then Dbl.nan else if 0 < b then Dbl.ninf else Dbl.pinf
  | Dbl.pinf, Dbl.pinf => Dbl.pinf
  | Dbl.ninf, Dbl.ninf => Dbl.pinf
  | Dbl.pinf, Dbl.ninf => Dbl.ninf
  | Dbl.ninf, Dbl.pinf => Dbl.ninf
  | _, _ => Dbl.nan

/-- The quotient of two doubles; `0 / 0` and `inf / inf` are NaN, and a zero divisor
counts as `+0`. -/
def Dbl.div : Dbl → Dbl → Dbl
  | Dbl.fin a, Dbl.fin b =>
    if b = 0 then (if a = 0 then Dbl.nan else if 0 < a then Dbl.pinf else Dbl.ninf)
    else Dbl.ofRat (a / b)
  | Dbl.fin _, Dbl.pinf => Dbl.fin 0
  | Dbl.fin _, Dbl.ninf => Dbl.fin 0
  | Dbl.pinf, Dbl.fin b => if 0 ≤ b then Dbl.pinf else Dbl.ninf
  | Dbl.ninf, Dbl.fin b => if 0 ≤ b then Dbl.ninf else Dbl.pinf
  | _, _ => Dbl.nan

/-- The comparison `a < b` on doubles: false as soon as one side is NaN. -/
def Dbl.lt : Dbl → Dbl → Bool
  | Dbl.fin a, Dbl.fin b => decide (a < b)
  | Dbl.fin _, Dbl.pinf => true
  | Dbl.ninf, Dbl.fin _ => true
  | Dbl.ninf, Dbl.pinf => true
  | _, _ => false

/-- The conversion of a `size_t` to `double`. -/
def Dbl.ofNat (n : Nat) : Dbl := Dbl.ofRat (n : ℚ)

/-- An outcome vector with `k` components held in doubles. -/
abbrev DVec (k : Nat) := Fin k → Dbl

/-- `Eigen::ArrayXd::Zero(num_outcomes)`. -/
def DVec.zero (k : Nat) : DVec k := fun _ => Dbl.fin 0

/-- The componentwise sum of two outcome vectors. -/
def DVec.add {k : Nat} (a b : DVec k) : DVec k := fun j => (a j).add (b j)

/-- The componentwise difference of two outcome vectors. -/
def DVec.sub {k : Nat} (a b : DVec k) : DVec k := fun j => (a j).sub (b j)

/-- The quotient of an outcome vector by a `size_t`. -/
def DVec.div_size {k : Nat} (a : DVec k) (n : Nat) : DVec k := fun j => (a j).div (Dbl.ofNat n)

/-! ## The rule in double arithmetic -/

/-- The scratch buffers `counter` and `sums`, the sums held in doubles. -/
structure DScratch (k : Nat) where
  counter : Nat → Nat
  sums : Nat → DVec k

/-- The running best split, the loss held in a double. -/
structure DBest where
  best_value : Val
  best_var : Nat
  best_loss : Dbl
deriving DecidableEq

/-- The initial running best of `find_best_split`: `best_loss = 1e11`. -/
def DBest.init : DBest :=
  { best_value := some 0, best_var := 0, best_loss := Dbl.fin sentinel_loss }

/-- `Matrix2d::inverse()` in doubles: `invdet = 1 / determinant`, and each entry of
the adjugate multiplied by `invdet`. -/
def fl_inverse (m : Matrix (Fin 2) (Fin 2) ℚ) : Fin 2 → Fin 2 → Dbl :=
  let e : Fin 2 → Fin 2 → Dbl := fun i j => Dbl.ofRat (m i j)
  let invdet := (Dbl.fin 1).div (((e 0 0).mul (e 1 1)).sub ((e 1 0).mul (e 0 1)))
  fun i j =>
    if i = 0 then (if j = 0 then (e 1 1).mul invdet else ((e 0 1).neg).mul invdet)
    else (if j = 0 then ((e 1 0).neg).mul invdet else (e 0 0).mul invdet)

/-- Component `i` of a vector of doubles, `0` outside its range. -/
def dcomp {k : Nat} (d : DVec k) (i : Nat) : Dbl :=
  if h : i < k then d ⟨i, h⟩ else Dbl.fin 0

/-- The product `d.transpose() * sigma.inverse() * d` of line 157 and line 164, in
doubles. -/
def fl_squared_distance {k : Nat} (sigma : Matrix (Fin 2) (Fin 2) ℚ) (d : DVec k) : Dbl :=
  let s := fl_inverse sigma
  ((((dcomp d 0).mul (s 0 0)).add ((dcomp d 1).mul (s 1 0))).mul (dcomp d 0)).add
    ((((dcomp d 0).mul (s 0 1)).add ((dcomp d 1).mul (s 1 1))).mul (dcomp d 1))

/-- Lines 109-110 on the scratch buffers held in doubles. -/
def fl_zero_buckets {k : Nat} (num_splits : Nat) (s : DScratch k) : DScratch k :=
  { counter := fun j => if j < num_splits then 0 else s.counter j,
    sums := fun j => if j < num_splits then DVec.zero k else s.sums j }

/-- One iteration of the loop of lines 115-129, the sums held in doubles. -/
def fl_fill_step {k : Nat} (data : Data) (var : Nat) (responses_by_sample : Nat → DVec k)
    (sorted_samples : List Nat) (st : Nat × DScratch k) (i : Nat) : Nat × DScratch k :=
  let split_index := st.1
  let sample := sorted_samples.getD i 0
  let next_sample := sorted_samples.getD (i + 1) 0
  let sample_value := data.get sample var
  let sums := Function.update st.2.sums split_index
    ((st.2.sums split_index).add (responses_by_sample sample))
  let counter := Function.update st.2.counter split_index (st.2.counter split_index + 1)
  let next_sample_value := data.get next_sample var
  (if dne sample_value next_sample_value then split_index + 1 else split_index,
    { counter := counter, sums := sums })

/-- Lines 113-129: the loop `for (size_t i = 0; i < size_node - 1; i++)`, the sums
held in doubles. -/
def fl_fill_buckets {k : Nat} (data : Data) (var : Nat) (responses_by_sample : Nat → DVec k)
    (sorted_samples : List Nat) (size_node : Nat) (s : DScratch k) : Nat × DScratch k :=
  (List.range (pred_size_t size_node)).foldl
    (fl_fill_step data var responses_by_sample sorted_samples) (0, s)

/-- Lines 152-165 in doubles: the accumulator `ssl` after both inner loops. -/
def fl_ssl_of {k : Nat} (sigma : Matrix (Fin 2) (Fin 2) ℚ) (responses_by_sample : Nat → DVec k)
    (sorted_samples : List Nat) (size_node n_left : Nat) (mu_left mu_right : DVec k) : Dbl :=
  let ssl := (List.range n_left).foldl
    (fun acc i => acc.add (fl_squared_distance sigma
      ((responses_by_sample (sorted_samples.getD i 0)).sub mu_left))) (Dbl.fin 0)
  (List.range' n_left (size_node - n_left)).foldl
    (fun acc i => acc.add (fl_squared_distance sigma
      ((responses_by_sample (sorted_samples.getD i 0)).sub mu_right))) ssl

/-- Line 167 in doubles: `n_left / size_node * ssl + n_right / size_node * ssr`; both
quotients are divisions of `size_t` by `size_t`, converted to `double` for the
product. -/
def fl_loss_of (size_node n_left n_right : Nat) (ssl ssr : Dbl) : Dbl :=
  ((Dbl.ofNat (n_left / size_node)).mul ssl).add ((Dbl.ofNat (n_right / size_node)).mul ssr)

/-- Lines 138-165 in doubles: the accumulator `ssl` at a boundary that passed both
size tests, with `mu_left = sum_left / n_left` and
`mu_right = (sum_node - sum_left) / n_right`. -/
def fl_boundary_ssl {k : Nat} (sigma : Matrix (Fin 2) (Fin 2) ℚ)
    (responses_by_sample : Nat → DVec k) (sorted_samples : List Nat) (sum_node : DVec k)
    (size_node n_left : Nat) (sum_left : DVec k) : Dbl :=
  fl_ssl_of sigma responses_by_sample sorted_samples size_node n_left
    (sum_left.div_size n_left) ((sum_node.sub sum_left).div_size (size_node - n_left))

/-- Lines 138-167 in doubles: the loss computed at a boundary that passed both size
tests; `ssr` is `0`. -/
def fl_boundary_loss {k : Nat} (sigma : Matrix (Fin 2) (Fin 2) ℚ)
    (responses_by_sample : Nat → DVec k) (sorted_samples : List Nat) (sum_node : DVec k)
    (size_node n_left : Nat) (sum_left : DVec k) : Dbl :=
  fl_loss_of size_node n_left (size_node - n_left)
    (fl_boundary_ssl sigma responses_by_sample sorted_samples sum_node size_node n_left sum_left)
    (Dbl.fin 0)

/-- Lines 169-174 in doubles: the update of the running best by a boundary of loss
`loss`; the test `loss < best_loss` is false when `loss` is NaN. -/
def DBest.consider (best : DBest) (value : Val) (var : Nat) (loss : Dbl) : DBest :=
  if loss.lt best.best_loss then { best_value := value, best_var := var, best_loss := loss }
  else best

/-- Lines 135-175 in doubles: the loop `for (size_t i = 0; i < num_splits; ++i)`,
started at index `i` with `fuel = num_splits - i` iterations left. -/
def fl_scan {k : Nat} (sigma : Matrix (Fin 2) (Fin 2) ℚ) (responses_by_sample : Nat → DVec k)
    (possible_split_values : List Val) (sorted_samples : List Nat) (var : Nat)
    (sum_node : DVec k) (size_node min_child_size : Nat) (s : DScratch k) :
    Nat → Nat → Nat → DVec k → DBest → DBest
  | 0, _, _, _, best => best
  | fuel + 1, i, n_left, sum_left, best =>
    let n_left := n_left + s.counter i
    let sum_left := sum_left.add (s.sums i)
    if n_left < min_child_size then
      fl_scan sigma responses_by_sample possible_split_values sorted_samples var sum_node
        size_node min_child_size s fuel (i + 1) n_left sum_left best
    else
      let n_right := size_node - n_left
      if n_right < min_child_size then best
      else
        let loss := fl_boundary_loss sigma responses_by_sample sorted_samples sum_node
          size_node n_left sum_left
        fl_scan sigma responses_by_sample possible_split_values sorted_samples var sum_node
          size_node min_child_size s fuel (i + 1) n_left sum_left
          (best.consider (possible_split_values.getD i none) var loss)

/-- The method `find_best_split_value` (lines 85-176) in doubles. -/
def fl_find_best_split_value {k : Nat} (sigma : Matrix (Fin 2) (Fin 2) ℚ) (data : Data)
    (node var : Nat) (sum_node : DVec k) (size_node min_child_size : Nat)
    (responses_by_sample : Nat → DVec k) (samples : List (List Nat))
    (st : DScratch k × DBest) : DScratch k × DBest :=
  let possible_split_values := (data.get_all_values (samples.getD node []) var).1
  let sorted_samples := (data.get_all_values (samples.getD node []) var).2
  if possible_split_values.length < 2 then st
  else
    let num_splits := possible_split_values.length - 1
    let filled := (fl_fill_buckets data var responses_by_sample sorted_samples size_node
      (fl_zero_buckets num_splits st.1)).2
    (filled, fl_scan sigma responses_by_sample possible_split_values sorted_samples var
      sum_node size_node min_child_size filled num_splits 0 0 (DVec.zero k) st.2)

/-- Lines 59-62 in doubles: the sum of the outcome rows of the node's samples. -/
def fl_sum_node_of {k : Nat} (responses_by_sample : Nat → DVec k) (node_samples : List Nat) :
    DVec k :=
  node_samples.foldl (fun acc sample => acc.add (responses_by_sample sample)) (DVec.zero k)

/-- What a call of `find_best_split` leaves behind, the scratch sums held in doubles. -/
structure DOutcome (k : Nat) where
  leaf : Bool
  split_vars : List Nat
  split_values : List Val
  scratch : DScratch k

/-- Lines 55-72 in doubles: the scratch buffers and the running best after all
candidate variables were scanned; `s` is the content of the scratch buffers at the
call. -/
def fl_search {k : Nat} (rule : MultiRegressionSplittingRule k) (s : DScratch k) (data : Data)
    (node : Nat) (possible_split_vars : List Nat) (responses_by_sample : Nat → DVec k)
    (samples : List (List Nat)) : DScratch k × DBest :=
  let size_node := (samples.getD node []).length
  let min_child_size := min_child_size_of rule.alpha size_node
  let sum_node := fl_sum_node_of responses_by_sample (samples.getD node [])
  possible_split_vars.foldl
    (fun st var => fl_find_best_split_value rule.sigma data node var sum_node size_node
      min_child_size responses_by_sample samples st)
    (s, DBest.init)

/-- The method `find_best_split` (lines 47-83) in doubles; the final test
`best_loss > 1e10` is false when `best_loss` is NaN. -/
def fl_find_best_split {k : Nat} (rule : MultiRegressionSplittingRule k) (s : DScratch k)
    (data : Data) (node : Nat) (possible_split_vars : List Nat)
    (responses_by_sample : Nat → DVec k) (samples : List (List Nat))
    (split_vars : List Nat) (split_values : List Val) : DOutcome k :=
  let r := fl_search rule s data node possible_split_vars responses_by_sample samples
  if (Dbl.fin leaf_bound).lt r.2.best_loss then
    { leaf := true, split_vars := split_vars, split_values := split_values, scratch := r.1 }
  else
    { leaf := false, split_vars := split_vars.set node r.2.best_var,
      split_values := split_values.set node r.2.best_value, scratch := r.1 }

/-- A boundary that reached line 167 in the double arithmetic: the loop index, the
cumulated `n_left`, the threshold, the scanned variable, the accumulator `ssl` and
the loss computed there. -/
structure DEvaluated where
  index : Nat
  n_left : Nat
  value : Val
  var : Nat
  ssl : Dbl
  loss : Dbl
deriving DecidableEq

/-- The boundaries evaluated by the loop of lines 135-175 in scan order, in doubles:
the same control flow as `fl_scan`, recording each boundary instead of updating the
running best. -/
def fl_scan_evals {k : Nat} (sigma : Matrix (Fin 2) (Fin 2) ℚ)
    (responses_by_sample : Nat → DVec k) (possible_split_values : List Val)
    (sorted_samples : List Nat) (var : Nat) (sum_node : DVec k)
    (size_node min_child_size : Nat) (s : DScratch k) :
    Nat → Nat → Nat → DVec k → List DEvaluated
  | 0, _, _, _ => []
  | fuel + 1, i, n_left, sum_left =>
    let n_left := n_left + s.counter i
    let sum_left := sum_left.add (s.sums i)
    if n_left < min_child_size then
      fl_scan_evals sigma responses_by_sample possible_split_values sorted_samples var sum_node
        size_node min_child_size s fuel (i + 1) n_left sum_left
    else
      let n_right := size_node - n_left
      if n_right < min_child_size then []
      else
        { index := i, n_left := n_left,
          value := possible_split_values.getD i none, var := var,
          ssl := fl_boundary_ssl sigma responses_by_sample sorted_samples sum_node
            size_node n_left sum_left,
          loss := fl_boundary_loss sigma responses_by_sample sorted_samples sum_node
            size_node n_left sum_left } ::
        fl_scan_evals sigma responses_by_sample possible_split_values sorted_samples var sum_node
          size_node min_child_size s fuel (i + 1) n_left sum_left

/-- The update of the running best by an evaluated boundary. -/
def DBest.step (best : DBest) (e : DEvaluated) : DBest :=
  best.consider e.value e.var e.loss

/-- The boundaries evaluated by one call of `find_best_split_value`, in doubles. -/
def fl_value_evals {k : Nat} (sigma : Matrix (Fin 2) (Fin 2) ℚ) (data : Data)
    (node var : Nat) (sum_node : DVec k) (size_node min_child_size : Nat)
    (responses_by_sample : Nat → DVec k) (samples : List (List Nat))
    (s : DScratch k) : List DEvaluated :=
  let possible_split_values := (data.get_all_values (samples.getD node []) var).1
  let sorted_samples := (data.get_all_values (samples.getD node []) var).2
  if possible_split_values.length < 2 then []
  else
    let num_splits := possible_split_values.length - 1
    let filled := (fl_fill_buckets data var responses_by_sample sorted_samples size_node
      (fl_zero_buckets num_splits s)).2
    fl_scan_evals sigma responses_by_sample possible_split_values sorted_samples var
      sum_node size_node min_child_size filled num_splits 0 0 (DVec.zero k)

/-- The boundaries evaluated while the candidate variables `vars` are scanned one
after the other, in doubles, the scratch buffers being handed from one scan to the
next. -/
def fl_evals_from {k : Nat} (sigma : Matrix (Fin 2) (Fin 2) ℚ) (data : Data)
    (node : Nat) (sum_node : DVec k) (size_node min_child_size : Nat)
    (responses_by_sample : Nat → DVec k) (samples : List (List Nat)) :
    List Nat → DScratch k → List DEvaluated
  | [], _ => []
  | var :: vars, s =>
    fl_value_evals sigma data node var sum_node size_node min_child_size
        responses_by_sample samples s ++
      fl_evals_from sigma data node sum_node size_node min_child_size responses_by_sample
        samples vars (fl_find_best_split_value sigma data node var sum_node size_node
          min_child_size responses_by_sample samples (s, DBest.init)).1

/-- The boundaries evaluated by one call of `find_best_split`, in doubles. -/
def fl_search_evals {k : Nat} (rule : MultiRegressionSplittingRule k) (s : DScratch k)
    (data : Data) (node : Nat) (possible_split_vars : List Nat)
    (responses_by_sample : Nat → DVec k) (samples : List (List Nat)) : List DEvaluated :=
  let size_node := (samples.getD node []).length
  fl_evals_from rule.sigma data node (fl_sum_node_of responses_by_sample (samples.getD node []))
    size_node (min_child_size_of rule.alpha size_node) responses_by_sample samples
    possible_split_vars s

/-- The doubles nearest to the entries of a matrix of exact outcomes. -/
def to_doubles {k : Nat} (r : Nat → Vec k) : Nat → DVec k :=
  fun sample j => Dbl.ofRat (r sample j)

/-- A scratch state holding zeros, the sums held in doubles. -/
def dscratch0 (k : Nat) : DScratch k :=
  { counter := fun _ => 0, sums := fun _ => DVec.zero k }

/-- Two outcomes per sample, all finite: `(0, 0)` on the samples `0, 1` and
`(1e200, 1e200)` on the samples `2, 3`. -/
def responses_big : Nat → DVec 2 :=
  fun sample _ => if sample < 2 then Dbl.fin 0 else Dbl.ofRat ((10 ^ 200 : Nat) : ℚ)

/-- One covariate with the values `1, 1, 2` on the samples `0, 1, 2` and a missing
value on the sample `3`; the accessor returns the non-missing distinct values and
puts the sample with the missing value last. -/
def data_nan4 : Data :=
  { get := fun sample _ =>
      if sample < 2 then some 1 else if sample = 2 then some 2 else none,
    get_all_values := fun _ _ => ([some 1, some 2], [0, 1, 2, 3]) }

/-- One covariate with the values `1, 2` on the samples `0, 1` and a missing value
on the samples `2, 3`; the accessor returns the non-missing distinct values and puts
the samples with the missing value last. -/
def data_nan22 : Data :=
  { get := fun sample _ =>
      if sample = 0 then some 1 else if sample = 1 then some 2 else none,
    get_all_values := fun _ _ => ([some 1, some 2], [0, 1, 2, 3]) }

/-! # Theorems -/

/-! ## The scan as a fold over the evaluated boundaries -/

theorem scan_eq_foldl {k : Nat} (sigma : Matrix (Fin 2) (Fin 2) ℚ)
    (responses_by_sample : Nat → Vec k) (psv : List Val) (sorted_samples : List Nat)
    (var : Nat) (sum_node : Vec k) (size_node mcs : Nat) (s : Scratch k) :
    ∀ (fuel i n_left : Nat) (sum_left : Vec k) (best : Best),
      scan sigma responses_by_sample psv sorted_samples var sum_node size_node mcs s
          fuel i n_left sum_left best
        = (scan_evals sigma responses_by_sample psv sorted_samples var sum_node size_node mcs s
            fuel i n_left sum_left).foldl Best.step best := by
  intro fuel
  induction fuel with
  | zero => intro i n_left sum_left best; rfl
  | succ fuel ih =>
    intro i n_left sum_left best
    simp only [scan, scan_evals]
    split_ifs with h1 h2
    · exact ih _ _ _ _
    · rfl
    · rw [List.foldl_cons]
      exact ih _ _ _ _

theorem find_best_split_value_snd {k : Nat} (sigma : Matrix (Fin 2) (Fin 2) ℚ) (data : Data)
    (node var : Nat) (sum_node : Vec k) (size_node mcs : Nat)
    (responses_by_sample : Nat → Vec k) (samples : List (List Nat)) (st : Scratch k × Best) :
    (find_best_split_value sigma data node var sum_node size_node mcs responses_by_sample
        samples st).2
      = (value_evals sigma data node var sum_node size_node mcs responses_by_sample samples
          st.1).foldl Best.step st.2 := by
  unfold find_best_split_value value_evals
  dsimp only
  split_ifs with h
  · rfl
  · exact scan_eq_foldl _ _ _ _ _ _ _ _ _ _ _ _ _ _

theorem find_best_split_value_fst {k : Nat} (sigma : Matrix (Fin 2) (Fin 2) ℚ) (data : Data)
    (node var : Nat) (sum_node : Vec k) (size_node mcs : Nat)
    (responses_by_sample : Nat → Vec k) (samples : List (List Nat)) (s : Scratch k)
    (b b' : Best) :
    (find_best_split_value sigma data node var sum_node size_node mcs responses_by_sample
        samples (s, b)).1
      = (find_best_split_value sigma data node var sum_node size_node mcs responses_by_sample
        samples (s, b')).1 := by
  unfold find_best_split_value
  dsimp only
  split_ifs with h <;> rfl

theorem foldl_find_best_split_value {k : Nat} (sigma : Matrix (Fin 2) (Fin 2) ℚ) (data : Data)
    (node : Nat) (sum_node : Vec k) (size_node mcs : Nat)
    (responses_by_sample : Nat → Vec k) (samples : List (List Nat)) :
    ∀ (vars : List Nat) (s : Scratch k) (b : Best),
      (vars.foldl (fun st var => find_best_split_value sigma data node var sum_node size_node
          mcs responses_by_sample samples st) (s, b)).2
        = (evals_from sigma data node sum_node size_node mcs responses_by_sample samples
            vars s).foldl Best.step b := by
  intro vars
  induction vars with
  | nil => intro s b; rfl
  | cons var vars ih =>
    intro s b
    rw [List.foldl_cons, evals_from, List.foldl_append]
    rw [← find_best_split_value_snd sigma data node var sum_node size_node mcs
      responses_by_sample samples (s, b)]
    rw [← ih]
    rw [find_best_split_value_fst sigma data node var sum_node size_node mcs
      responses_by_sample samples s Best.init b]

theorem search_snd {k : Nat} (rule : MultiRegressionSplittingRule k) (data : Data) (node : Nat)
    (vars : List Nat) (responses_by_sample : Nat → Vec k) (samples : List (List Nat)) :
    (search rule data node vars responses_by_sample samples).2
      = (search_evals rule data node vars responses_by_sample samples).foldl
          Best.step Best.init := by
  unfold search search_evals
  exact foldl_find_best_split_value _ _ _ _ _ _ _ _ _ _ _

/-! ## Folding the update of the running best -/

theorem Best.step_of_lt {k : Nat} (b : Best) (e : Evaluated k) (h : e.loss < b.best_loss) :
    b.step e = { best_value := e.value, best_var := e.var, best_loss := e.loss } := by
  simp [Best.step, Best.consider, h]

theorem Best.step_of_not_lt {k : Nat} (b : Best) (e : Evaluated k) (h : ¬ e.loss < b.best_loss) :
    b.step e = b := by
  simp [Best.step, Best.consider, h]

/-- Either no boundary improves on the running best, which is then unchanged, or
the result is the first boundary of least loss. -/
theorem foldl_step_cases {k : Nat} :
    ∀ (l : List (Evaluated k)) (b : Best),
      (l.foldl Best.step b = b ∧ ∀ d ∈ l, b.best_loss ≤ d.loss) ∨
      (∃ pre c post, l = pre ++ c :: post ∧ c.loss < b.best_loss ∧
        (∀ d ∈ pre, c.loss < d.loss) ∧ (∀ d ∈ post, c.loss ≤ d.loss) ∧
        l.foldl Best.step b
          = { best_value := c.value, best_var := c.var, best_loss := c.loss }) := by
  intro l
  induction l with
  | nil => intro b; left; exact ⟨rfl, by simp⟩
  | cons e l ih =>
    intro b
    rw [List.foldl_cons]
    by_cases h : e.loss < b.best_loss
    · rw [Best.step_of_lt b e h]
      right
      rcases ih { best_value := e.value, best_var := e.var, best_loss := e.loss } with
        ⟨heq, hall⟩ | ⟨pre, c, post, hl, hlt, hpre, hpost, heq⟩
      · exact ⟨[], e, l, rfl, h, by simp, hall, heq⟩
      · refine ⟨e :: pre, c, post, by rw [hl]; rfl, lt_trans hlt h, ?_, hpost, heq⟩
        intro d hd
        rcases List.mem_cons.mp hd with rfl | hd
        · exact hlt
        · exact hpre d hd
    · rw [Best.step_of_not_lt b e h]
      rcases ih b with ⟨heq, hall⟩ | ⟨pre, c, post, hl, hlt, hpre, hpost, heq⟩
      · left
        refine ⟨heq, ?_⟩
        intro d hd
        rcases List.mem_cons.mp hd with rfl | hd
        · exact not_lt.mp h
        · exact hall d hd
      · right
        refine ⟨e :: pre, c, post, by rw [hl]; rfl, hlt, ?_, hpost, heq⟩
        intro d hd
        rcases List.mem_cons.mp hd with rfl | hd
        · exact lt_of_lt_of_le hlt (not_lt.mp h)
        · exact hpre d hd

theorem foldl_step_loss_le {k : Nat} (l : List (Evaluated k)) (b : Best) :
    (l.foldl Best.step b).best_loss ≤ b.best_loss := by
  rcases foldl_step_cases l b with ⟨heq, _⟩ | ⟨pre, c, post, _, hlt, _, _, heq⟩
  · rw [heq]
  · rw [heq]; exact le_of_lt hlt

theorem foldl_step_eq_of_loss_eq {k : Nat} (l : List (Evaluated k)) (b : Best)
    (h : (l.foldl Best.step b).best_loss = b.best_loss) : l.foldl Best.step b = b := by
  rcases foldl_step_cases l b with ⟨heq, _⟩ | ⟨pre, c, post, _, hlt, _, _, heq⟩
  · exact heq
  · rw [heq] at h
    exact absurd h (ne_of_lt hlt)

theorem foldl_step_mem_of_lt {k : Nat} (l : List (Evaluated k)) (b : Best)
    (h : (l.foldl Best.step b).best_loss < b.best_loss) :
    ∃ e ∈ l, l.foldl Best.step b
      = { best_value := e.value, best_var := e.var, best_loss := e.loss } := by
  rcases foldl_step_cases l b with ⟨heq, _⟩ | ⟨pre, c, post, hl, _, _, _, heq⟩
  · rw [heq] at h
    exact absurd h (lt_irrefl _)
  · exact ⟨c, by rw [hl]; simp, heq⟩

/-! ## What the scan records -/

/-- Every recorded boundary lies in the scanned index range, carries the
cumulated count and sum of the buckets up to it, passed both size tests and
carries the loss of lines 150-167. -/
theorem scan_evals_mem {k : Nat} (sigma : Matrix (Fin 2) (Fin 2) ℚ)
    (responses_by_sample : Nat → Vec k) (psv : List Val) (sorted_samples : List Nat)
    (var : Nat) (sum_node : Vec k) (size_node mcs : Nat) (s : Scratch k) :
    ∀ (fuel i n0 : Nat) (s0 : Vec k) (e : Evaluated k),
      e ∈ scan_evals sigma responses_by_sample psv sorted_samples var sum_node size_node mcs s
          fuel i n0 s0 →
      i ≤ e.index ∧ e.index < i + fuel ∧
      e.n_left = n0 + ∑ j in Finset.Ico i (e.index + 1), s.counter j ∧
      e.sum_left = s0 + ∑ j in Finset.Ico i (e.index + 1), s.sums j ∧
      mcs ≤ e.n_left ∧ mcs ≤ size_node - e.n_left ∧
      e.value = psv.getD e.index none ∧ e.var = var ∧
      e.loss = boundary_loss sigma responses_by_sample sorted_samples sum_node size_node
        e.n_left e.sum_left := by
  intro fuel
  induction fuel with
  | zero => intro i n0 s0 e he; simp [scan_evals] at he
  | succ fuel ih =>
    intro i n0 s0 e he
    simp only [scan_evals] at he
    have hrec : ∀ e, e ∈ scan_evals sigma responses_by_sample psv sorted_samples var sum_node
        size_node mcs s fuel (i + 1) (n0 + s.counter i) (s0 + s.sums i) →
        i ≤ e.index ∧ e.index < i + (fuel + 1) ∧
        e.n_left = n0 + ∑ j in Finset.Ico i (e.index + 1), s.counter j ∧
        e.sum_left = s0 + ∑ j in Finset.Ico i (e.index + 1), s.sums j ∧
        mcs ≤ e.n_left ∧ mcs ≤ size_node - e.n_left ∧
        e.value = psv.getD e.index none ∧ e.var = var ∧
        e.loss = boundary_loss sigma responses_by_sample sorted_samples sum_node size_node
          e.n_left e.sum_left := by
      intro e he
      obtain ⟨h1, h2, h3, h4, h5⟩ := ih _ _ _ e he
      have hlt : i < e.index + 1 := by omega
      refine ⟨by omega, by omega, ?_, ?_, h5⟩
      · rw [h3, Finset.sum_eq_sum_Ico_succ_bot hlt, add_assoc]
      · rw [h4, Finset.sum_eq_sum_Ico_succ_bot hlt, add_assoc]
    split_ifs at he with h1 h2
    · exact hrec e he
    · simp at he
    · rcases List.mem_cons.mp he with rfl | he
      · refine ⟨le_refl _, by simp, ?_, ?_, not_lt.mp h1, not_lt.mp h2, rfl, rfl, rfl⟩
        · simp
        · simp
      · exact hrec e he

/-- The loss of line 167 is `0` as soon as both children are non-empty: the two
weights are quotients of a `size_t` by a larger `size_t`. -/
theorem loss_of_eq_zero (size_node n_left n_right : Nat) (ssl : ℚ)
    (h : n_left < size_node) : loss_of size_node n_left n_right ssl ssr_of = 0 := by
  simp [loss_of, ssr_of, Nat.div_eq_of_lt h]

theorem boundary_loss_eq_zero {k : Nat} (sigma : Matrix (Fin 2) (Fin 2) ℚ)
    (responses_by_sample : Nat → Vec k) (sorted_samples : List Nat) (sum_node : Vec k)
    (size_node n_left : Nat) (sum_left : Vec k) (h : n_left < size_node) :
    boundary_loss sigma responses_by_sample sorted_samples sum_node size_node n_left sum_left
      = 0 := by
  unfold boundary_loss
  exact loss_of_eq_zero _ _ _ _ h

/-! ## The scratch buffers do not influence the scan -/

theorem agree_below_zero_buckets {k : Nat} (n : Nat) (s s' : Scratch k) :
    agree_below n (zero_buckets n s) (zero_buckets n s') := by
  intro j hj
  simp [zero_buckets, hj]

theorem fill_step_agree {k : Nat} (data : Data) (var : Nat) (responses_by_sample : Nat → Vec k)
    (sorted_samples : List Nat) (n : Nat) (st st' : Nat × Scratch k) (i : Nat)
    (h1 : st.1 = st'.1) (h2 : agree_below n st.2 st'.2) :
    (fill_step data var responses_by_sample sorted_samples st i).1
        = (fill_step data var responses_by_sample sorted_samples st' i).1 ∧
      agree_below n (fill_step data var responses_by_sample sorted_samples st i).2
        (fill_step data var responses_by_sample sorted_samples st' i).2 := by
  refine ⟨by simp [fill_step, h1], ?_⟩
  intro j hj
  obtain ⟨hc, hs⟩ := h2 j hj
  simp only [fill_step, ← h1]
  by_cases hji : j = st.1
  · subst hji
    simp [hc, hs]
  · simp [Function.update_noteq hji, hc, hs]

theorem foldl_fill_step_agree {k : Nat} (data : Data) (var : Nat)
    (responses_by_sample : Nat → Vec k) (sorted_samples : List Nat) (n : Nat) :
    ∀ (l : List Nat) (st st' : Nat × Scratch k), st.1 = st'.1 → agree_below n st.2 st'.2 →
      agree_below n
        (l.foldl (fill_step data var responses_by_sample sorted_samples) st).2
        (l.foldl (fill_step data var responses_by_sample sorted_samples) st').2 := by
  intro l
  induction l with
  | nil => intro st st' _ h2; exact h2
  | cons i l ih =>
    intro st st' h1 h2
    rw [List.foldl_cons, List.foldl_cons]
    obtain ⟨h1', h2'⟩ := fill_step_agree data var responses_by_sample sorted_samples n st st' i
      h1 h2
    exact ih _ _ h1' h2'

theorem fill_buckets_agree {k : Nat} (data : Data) (var : Nat)
    (responses_by_sample : Nat → Vec k) (sorted_samples : List Nat) (size_node n : Nat)
    (s s' : Scratch k) :
    agree_below n
      (fill_buckets data var responses_by_sample sorted_samples size_node
        (zero_buckets n s)).2
      (fill_buckets data var responses_by_sample sorted_samples size_node
        (zero_buckets n s')).2 :=
  foldl_fill_step_agree data var responses_by_sample sorted_samples n _ _ _ rfl
    (agree_below_zero_buckets n s s')

theorem scan_evals_agree {k : Nat} (sigma : Matrix (Fin 2) (Fin 2) ℚ)
    (responses_by_sample : Nat → Vec k) (psv : List Val) (sorted_samples : List Nat)
    (var : Nat) (sum_node : Vec k) (size_node mcs n : Nat) (s s' : Scratch k)
    (h : agree_below n s s') :
    ∀ (fuel i n0 : Nat) (s0 : Vec k), i + fuel ≤ n →
      scan_evals sigma responses_by_sample psv sorted_samples var sum_node size_node mcs s
          fuel i n0 s0
        = scan_evals sigma responses_by_sample psv sorted_samples var sum_node size_node mcs s'
          fuel i n0 s0 := by
  intro fuel
  induction fuel with
  | zero => intro i n0 s0 _; rfl
  | succ fuel ih =>
    intro i n0 s0 hle
    obtain ⟨hc, hs⟩ := h i (by omega)
    simp only [scan_evals, hc, hs]
    rw [ih (i + 1) _ _ (by omega)]

/-- The boundaries evaluated by a scan are the same whatever the scratch buffers
held before the call. -/
theorem value_evals_scratch {k : Nat} (sigma : Matrix (Fin 2) (Fin 2) ℚ) (data : Data)
    (node var : Nat) (sum_node : Vec k) (size_node mcs : Nat)
    (responses_by_sample : Nat → Vec k) (samples : List (List Nat)) (s s' : Scratch k) :
    value_evals sigma data node var sum_node size_node mcs responses_by_sample samples s
      = value_evals sigma data node var sum_node size_node mcs responses_by_sample samples s' := by
  unfold value_evals
  dsimp only
  split_ifs with h
  · rfl
  · exact scan_evals_agree _ _ _ _ _ _ _ _ _ _ _
      (fill_buckets_agree data var responses_by_sample _ size_node _ s s') _ _ _ _ (by omega)

theorem evals_from_scratch {k : Nat} (sigma : Matrix (Fin 2) (Fin 2) ℚ) (data : Data)
    (node : Nat) (sum_node : Vec k) (size_node mcs : Nat)
    (responses_by_sample : Nat → Vec k) (samples : List (List Nat)) :
    ∀ (vars : List Nat) (s s' : Scratch k),
      evals_from sigma data node sum_node size_node mcs responses_by_sample samples vars s
        = evals_from sigma data node sum_node size_node mcs responses_by_sample samples
            vars s' := by
  intro vars
  induction vars with
  | nil => intro s s'; rfl
  | cons var vars ih =>
    intro s s'
    rw [evals_from, evals_from,
      value_evals_scratch sigma data node var sum_node size_node mcs responses_by_sample
        samples s s']
    rw [ih _ (find_best_split_value sigma data node var sum_node size_node mcs
      responses_by_sample samples (s', Best.init)).1]

/-- The evaluated boundaries of a whole search are the concatenation of those of
each candidate variable, each computed from any scratch state whatever. -/
theorem evals_from_eq_flatMap {k : Nat} (sigma : Matrix (Fin 2) (Fin 2) ℚ) (data : Data)
    (node : Nat) (sum_node : Vec k) (size_node mcs : Nat)
    (responses_by_sample : Nat → Vec k) (samples : List (List Nat)) (s0 : Scratch k) :
    ∀ (vars : List Nat) (s : Scratch k),
      evals_from sigma data node sum_node size_node mcs responses_by_sample samples vars s
        = vars.flatMap (fun var => value_evals sigma data node var sum_node size_node mcs
            responses_by_sample samples s0) := by
  intro vars
  induction vars with
  | nil => intro s; rfl
  | cons var vars ih =>
    intro s
    rw [evals_from, List.flatMap_cons, ih,
      value_evals_scratch sigma data node var sum_node size_node mcs responses_by_sample
        samples s s0]
/-! ## The bucket-filling loop -/

theorem fill_step_cons {k : Nat} (data : Data) (var : Nat) (responses_by_sample : Nat → Vec k)
    (a : Nat) (l : List Nat) (st : Nat × Scratch k) (i : Nat) :
    fill_step data var responses_by_sample (a :: l) st (i + 1)
      = fill_step data var responses_by_sample l st i := by
  simp [fill_step]

/-- The index loop of lines 115-129 over an ordering of `size_node` samples is the
recursion `fill_list` on both bucket arrays. -/
theorem foldl_fill_step_eq {k : Nat} (data : Data) (var : Nat)
    (responses_by_sample : Nat → Vec k) :
    ∀ (l : List Nat) (idx : Nat) (s : Scratch k),
      (List.range (l.length - 1)).foldl (fill_step data var responses_by_sample l) (idx, s)
        = ((fill_list (fun x => data.get x var) (fun _ => (1 : Nat)) l idx s.counter).1,
            { counter :=
                (fill_list (fun x => data.get x var) (fun _ => (1 : Nat)) l idx s.counter).2,
              sums := (fill_list (fun x => data.get x var) responses_by_sample l idx s.sums).2 })
  := by
  intro l
  induction l with
  | nil => intro idx s; rfl
  | cons a l ih =>
    intro idx s
    cases l with
    | nil => rfl
    | cons b rest =>
      have hlen : (a :: b :: rest).length - 1 = (b :: rest).length - 1 + 1 := by simp
      rw [hlen, List.range_succ_eq_map, List.foldl_cons, List.foldl_map]
      have hf : (fun (st : Nat × Scratch k) (i : Nat) =>
          fill_step data var responses_by_sample (a :: b :: rest) st (Nat.succ i))
          = fill_step data var responses_by_sample (b :: rest) := by
        funext st i
        exact fill_step_cons data var responses_by_sample a (b :: rest) st i
      rw [hf]
      have h0 : fill_step data var responses_by_sample (a :: b :: rest) (idx, s) 0
          = (if dne (data.get a var) (data.get b var) then idx + 1 else idx,
              { counter := Function.update s.counter idx (s.counter idx + 1),
                sums := Function.update s.sums idx (s.sums idx + responses_by_sample a) }) := by
        simp [fill_step]
      rw [h0, ih]
      simp only [fill_list]

theorem fill_buckets_eq {k : Nat} (data : Data) (var : Nat)
    (responses_by_sample : Nat → Vec k) (l : List Nat) (size_node : Nat) (s : Scratch k)
    (hlen : l.length = size_node) (hpos : size_node ≠ 0) :
    (fill_buckets data var responses_by_sample l size_node s).2
      = { counter := (fill_list (fun x => data.get x var) (fun _ => (1 : Nat)) l 0 s.counter).2,
          sums := (fill_list (fun x => data.get x var) responses_by_sample l 0 s.sums).2 } := by
  unfold fill_buckets pred_size_t
  rw [if_neg hpos, ← hlen, foldl_fill_step_eq]

theorem fill_list_below {M : Type} [Add M] (val : Nat → Val) (w : Nat → M) :
    ∀ (l : List Nat) (idx : Nat) (B : Nat → M) (j : Nat), j < idx →
      (fill_list val w l idx B).2 j = B j := by
  intro l
  induction l with
  | nil => intro idx B j _; rfl
  | cons a l ih =>
    intro idx B j hj
    cases l with
    | nil => rfl
    | cons b rest =>
      simp only [fill_list]
      rw [ih _ _ j (by split_ifs <;> omega)]
      exact Function.update_noteq (by omega) _ _

/-- The least value of a non-decreasing list heads the strictly ascending list of
its distinct values. -/
theorem head_of_sorted_values (a : ℚ) (xs ps : List ℚ)
    (hx : (a :: xs).Pairwise (fun u v => u ≤ v)) (hp : ps.Pairwise (fun u v => u < v))
    (hm : ∀ x, x ∈ ps ↔ x ∈ a :: xs) :
    ∃ ps', ps = a :: ps' ∧ ∀ x ∈ ps', a < x := by
  cases ps with
  | nil =>
    have := (hm a).mpr (List.mem_cons_self _ _)
    simp at this
  | cons p ps' =>
    rw [List.pairwise_cons] at hx hp
    have h1 : a ≤ p := by
      rcases List.mem_cons.mp ((hm p).mp (List.mem_cons_self _ _)) with h | h
      · exact le_of_eq h.symm
      · exact hx.1 p h
    have h2 : p ≤ a := by
      rcases List.mem_cons.mp ((hm a).mpr (List.mem_cons_self _ _)) with h | h
      · exact le_of_eq h.symm
      · exact le_of_lt (hp.1 a h)
    have hpa : p = a := le_antisymm h2 h1
    subst hpa
    exact ⟨ps', rfl, hp.1⟩

theorem wsum_cons {M : Type} [AddCommMonoid M] (w : Nat → M) (p : Nat → Bool) (a : Nat)
    (l : List Nat) :
    wsum w p (a :: l) = (if p a then w a else 0) + wsum w p l := by
  unfold wsum
  by_cases h : p a = true <;> simp [List.filter_cons, h]

theorem wsum_eq_zero {M : Type} [AddCommMonoid M] (w : Nat → M) (p : Nat → Bool)
    (l : List Nat) (h : ∀ s ∈ l, p s = false) : wsum w p l = 0 := by
  unfold wsum
  rw [List.filter_eq_nil_iff.mpr (by intro s hs; simp [h s hs])]
  rfl

theorem wsum_congr {M : Type} [AddCommMonoid M] (w : Nat → M) (p p' : Nat → Bool)
    (l : List Nat) (h : ∀ s ∈ l, p s = p' s) : wsum w p l = wsum w p' l := by
  unfold wsum
  rw [List.filter_congr h]

/-- After the filling loop over a non-decreasing ordering, bucket `idx + t` gained
the weights of the samples whose value is the `t`-th distinct value, for every
distinct value but the last. -/
theorem fill_list_bucket {M : Type} [AddCommMonoid M] (val : Nat → Val) (q : Nat → ℚ)
    (w : Nat → M) :
    ∀ (l : List Nat) (ps : List ℚ) (idx : Nat) (B : Nat → M),
      (∀ s ∈ l, val s = some (q s)) →
      (l.map q).Pairwise (fun u v => u ≤ v) → ps.Pairwise (fun u v => u < v) →
      (∀ x, x ∈ ps ↔ x ∈ l.map q) →
      ∀ (t : Nat) (x : ℚ), ps[t]? = some x → t + 1 < ps.length →
        (fill_list val w l idx B).2 (idx + t)
          = B (idx + t) + wsum w (fun s => decide (q s = x)) l := by
  intro l
  induction l with
  | nil =>
    intro ps idx B _ _ _ hm t x _ hlt
    have : ps = [] := by
      apply List.eq_nil_iff_forall_not_mem.mpr
      intro y hy
      simpa using (hm y).mp hy
    subst this
    simp at hlt
  | cons a l ih =>
    intro ps idx B hval hx hp hm t x ht hlt
    obtain ⟨ps', rfl, hps'⟩ := head_of_sorted_values (q a) (l.map q) ps hx hp hm
    cases l with
    | nil =>
      exfalso
      cases ps' with
      | nil => simp at hlt
      | cons p ps'' =>
        have h1 := hps' p (List.mem_cons_self _ _)
        have h2 := (hm p).mp (by simp)
        simp at h2
        exact absurd h2 (ne_of_gt h1)
    | cons b rest =>
      have ha : val a = some (q a) := hval a (List.mem_cons_self _ _)
      have hb : val b = some (q b) := hval b (by simp)
      have hval' : ∀ s ∈ b :: rest, val s = some (q s) :=
        fun s hs => hval s (List.mem_cons_of_mem _ hs)
      have hx' : ((b :: rest).map q).Pairwise (fun u v => u ≤ v) := by
        rw [List.map_cons, List.pairwise_cons] at hx
        exact hx.2
      have hle : ∀ y ∈ (b :: rest).map q, q a ≤ y := by
        rw [List.map_cons, List.pairwise_cons] at hx
        exact hx.1
      have hp' : ps'.Pairwise (fun u v => u < v) := by
        rw [List.pairwise_cons] at hp
        exact hp.2
      simp only [fill_list, ha, hb, dne]
      by_cases hab : q a = q b
      · -- the next sample has the same value: the bucket index stays
        have hm' : ∀ y, y ∈ q a :: ps' ↔ y ∈ (b :: rest).map q := by
          intro y
          rw [hm y]
          simp only [List.map_cons, List.mem_cons]
          constructor
          · rintro (h | h)
            · left; rw [h, hab]
            · exact h
          · intro h; right; exact h
        have hrec := ih (q a :: ps') idx (Function.update B idx (B idx + w a)) hval' hx' hp
          hm' t x ht hlt
        simp only [hab, ne_eq, not_true_eq_false, decide_False, Bool.false_eq_true, if_false]
          at hrec ⊢
        rw [hrec, wsum_cons w _ a (b :: rest)]
        cases t with
        | zero =>
          simp only [List.getElem?_cons_zero, Option.some.injEq] at ht
          subst ht
          simp [add_assoc]
        | succ t =>
          have hxmem : x ∈ ps' := by
            rw [List.getElem?_cons_succ] at ht
            exact List.mem_iff_getElem?.mpr ⟨t, ht⟩
          have hne : q a ≠ x := ne_of_lt (hps' x hxmem)
          simp [hne, Function.update_noteq]
      · -- the next sample has a larger value: the next bucket starts
        have hlt' : q a < q b := lt_of_le_of_ne (hle (q b) (by simp)) hab
        have hm' : ∀ y, y ∈ ps' ↔ y ∈ (b :: rest).map q := by
          intro y
          constructor
          · intro hy
            have h1 := (hm y).mp (List.mem_cons_of_mem _ hy)
            rw [List.map_cons] at h1
            rcases List.mem_cons.mp h1 with h | h
            · exact absurd h (ne_of_gt (hps' y hy))
            · exact h
          · intro hy
            have h1 : q a < y := lt_of_lt_of_le hlt' (by
              rw [List.map_cons, List.pairwise_cons] at hx'
              rcases List.mem_cons.mp hy with h | h
              · exact le_of_eq h.symm
              · exact hx'.1 y h)
            have h2 := (hm y).mpr (by rw [List.map_cons]; exact List.mem_cons_of_mem _ hy)
            rcases List.mem_cons.mp h2 with h | h
            · exact absurd h (ne_of_gt h1)
            · exact h
        simp only [ne_eq, hab, not_false_eq_true, decide_True, if_true]
        cases t with
        | zero =>
          simp only [List.getElem?_cons_zero, Option.some.injEq] at ht
          subst ht
          rw [fill_list_below val w _ _ _ _ (by omega), wsum_cons w _ a (b :: rest),
            wsum_eq_zero w _ (b :: rest)]
          · simp
          · intro s hs
            have : q a < q s := lt_of_lt_of_le hlt' (by
              rw [List.map_cons, List.pairwise_cons] at hx'
              rcases List.mem_cons.mp hs with h | h
              · exact le_of_eq (by rw [h])
              · exact hx'.1 (q s) (List.mem_map_of_mem _ h))
            simp [ne_of_gt this]
        | succ t =>
          rw [List.getElem?_cons_succ] at ht
          have hrec := ih ps' (idx + 1) (Function.update B idx (B idx + w a)) hval' hx' hp'
            hm' t x ht (by simpa using hlt)
          have hxmem : x ∈ ps' := List.mem_iff_getElem?.mpr ⟨t, ht⟩
          have hne : q a ≠ x := ne_of_lt (hps' x hxmem)
          have hidx : idx + (t + 1) = idx + 1 + t := by omega
          rw [hidx, hrec, wsum_cons w _ a (b :: rest),
            Function.update_noteq (by omega : idx + 1 + t ≠ idx)]
          simp [hne]
theorem wsum_split {M : Type} [AddCommMonoid M] (w : Nat → M) (r p1 p2 : Nat → Bool) :
    ∀ (l : List Nat), (∀ s ∈ l, r s = (p1 s || p2 s)) →
      (∀ s ∈ l, ¬ (p1 s = true ∧ p2 s = true)) →
      wsum w r l = wsum w p1 l + wsum w p2 l := by
  intro l
  induction l with
  | nil => intro _ _; simp [wsum]
  | cons a l ih =>
    intro h hd
    rw [wsum_cons, wsum_cons, wsum_cons,
      ih (fun s hs => h s (List.mem_cons_of_mem _ hs)) (fun s hs => hd s (List.mem_cons_of_mem _ hs)),
      h a (List.mem_cons_self _ _)]
    have hda := hd a (List.mem_cons_self _ _)
    cases h1 : p1 a <;> cases h2 : p2 a
    · simp
    · simp [add_left_comm]
    · simp [add_assoc]
    · exact absurd ⟨h1, h2⟩ hda

theorem wsum_one (p : Nat → Bool) (l : List Nat) :
    wsum (fun _ => (1 : Nat)) p l = l.countP p := by
  unfold wsum
  rw [List.countP_eq_length_filter]
  simp

theorem strict_sorted_lt_iff (ps : List ℚ) (hp : ps.Pairwise (fun u v => u < v))
    (m i : Nat) (hm : m < ps.length) (hi : i < ps.length) :
    ps[m] < ps[i] ↔ m < i := by
  rw [List.pairwise_iff_getElem] at hp
  constructor
  · intro h
    by_contra hn
    rcases Nat.lt_or_eq_of_le (not_lt.mp hn) with h' | h'
    · exact absurd (hp i m hi hm h') (not_lt.mpr (le_of_lt h))
    · subst h'
      exact absurd h (lt_irrefl _)
  · exact fun h => hp m i hm hi h

/-- Adding up the buckets `0 .. i` gives the weights of the samples whose value is
at most the `i`-th distinct value. -/
theorem sum_range_wsum {M : Type} [AddCommMonoid M] (q : Nat → ℚ) (w : Nat → M)
    (l : List Nat) (ps : List ℚ) (hp : ps.Pairwise (fun u v => u < v))
    (hmem : ∀ s ∈ l, q s ∈ ps) :
    ∀ (i : Nat) (x : ℚ), ps[i]? = some x →
      ∑ j in Finset.range (i + 1), wsum w (fun s => decide (q s = ps.getD j 0)) l
        = wsum w (fun s => decide (q s ≤ x)) l := by
  intro i
  induction i with
  | zero =>
    intro x hx
    obtain ⟨h0, hx0⟩ := List.getElem?_eq_some.mp hx
    rw [Finset.sum_range_one]
    have hget : ps.getD 0 0 = x := by
      rw [List.getD_eq_getElem?_getD, hx]; rfl
    rw [hget]
    apply wsum_congr
    intro s hs
    obtain ⟨m, hm, hqs⟩ := List.getElem_of_mem (hmem s hs)
    have hle : x ≤ q s := by
      rw [← hqs, ← hx0]
      rcases Nat.eq_zero_or_pos m with h | h
      · subst h; exact le_refl _
      · exact le_of_lt ((strict_sorted_lt_iff ps hp 0 m h0 hm).mpr h)
    by_cases h : q s = x
    · simp [h]
    · have : ¬ q s ≤ x := fun h' => h (le_antisymm h' hle)
      simp [h, this]
  | succ i ih =>
    intro x hx
    obtain ⟨h1, hx1⟩ := List.getElem?_eq_some.mp hx
    have hi : i < ps.length := by omega
    have hy : ps[i]? = some ps[i] := List.getElem?_eq_getElem hi
    rw [Finset.sum_range_succ, ih ps[i] hy]
    have hget : ps.getD (i + 1) 0 = x := by
      rw [List.getD_eq_getElem?_getD, hx]; rfl
    rw [hget]
    symm
    apply wsum_split
    · intro s hs
      obtain ⟨m, hm, hqs⟩ := List.getElem_of_mem (hmem s hs)
      rw [← hqs, ← hx1]
      have e1 := strict_sorted_lt_iff ps hp m (i + 1) hm h1
      have e2 := strict_sorted_lt_iff ps hp (i + 1) m h1 hm
      have e3 := strict_sorted_lt_iff ps hp m i hm hi
      have e4 := strict_sorted_lt_iff ps hp i m hi hm
      rcases Nat.lt_trichotomy m (i + 1) with h | h | h
      · have hle : ps[m] ≤ ps[i] := by
          rcases Nat.lt_or_eq_of_le (Nat.lt_succ_iff.mp h) with h' | h'
          · exact le_of_lt (e3.mpr h')
          · subst h'; exact le_refl _
        have : ps[m] ≤ ps[i + 1] := le_of_lt (e1.mpr h)
        simp [hle, this]
      · subst h
        simp
      · have h1' : ¬ ps[m] ≤ ps[i + 1] := not_le.mpr (e2.mpr h)
        have h2' : ¬ ps[m] ≤ ps[i] := not_le.mpr (e4.mpr (by omega))
        have h3' : ps[m] ≠ ps[i + 1] := ne_of_gt (e2.mpr h)
        simp [h1', h2', h3']
    · intro s hs
      rintro ⟨ha, hb⟩
      simp only [decide_eq_true_eq] at ha hb
      rw [hb, ← hx1] at ha
      exact absurd ((strict_sorted_lt_iff ps hp i (i + 1) hi h1).mpr (Nat.lt_succ_self i))
        (not_lt.mpr ha)
/-! ## Consequences of the accessor contract -/

theorem dle_getD (u v : Val) (h : dle u v = true) : u.getD 0 ≤ v.getD 0 := by
  cases u <;> cases v <;> simp_all [dle]

theorem dlt_getD (u v : Val) (h : dlt u v = true) : u.getD 0 < v.getD 0 := by
  cases u <;> cases v <;> simp_all [dlt]

theorem dlt_some (u v : Val) (h : dlt u v = true) : (∃ x, u = some x) ∧ ∃ y, v = some y := by
  cases u <;> cases v <;> simp_all [dlt]

theorem pairwise_dlt_some (P : List Val) (hp : P.Pairwise (fun a b => dlt a b = true))
    (h2 : 2 ≤ P.length) : ∀ v ∈ P, ∃ x, v = some x := by
  match P, hp, h2 with
  | a :: b :: rest, hp, _ =>
    rw [List.pairwise_cons] at hp
    intro v hv
    rcases List.mem_cons.mp hv with rfl | hv
    · exact (dlt_some _ _ (hp.1 b (List.mem_cons_self _ _))).1
    · exact (dlt_some _ _ (hp.1 v hv)).2

/-- Under the accessor contract, when the variable takes at least two distinct
values in the node, all values are finite and the two lists returned by the
accessor are related as sorted lists of rationals. -/
theorem contract_facts (data : Data) (N : List Nat) (var : Nat)
    (hc : accessor_contract data N var) (h2 : ¬ (data.get_all_values N var).1.length < 2) :
    ∃ (q : Nat → ℚ) (ps : List ℚ),
      (data.get_all_values N var).1 = ps.map some ∧
      (∀ s ∈ N, data.get s var = some (q s)) ∧
      (∀ s ∈ (data.get_all_values N var).2, data.get s var = some (q s)) ∧
      ((data.get_all_values N var).2.map q).Pairwise (fun u v => u ≤ v) ∧
      ps.Pairwise (fun u v => u < v) ∧
      (∀ x, x ∈ ps ↔ x ∈ (data.get_all_values N var).2.map q) ∧
      (data.get_all_values N var).2.length = N.length ∧ N.length ≠ 0 ∧
      (data.get_all_values N var).2.Perm N := by
  obtain ⟨hperm, hsorted, hasc, hmem⟩ := hc
  have hsome := pairwise_dlt_some _ hasc (by omega)
  have hN : ∀ s ∈ N, data.get s var = some ((data.get s var).getD 0) := by
    intro s hs
    obtain ⟨x, hx⟩ := hsome _ ((hmem _).mpr ⟨s, hs, rfl⟩)
    rw [hx]; rfl
  refine ⟨fun s => (data.get s var).getD 0,
    (data.get_all_values N var).1.map (fun v => v.getD 0), ?_, hN,
    fun s hs => hN s (hperm.mem_iff.mp hs), ?_, ?_, ?_, hperm.length_eq, ?_, hperm⟩
  · rw [List.map_map]
    conv_lhs => rw [← List.map_id (data.get_all_values N var).1]
    apply List.map_congr_left
    intro v hv
    obtain ⟨x, hx⟩ := hsome v hv
    rw [hx]; rfl
  · rw [List.pairwise_map] at hsorted ⊢
    exact hsorted.imp (fun h => dle_getD _ _ h)
  · rw [List.pairwise_map]
    exact hasc.imp (fun h => dlt_getD _ _ h)
  · intro x
    constructor
    · intro hx
      obtain ⟨v, hv, hvx⟩ := List.mem_map.mp hx
      obtain ⟨s, hs, hsv⟩ := (hmem v).mp hv
      exact List.mem_map.mpr ⟨s, hperm.mem_iff.mpr hs, by rw [hsv]; exact hvx⟩
    · intro hx
      obtain ⟨s, hs, hsx⟩ := List.mem_map.mp hx
      exact List.mem_map.mpr ⟨data.get s var, (hmem _).mpr ⟨s, hperm.mem_iff.mp hs, rfl⟩, hsx⟩
  · intro h0
    have hnil : N = [] := List.length_eq_zero.mp h0
    have : (data.get_all_values N var).1 = [] := by
      apply List.eq_nil_iff_forall_not_mem.mpr
      intro v hv
      obtain ⟨s, hs, _⟩ := (hmem v).mp hv
      rw [hnil] at hs
      simp at hs
    rw [this] at h2
    simp at h2

/-- Under the accessor contract every boundary evaluated by a scan has an index
below `num_splits`, its threshold is the distinct value of that index, its
`n_left` is the number of samples of the node with value `<=` the threshold and
`size_node - n_left` is the number of samples with value `>` the threshold. -/
theorem value_evals_counts {k : Nat} (sigma : Matrix (Fin 2) (Fin 2) ℚ) (data : Data)
    (node var : Nat) (sum_node : Vec k) (mcs : Nat)
    (responses_by_sample : Nat → Vec k) (samples : List (List Nat)) (s : Scratch k)
    (hc : accessor_contract data (samples.getD node []) var) (e : Evaluated k)
    (he : e ∈ value_evals sigma data node var sum_node (samples.getD node []).length mcs
      responses_by_sample samples s) :
    e.var = var ∧
    e.index + 1 < (data.get_all_values (samples.getD node []) var).1.length ∧
    (data.get_all_values (samples.getD node []) var).1[e.index]? = some e.value ∧
    (∃ x, e.value = some x) ∧
    e.n_left = left_count data var e.value (samples.getD node []) ∧
    (samples.getD node []).length - e.n_left
      = right_count data var e.value (samples.getD node []) ∧
    mcs ≤ e.n_left ∧ mcs ≤ (samples.getD node []).length - e.n_left := by
  unfold value_evals at he
  dsimp only at he
  split_ifs at he with h2
  · simp at he
  obtain ⟨q, ps, hps, hN, hl, hsorted, hasc, hmem, hlen, hpos, hperm⟩ :=
    contract_facts data _ var hc h2
  obtain ⟨_, hidx, hn, _, hm1, hm2, hval, hvar, _⟩ := scan_evals_mem _ _ _ _ _ _ _ _ _ _ _ _ _ e he
  have hpl : (data.get_all_values (samples.getD node []) var).1.length = ps.length := by
    rw [hps, List.length_map]
  have hidx' : e.index + 1 < (data.get_all_values (samples.getD node []) var).1.length := by
    omega
  have hidx'' : e.index < ps.length := by omega
  have hget : (data.get_all_values (samples.getD node []) var).1[e.index]?
      = some (some ps[e.index]) := by
    rw [hps, List.getElem?_map, List.getElem?_eq_getElem hidx'']
    rfl
  have hvalue : e.value = some ps[e.index] := by
    rw [hval, List.getD_eq_getElem?_getD, hget]
    rfl
  -- the count held by each bucket below `num_splits`
  have hbucket : ∀ j ∈ Finset.Ico 0 (e.index + 1),
      (fill_buckets data var responses_by_sample
        (data.get_all_values (samples.getD node []) var).2 (samples.getD node []).length
        (zero_buckets ((data.get_all_values (samples.getD node []) var).1.length - 1) s)).2.counter j
        = wsum (fun _ => (1 : Nat)) (fun s => decide (q s = ps.getD j 0))
            (data.get_all_values (samples.getD node []) var).2 := by
    intro j hj
    have hj' : j < e.index + 1 := (Finset.mem_Ico.mp hj).2
    have hjlt : j < ps.length := by omega
    have hjlen : j + 1 < ps.length := by omega
    rw [fill_buckets_eq data var responses_by_sample _ _ _ hlen hpos]
    dsimp only
    have := fill_list_bucket (fun x => data.get x var) q (fun _ => (1 : Nat)) _ ps 0
      (zero_buckets ((data.get_all_values (samples.getD node []) var).1.length - 1) s).counter
      hl hsorted hasc hmem j ps[j] (List.getElem?_eq_getElem hjlt) hjlen
    simp only [Nat.zero_add] at this
    rw [this]
    have hz : (zero_buckets ((data.get_all_values (samples.getD node []) var).1.length - 1)
        s).counter j = 0 := by
      simp only [zero_buckets]
      rw [if_pos (by omega)]
    have hg : ps.getD j 0 = ps[j] := by
      rw [List.getD_eq_getElem?_getD, List.getElem?_eq_getElem hjlt]
      rfl
    rw [hz, Nat.zero_add, hg]
  have hleft : e.n_left = left_count data var e.value (samples.getD node []) := by
    rw [hn, Nat.zero_add, Finset.sum_congr rfl hbucket, ← Finset.range_eq_Ico,
      sum_range_wsum q _ _ ps hasc
        (fun s hs => (hmem _).mpr (List.mem_map_of_mem _ hs)) e.index ps[e.index]
        (List.getElem?_eq_getElem hidx''), wsum_one, hvalue]
    unfold left_count
    rw [← hperm.countP_eq]
    apply List.countP_congr
    intro s hs
    rw [hl s hs]
    simp [dle]
  have hright : (samples.getD node []).length - e.n_left
      = right_count data var e.value (samples.getD node []) := by
    rw [hleft, hvalue]
    unfold left_count right_count
    have hsplit := List.length_eq_countP_add_countP
      (fun s => dle (data.get s var) (some ps[e.index])) (samples.getD node [])
    have hcongr : List.countP (fun s => dgt (data.get s var) (some ps[e.index]))
          (samples.getD node [])
        = List.countP (fun a => ¬ (dle (data.get a var) (some ps[e.index])) = true)
          (samples.getD node []) := by
      apply List.countP_congr
      intro s hs
      rw [hN s hs]
      simp [dle, dgt]
    rw [hcongr]
    omega
  exact ⟨hvar, hidx', by rw [hget, hvalue], ⟨_, hvalue⟩, hleft, hright, hm1, hm2⟩
/-! ## The search of one node -/

theorem search_evals_mem {k : Nat} (rule : MultiRegressionSplittingRule k) (data : Data)
    (node : Nat) (vars : List Nat) (responses_by_sample : Nat → Vec k)
    (samples : List (List Nat)) (e : Evaluated k)
    (he : e ∈ search_evals rule data node vars responses_by_sample samples) :
    ∃ var, var ∈ vars ∧
      e ∈ value_evals rule.sigma data node var
        (sum_node_of responses_by_sample (samples.getD node []))
        (samples.getD node []).length
        (min_child_size_of rule.alpha (samples.getD node []).length)
        responses_by_sample samples rule.scratch := by
  unfold search_evals at he
  dsimp only at he
  rw [evals_from_eq_flatMap _ _ _ _ _ _ _ _ rule.scratch] at he
  obtain ⟨var, hvar, hmem⟩ := List.mem_flatMap.mp he
  exact ⟨var, hvar, hmem⟩

theorem getElem?_eq_some_getD {α : Type} (l : List α) (i : Nat) (d : α) (h : i < l.length) :
    l[i]? = some (l.getD i d) := by
  rw [List.getD_eq_getElem?_getD, List.getElem?_eq_getElem h]
  rfl

theorem one_le_min_child_size_of (alpha : ℚ) (n : Nat) : 1 ≤ min_child_size_of alpha n :=
  le_max_right _ _

theorem value_evals_mem {k : Nat} (sigma : Matrix (Fin 2) (Fin 2) ℚ) (data : Data)
    (node var : Nat) (sum_node : Vec k) (size_node mcs : Nat)
    (responses_by_sample : Nat → Vec k) (samples : List (List Nat)) (s : Scratch k)
    (e : Evaluated k)
    (he : e ∈ value_evals sigma data node var sum_node size_node mcs responses_by_sample
      samples s) :
    e.var = var ∧
    e.index + 1 < (data.get_all_values (samples.getD node []) var).1.length ∧
    (data.get_all_values (samples.getD node []) var).1[e.index]? = some e.value ∧
    mcs ≤ e.n_left ∧ mcs ≤ size_node - e.n_left ∧
    e.loss = boundary_loss sigma responses_by_sample
      (data.get_all_values (samples.getD node []) var).2 sum_node size_node
      e.n_left e.sum_left := by
  unfold value_evals at he
  dsimp only at he
  split_ifs at he with h2
  · simp at he
  obtain ⟨_, hidx, _, _, hm1, hm2, hval, hvar, hloss⟩ :=
    scan_evals_mem _ _ _ _ _ _ _ _ _ _ _ _ _ e he
  have hidx' : e.index < (data.get_all_values (samples.getD node []) var).1.length := by omega
  refine ⟨hvar, by omega, ?_, hm1, hm2, hloss⟩
  rw [hval]
  exact getElem?_eq_some_getD _ _ _ hidx'

/-- Every loss computed during a search is `0`. -/
theorem search_evals_loss {k : Nat} (rule : MultiRegressionSplittingRule k) (data : Data)
    (node : Nat) (vars : List Nat) (responses_by_sample : Nat → Vec k)
    (samples : List (List Nat)) (e : Evaluated k)
    (he : e ∈ search_evals rule data node vars responses_by_sample samples) : e.loss = 0 := by
  obtain ⟨var, _, hmem⟩ := search_evals_mem rule data node vars responses_by_sample samples e he
  obtain ⟨_, _, _, hm1, hm2, hloss⟩ := value_evals_mem _ _ _ _ _ _ _ _ _ _ e hmem
  have h1 := one_le_min_child_size_of rule.alpha (samples.getD node []).length
  rw [hloss]
  exact boundary_loss_eq_zero _ _ _ _ _ _ _ (by omega)

theorem find_best_split_of_leaf {k : Nat} (rule : MultiRegressionSplittingRule k) (data : Data)
    (node : Nat) (vars : List Nat) (responses_by_sample : Nat → Vec k)
    (samples : List (List Nat)) (split_vars : List Nat) (split_values : List Val)
    (h : leaf_bound < (search rule data node vars responses_by_sample samples).2.best_loss) :
    find_best_split rule data node vars responses_by_sample samples split_vars split_values
      = { leaf := true, split_vars := split_vars, split_values := split_values,
          scratch := (search rule data node vars responses_by_sample samples).1 } := by
  unfold find_best_split
  dsimp only
  rw [if_pos h]

theorem find_best_split_of_split {k : Nat} (rule : MultiRegressionSplittingRule k) (data : Data)
    (node : Nat) (vars : List Nat) (responses_by_sample : Nat → Vec k)
    (samples : List (List Nat)) (split_vars : List Nat) (split_values : List Val)
    (h : ¬ leaf_bound < (search rule data node vars responses_by_sample samples).2.best_loss) :
    find_best_split rule data node vars responses_by_sample samples split_vars split_values
      = { leaf := false,
          split_vars := split_vars.set node
            (search rule data node vars responses_by_sample samples).2.best_var,
          split_values := split_values.set node
            (search rule data node vars responses_by_sample samples).2.best_value,
          scratch := (search rule data node vars responses_by_sample samples).1 } := by
  unfold find_best_split
  dsimp only
  rw [if_neg h]

theorem find_best_split_leaf_iff {k : Nat} (rule : MultiRegressionSplittingRule k) (data : Data)
    (node : Nat) (vars : List Nat) (responses_by_sample : Nat → Vec k)
    (samples : List (List Nat)) (split_vars : List Nat) (split_values : List Val) :
    (find_best_split rule data node vars responses_by_sample samples split_vars
        split_values).leaf = true
      ↔ leaf_bound < (search rule data node vars responses_by_sample samples).2.best_loss := by
  by_cases h : leaf_bound < (search rule data node vars responses_by_sample samples).2.best_loss
  · rw [find_best_split_of_leaf _ _ _ _ _ _ _ _ h]
    simp [h]
  · rw [find_best_split_of_split _ _ _ _ _ _ _ _ h]
    simp [h]

theorem leaf_bound_lt_sentinel : leaf_bound < sentinel_loss := by
  norm_num [leaf_bound, sentinel_loss]

/-- When a search reports a split, the running best it writes is one of the
evaluated boundaries. -/
theorem search_best_of_split {k : Nat} (rule : MultiRegressionSplittingRule k) (data : Data)
    (node : Nat) (vars : List Nat) (responses_by_sample : Nat → Vec k)
    (samples : List (List Nat)) (split_vars : List Nat) (split_values : List Val)
    (h : (find_best_split rule data node vars responses_by_sample samples split_vars
        split_values).leaf = false) :
    ∃ pre c post,
      search_evals rule data node vars responses_by_sample samples = pre ++ c :: post ∧
      (∀ d ∈ pre, c.loss < d.loss) ∧ (∀ d ∈ post, c.loss ≤ d.loss) ∧
      (search rule data node vars responses_by_sample samples).2
        = { best_value := c.value, best_var := c.var, best_loss := c.loss } ∧
      find_best_split rule data node vars responses_by_sample samples split_vars split_values
        = { leaf := false, split_vars := split_vars.set node c.var,
            split_values := split_values.set node c.value,
            scratch := (search rule data node vars responses_by_sample samples).1 } := by
  have hnot : ¬ leaf_bound
      < (search rule data node vars responses_by_sample samples).2.best_loss := by
    intro hlt
    rw [(find_best_split_leaf_iff rule data node vars responses_by_sample samples split_vars
      split_values).mpr hlt] at h
    exact Bool.noConfusion h
  have hout := find_best_split_of_split rule data node vars responses_by_sample samples
    split_vars split_values hnot
  rw [search_snd] at hnot
  rcases foldl_step_cases (search_evals rule data node vars responses_by_sample samples)
    Best.init with ⟨heq, _⟩ | ⟨pre, c, post, hl, _, hpre, hpost, heq⟩
  · rw [heq] at hnot
    exact absurd leaf_bound_lt_sentinel hnot
  · refine ⟨pre, c, post, hl, hpre, hpost, by rw [search_snd, heq], ?_⟩
    rw [hout, search_snd, heq]

/-! ## The small dataset meets the accessor contract -/

theorem contract4 : accessor_contract data4 [0, 1, 2, 3] 0 := by
  refine ⟨?_, ?_, ?_, ?_⟩
  · exact List.Perm.refl _
  · decide!
  · decide!
  · intro v
    simp [data4]
    constructor
    · rintro (h | h | h | h) <;> subst h <;> norm_num
    · rintro (h | h | h | h) <;> subst h <;> norm_num

/-- The boundaries recorded by a scan come in ascending order of their index. -/
theorem scan_evals_ascending {k : Nat} (sigma : Matrix (Fin 2) (Fin 2) ℚ)
    (responses_by_sample : Nat → Vec k) (psv : List Val) (sorted_samples : List Nat)
    (var : Nat) (sum_node : Vec k) (size_node mcs : Nat) (s : Scratch k) :
    ∀ (fuel i n0 : Nat) (s0 : Vec k),
      (scan_evals sigma responses_by_sample psv sorted_samples var sum_node size_node mcs s
          fuel i n0 s0).Pairwise (fun a b => a.index < b.index) := by
  intro fuel
  induction fuel with
  | zero => intro i n0 s0; simp [scan_evals]
  | succ fuel ih =>
    intro i n0 s0
    simp only [scan_evals]
    split_ifs with h1 h2
    · exact ih _ _ _
    · exact List.Pairwise.nil
    · rw [List.pairwise_cons]
      refine ⟨?_, ih _ _ _⟩
      intro b hb
      have := (scan_evals_mem _ _ _ _ _ _ _ _ _ _ _ _ _ b hb).1
      simp only
      omega

theorem value_evals_ascending {k : Nat} (sigma : Matrix (Fin 2) (Fin 2) ℚ) (data : Data)
    (node var : Nat) (sum_node : Vec k) (size_node mcs : Nat)
    (responses_by_sample : Nat → Vec k) (samples : List (List Nat)) (s : Scratch k) :
    (value_evals sigma data node var sum_node size_node mcs responses_by_sample
      samples s).Pairwise (fun a b => a.index < b.index) := by
  unfold value_evals
  dsimp only
  split_ifs with h
  · exact List.Pairwise.nil
  · exact scan_evals_ascending _ _ _ _ _ _ _ _ _ _ _ _ _

theorem search_evals_scratch {k : Nat} (alpha p p' : ℚ) (sigma : Matrix (Fin 2) (Fin 2) ℚ)
    (s s' : Scratch k) (data : Data) (node : Nat) (vars : List Nat)
    (responses_by_sample : Nat → Vec k) (samples : List (List Nat)) :
    search_evals { alpha := alpha, imbalance_penalty := p, scratch := s, sigma := sigma }
        data node vars responses_by_sample samples
      = search_evals { alpha := alpha, imbalance_penalty := p', scratch := s', sigma := sigma }
        data node vars responses_by_sample samples := by
  unfold search_evals
  exact evals_from_scratch _ _ _ _ _ _ _ _ _ _ _

/-! ## The cumulated count stays below the node size -/

theorem fill_step_counter_sum_le {k : Nat} (data : Data) (var : Nat)
    (responses_by_sample : Nat → Vec k) (sorted_samples : List Nat) (n : Nat)
    (st : Nat × Scratch k) (i : Nat) :
    ∑ j in Finset.range n, (fill_step data var responses_by_sample sorted_samples st i).2.counter j
      ≤ ∑ j in Finset.range n, st.2.counter j + 1 := by
  have hpt : ∀ j ∈ Finset.range n,
      (fill_step data var responses_by_sample sorted_samples st i).2.counter j
        = st.2.counter j + (if j = st.1 then 1 else 0) := by
    intro j _
    simp only [fill_step]
    by_cases h : j = st.1
    · subst h; simp
    · simp [Function.update_noteq h, h]
  rw [Finset.sum_congr rfl hpt, Finset.sum_add_distrib, Finset.sum_ite_eq']
  split_ifs <;> omega

theorem foldl_fill_step_counter_sum_le {k : Nat} (data : Data) (var : Nat)
    (responses_by_sample : Nat → Vec k) (sorted_samples : List Nat) (n : Nat) :
    ∀ (l : List Nat) (st : Nat × Scratch k),
      ∑ j in Finset.range n,
          (l.foldl (fill_step data var responses_by_sample sorted_samples) st).2.counter j
        ≤ ∑ j in Finset.range n, st.2.counter j + l.length := by
  intro l
  induction l with
  | nil => intro st; simp
  | cons i l ih =>
    intro st
    rw [List.foldl_cons, List.length_cons]
    have h1 := ih (fill_step data var responses_by_sample sorted_samples st i)
    have h2 := fill_step_counter_sum_le data var responses_by_sample sorted_samples n st i
    omega

/-- After the zeroing of lines 109-110 and the filling loop, the counters of the
buckets `0 .. m - 1` add up to at most the number of iterations of the loop, for
every `m <= num_splits`: whenever the node is not empty, `n_left` stays below
`size_node` throughout the scan, and `size_node - n_left` does not wrap. -/
theorem filled_prefix_sum_le {k : Nat} (data : Data) (var : Nat)
    (responses_by_sample : Nat → Vec k) (sorted_samples : List Nat)
    (size_node num_splits : Nat) (s : Scratch k) (m : Nat) (hm : m ≤ num_splits) :
    ∑ j in Finset.range m,
        (fill_buckets data var responses_by_sample sorted_samples size_node
          (zero_buckets num_splits s)).2.counter j
      ≤ pred_size_t size_node := by
  have h1 := foldl_fill_step_counter_sum_le data var responses_by_sample sorted_samples
    num_splits (List.range (pred_size_t size_node)) (0, zero_buckets num_splits s)
  have h0 : ∑ j in Finset.range num_splits, (zero_buckets num_splits s).counter j = 0 := by
    apply Finset.sum_eq_zero
    intro j hj
    simp [zero_buckets, Finset.mem_range.mp hj]
  have h2 : ∑ j in Finset.range m,
        (fill_buckets data var responses_by_sample sorted_samples size_node
          (zero_buckets num_splits s)).2.counter j
      ≤ ∑ j in Finset.range num_splits,
        (fill_buckets data var responses_by_sample sorted_samples size_node
          (zero_buckets num_splits s)).2.counter j :=
    Finset.sum_le_sum_of_subset (Finset.range_mono hm)
  unfold fill_buckets at h2 ⊢
  rw [h0, List.length_range] at h1
  omega

/-! ## The dispersion matrix of the constructor -/

theorem cum_count_succ {k : Nat} (s : Scratch k) (i n0 idx : Nat) (h : i < idx + 1) :
    cum_count s (i + 1) (n0 + s.counter i) idx = cum_count s i n0 idx := by
  unfold cum_count
  rw [Finset.sum_eq_sum_Ico_succ_bot h, add_assoc]

theorem cum_sum_succ {k : Nat} (s : Scratch k) (i : Nat) (s0 : Vec k) (idx : Nat)
    (h : i < idx + 1) :
    cum_sum s (i + 1) (s0 + s.sums i) idx = cum_sum s i s0 idx := by
  unfold cum_sum
  rw [Finset.sum_eq_sum_Ico_succ_bot h, add_assoc]

theorem cum_count_self {k : Nat} (s : Scratch k) (i n0 : Nat) :
    cum_count s i n0 i = n0 + s.counter i := by
  simp [cum_count]

theorem cum_sum_self {k : Nat} (s : Scratch k) (i : Nat) (s0 : Vec k) :
    cum_sum s i s0 i = s0 + s.sums i := by
  simp [cum_sum]

/-- The cumulated count does not decrease along the scan. -/
theorem cum_count_mono {k : Nat} (s : Scratch k) (i n0 idx idx' : Nat) (h : idx ≤ idx') :
    cum_count s i n0 idx ≤ cum_count s i n0 idx' := by
  unfold cum_count
  apply Nat.add_le_add_left
  apply Finset.sum_le_sum_of_subset
  intro j hj
  rw [Finset.mem_Ico] at hj ⊢
  omega

theorem boundary_at_succ {k : Nat} (sigma : Matrix (Fin 2) (Fin 2) ℚ)
    (responses_by_sample : Nat → Vec k) (psv : List Val) (sorted_samples : List Nat)
    (var : Nat) (sum_node : Vec k) (size_node : Nat) (s : Scratch k) (i n0 : Nat)
    (s0 : Vec k) (idx : Nat) (h : i < idx + 1) :
    boundary_at sigma responses_by_sample psv sorted_samples var sum_node size_node s
        (i + 1) (n0 + s.counter i) (s0 + s.sums i) idx
      = boundary_at sigma responses_by_sample psv sorted_samples var sum_node size_node s
        i n0 s0 idx := by
  unfold boundary_at
  rw [cum_count_succ s i n0 idx h, cum_sum_succ s i s0 idx h]

/-- The boundaries recorded by the scan with `continue` and `break` are exactly the
boundaries of the scanned range whose two children have at least `min_child_size`
samples. -/
theorem scan_evals_eq_filter {k : Nat} (sigma : Matrix (Fin 2) (Fin 2) ℚ)
    (responses_by_sample : Nat → Vec k) (psv : List Val) (sorted_samples : List Nat)
    (var : Nat) (sum_node : Vec k) (size_node mcs : Nat) (s : Scratch k) :
    ∀ (fuel i n0 : Nat) (s0 : Vec k),
      scan_evals sigma responses_by_sample psv sorted_samples var sum_node size_node mcs s
          fuel i n0 s0
        = ((List.range' i fuel).filter (fun idx =>
              decide (mcs ≤ cum_count s i n0 idx ∧ mcs ≤ size_node - cum_count s i n0 idx))).map
            (boundary_at sigma responses_by_sample psv sorted_samples var sum_node size_node s
              i n0 s0) := by
  intro fuel
  induction fuel with
  | zero => intro i n0 s0; simp [scan_evals]
  | succ fuel ih =>
    intro i n0 s0
    have htail : ((List.range' (i + 1) fuel).filter (fun idx =>
          decide (mcs ≤ cum_count s (i + 1) (n0 + s.counter i) idx ∧
            mcs ≤ size_node - cum_count s (i + 1) (n0 + s.counter i) idx))).map
          (boundary_at sigma responses_by_sample psv sorted_samples var sum_node size_node s
            (i + 1) (n0 + s.counter i) (s0 + s.sums i))
        = ((List.range' (i + 1) fuel).filter (fun idx =>
          decide (mcs ≤ cum_count s i n0 idx ∧ mcs ≤ size_node - cum_count s i n0 idx))).map
          (boundary_at sigma responses_by_sample psv sorted_samples var sum_node size_node s
            i n0 s0) := by
      have hf : (List.range' (i + 1) fuel).filter (fun idx =>
            decide (mcs ≤ cum_count s (i + 1) (n0 + s.counter i) idx ∧
              mcs ≤ size_node - cum_count s (i + 1) (n0 + s.counter i) idx))
          = (List.range' (i + 1) fuel).filter (fun idx =>
            decide (mcs ≤ cum_count s i n0 idx ∧ mcs ≤ size_node - cum_count s i n0 idx)) := by
        apply List.filter_congr
        intro idx hidx
        have := (List.mem_range'_1.mp hidx).1
        rw [cum_count_succ s i n0 idx (by omega)]
      rw [hf]
      apply List.map_congr_left
      intro idx hidx
      have := (List.mem_range'_1.mp (List.mem_filter.mp hidx).1).1
      exact boundary_at_succ _ _ _ _ _ _ _ _ _ _ _ _ (by omega)
    simp only [scan_evals]
    rw [List.range'_succ, List.filter_cons, cum_count_self]
    by_cases h1 : n0 + s.counter i < mcs
    · rw [if_pos h1, if_neg (by simp only [decide_eq_true_eq]; omega), ih, htail]
    · rw [if_neg h1]
      by_cases h2 : size_node - (n0 + s.counter i) < mcs
      · -- the right child is too small: it stays too small
        rw [if_pos h2, if_neg (by simp only [decide_eq_true_eq]; omega)]
        symm
        rw [List.map_eq_nil_iff, List.filter_eq_nil_iff]
        intro idx hidx
        have hi := (List.mem_range'_1.mp hidx).1
        have hmono := cum_count_mono s i n0 i idx (by omega)
        rw [cum_count_self] at hmono
        simp only [decide_eq_true_eq, not_and, not_le]
        intro _
        omega
      · rw [if_neg h2, if_pos (by simp only [decide_eq_true_eq]; omega), List.map_cons, ih,
          htail]
        congr 1
        unfold boundary_at
        rw [cum_count_self, cum_sum_self]

theorem scan_no_break_of_small_right {k : Nat} (sigma : Matrix (Fin 2) (Fin 2) ℚ)
    (responses_by_sample : Nat → Vec k) (psv : List Val) (sorted_samples : List Nat)
    (var : Nat) (sum_node : Vec k) (size_node mcs : Nat) (s : Scratch k) :
    ∀ (fuel i n0 : Nat) (s0 : Vec k) (best : Best), size_node - n0 < mcs →
      scan_no_break sigma responses_by_sample psv sorted_samples var sum_node size_node mcs s
        fuel i n0 s0 best = best := by
  intro fuel
  induction fuel with
  | zero => intro i n0 s0 best _; rfl
  | succ fuel ih =>
    intro i n0 s0 best h
    simp only [scan_no_break]
    rw [if_pos (by right; omega)]
    exact ih _ _ _ _ (by omega)

/-- The scan with the early stop computes the same running best as the scan that
passes over every inadmissible boundary without stopping. -/
theorem scan_eq_scan_no_break {k : Nat} (sigma : Matrix (Fin 2) (Fin 2) ℚ)
    (responses_by_sample : Nat → Vec k) (psv : List Val) (sorted_samples : List Nat)
    (var : Nat) (sum_node : Vec k) (size_node mcs : Nat) (s : Scratch k) :
    ∀ (fuel i n0 : Nat) (s0 : Vec k) (best : Best),
      scan sigma responses_by_sample psv sorted_samples var sum_node size_node mcs s
          fuel i n0 s0 best
        = scan_no_break sigma responses_by_sample psv sorted_samples var sum_node size_node
          mcs s fuel i n0 s0 best := by
  intro fuel
  induction fuel with
  | zero => intro i n0 s0 best; rfl
  | succ fuel ih =>
    intro i n0 s0 best
    simp only [scan, scan_no_break]
    by_cases h1 : n0 + s.counter i < mcs
    · rw [if_pos h1, if_pos (Or.inl h1)]
      exact ih _ _ _ _
    · rw [if_neg h1]
      by_cases h2 : size_node - (n0 + s.counter i) < mcs
      · rw [if_pos h2, if_pos (Or.inr h2)]
        exact (scan_no_break_of_small_right _ _ _ _ _ _ _ _ _ _ _ _ _ _ h2).symm
      · rw [if_neg h2, if_neg (by rintro (h | h) <;> contradiction)]
        exact ih _ _ _ _

/-! ## The cumulated buckets under the accessor contract -/

theorem scan_steps_mem {k : Nat} (size_node mcs : Nat) (s : Scratch k) :
    ∀ (fuel i n0 : Nat) (s0 : Vec k) (st : Step k),
      st ∈ scan_steps size_node mcs s fuel i n0 s0 →
      i ≤ st.index ∧ st.index < i + fuel ∧ st.n_left = cum_count s i n0 st.index ∧
      st.sum_left = cum_sum s i s0 st.index := by
  intro fuel
  induction fuel with
  | zero => intro i n0 s0 st h; simp [scan_steps] at h
  | succ fuel ih =>
    intro i n0 s0 st h
    have hhead : ∀ st : Step k,
        st = { index := i, n_left := n0 + s.counter i, sum_left := s0 + s.sums i } →
        i ≤ st.index ∧ st.index < i + (fuel + 1) ∧ st.n_left = cum_count s i n0 st.index ∧
        st.sum_left = cum_sum s i s0 st.index := by
      intro st hst
      subst hst
      exact ⟨le_refl _, by simp, (cum_count_self s i n0).symm, (cum_sum_self s i s0).symm⟩
    have hrec : ∀ st, st ∈ scan_steps size_node mcs s fuel (i + 1) (n0 + s.counter i)
        (s0 + s.sums i) →
        i ≤ st.index ∧ st.index < i + (fuel + 1) ∧ st.n_left = cum_count s i n0 st.index ∧
        st.sum_left = cum_sum s i s0 st.index := by
      intro st hst
      obtain ⟨h1, h2, h3, h4⟩ := ih _ _ _ st hst
      refine ⟨by omega, by omega, ?_, ?_⟩
      · rw [h3, cum_count_succ s i n0 _ (by omega)]
      · rw [h4, cum_sum_succ s i s0 _ (by omega)]
    simp only [scan_steps] at h
    split_ifs at h with h1 h2
    · rcases List.mem_cons.mp h with h | h
      · exact hhead st h
      · exact hrec st h
    · exact hhead st (List.mem_singleton.mp h)
    · rcases List.mem_cons.mp h with h | h
      · exact hhead st h
      · exact hrec st h

/-- The samples of a non-decreasing ordering whose value is at most `x` are its
first entries. -/
theorem filter_le_eq_take (q : Nat → ℚ) (x : ℚ) :
    ∀ (l : List Nat), (l.map q).Pairwise (fun u v => u ≤ v) →
      l.filter (fun s => decide (q s ≤ x)) = l.take (l.countP (fun s => decide (q s ≤ x)))
      ∧ l.filter (fun s => decide (x < q s)) = l.drop (l.countP (fun s => decide (q s ≤ x))) := by
  intro l
  induction l with
  | nil => intro _; simp
  | cons a l ih =>
    intro h
    rw [List.map_cons, List.pairwise_cons] at h
    obtain ⟨ih1, ih2⟩ := ih h.2
    by_cases ha : q a ≤ x
    · have ha' : ¬ x < q a := not_lt.mpr ha
      simp only [List.filter_cons, List.countP_cons, ha, ha', decide_True, decide_False,
        if_true, Bool.false_eq_true, if_false, List.take_succ_cons, List.drop_succ_cons]
      exact ⟨by rw [ih1], ih2⟩
    · have hall : ∀ s ∈ l, ¬ q s ≤ x := by
        intro s hs hsx
        exact ha (le_trans (h.1 (q s) (List.mem_map_of_mem _ hs)) hsx)
      have hc : l.countP (fun s => decide (q s ≤ x)) = 0 := by
        rw [List.countP_eq_zero]
        intro s hs
        simpa using hall s hs
      have hf : l.filter (fun s => decide (q s ≤ x)) = [] := by
        rw [List.filter_eq_nil_iff]
        intro s hs
        simpa using hall s hs
      have ha' : x < q a := not_le.mp ha
      simp only [List.filter_cons, List.countP_cons, ha, ha', decide_True, decide_False,
        if_true, Bool.false_eq_true, if_false, hc, hf, List.take_zero, List.drop_zero,
        Nat.zero_add, true_and]
      rw [ih2, hc, List.drop_zero]

theorem wsum_perm {M : Type} [AddCommMonoid M] (w : Nat → M) (p : Nat → Bool)
    (l l' : List Nat) (h : l.Perm l') : wsum w p l = wsum w p l' := by
  unfold wsum
  exact ((h.filter p).map w).sum_eq

/-- Under the accessor contract, the cumulated count and the cumulated sum of the
buckets `0 .. i` found by the scan are the number and the sum of outcome vectors of
the samples of the ordering whose value is at most the `i`-th distinct value, for
every boundary `i < num_splits`. -/
theorem filled_cum {k : Nat} (data : Data) (node var : Nat)
    (responses_by_sample : Nat → Vec k) (samples : List (List Nat)) (s : Scratch k)
    (q : Nat → ℚ) (ps : List ℚ)
    (hps : (data.get_all_values (samples.getD node []) var).1 = ps.map some)
    (hl : ∀ s ∈ (data.get_all_values (samples.getD node []) var).2,
      data.get s var = some (q s))
    (hsorted : ((data.get_all_values (samples.getD node []) var).2.map q).Pairwise
      (fun u v => u ≤ v))
    (hasc : ps.Pairwise (fun u v => u < v))
    (hmem : ∀ x, x ∈ ps ↔ x ∈ (data.get_all_values (samples.getD node []) var).2.map q)
    (hlen : (data.get_all_values (samples.getD node []) var).2.length
      = (samples.getD node []).length)
    (hpos : (samples.getD node []).length ≠ 0)
    (i : Nat) (hi : i + 1 < ps.length) (hi' : i < ps.length) :
    cum_count (filled_buckets data node var (samples.getD node []).length responses_by_sample
        samples s) 0 0 i
      = wsum (fun _ => (1 : Nat)) (fun s => decide (q s ≤ ps[i]))
          (data.get_all_values (samples.getD node []) var).2 ∧
    cum_sum (filled_buckets data node var (samples.getD node []).length responses_by_sample
        samples s) 0 0 i
      = wsum responses_by_sample (fun s => decide (q s ≤ ps[i]))
          (data.get_all_values (samples.getD node []) var).2 := by
  have hpl : (data.get_all_values (samples.getD node []) var).1.length = ps.length := by
    rw [hps, List.length_map]
  have hfilled := fill_buckets_eq data var responses_by_sample
    (data.get_all_values (samples.getD node []) var).2 (samples.getD node []).length
    (zero_buckets ((data.get_all_values (samples.getD node []) var).1.length - 1) s) hlen hpos
  have hg : ∀ j, j < ps.length → ps.getD j 0 = ps[j]! := by
    intro j hj
    rw [List.getD_eq_getElem?_getD, List.getElem?_eq_getElem hj, getElem!_pos ps j hj]
    rfl
  have hcounter : ∀ j ∈ Finset.range (i + 1),
      (filled_buckets data node var (samples.getD node []).length responses_by_sample
        samples s).counter j
        = wsum (fun _ => (1 : Nat)) (fun s => decide (q s = ps.getD j 0))
            (data.get_all_values (samples.getD node []) var).2 := by
    intro j hj
    have hj' : j < i + 1 := Finset.mem_range.mp hj
    have hjlt : j < ps.length := by omega
    unfold filled_buckets
    rw [hfilled]
    dsimp only
    have := fill_list_bucket (fun x => data.get x var) q (fun _ => (1 : Nat)) _ ps 0
      (zero_buckets ((data.get_all_values (samples.getD node []) var).1.length - 1) s).counter
      hl hsorted hasc hmem j ps[j] (List.getElem?_eq_getElem hjlt) (by omega)
    simp only [Nat.zero_add] at this
    rw [this]
    have hz : (zero_buckets ((data.get_all_values (samples.getD node []) var).1.length - 1)
        s).counter j = 0 := by
      simp only [zero_buckets]
      rw [if_pos (by omega)]
    rw [hz, Nat.zero_add, hg j hjlt, getElem!_pos ps j hjlt]
  have hsums : ∀ j ∈ Finset.range (i + 1),
      (filled_buckets data node var (samples.getD node []).length responses_by_sample
        samples s).sums j
        = wsum responses_by_sample (fun s => decide (q s = ps.getD j 0))
            (data.get_all_values (samples.getD node []) var).2 := by
    intro j hj
    have hj' : j < i + 1 := Finset.mem_range.mp hj
    have hjlt : j < ps.length := by omega
    unfold filled_buckets
    rw [hfilled]
    dsimp only
    have := fill_list_bucket (fun x => data.get x var) q responses_by_sample _ ps 0
      (zero_buckets ((data.get_all_values (samples.getD node []) var).1.length - 1) s).sums
      hl hsorted hasc hmem j ps[j] (List.getElem?_eq_getElem hjlt) (by omega)
    simp only [Nat.zero_add] at this
    rw [this]
    have hz : (zero_buckets ((data.get_all_values (samples.getD node []) var).1.length - 1)
        s).sums j = 0 := by
      simp only [zero_buckets]
      rw [if_pos (by omega)]
    rw [hz, zero_add, hg j hjlt, getElem!_pos ps j hjlt]
  have hmem' : ∀ s ∈ (data.get_all_values (samples.getD node []) var).2, q s ∈ ps :=
    fun s hs => (hmem _).mpr (List.mem_map_of_mem _ hs)
  constructor
  · unfold cum_count
    rw [Nat.zero_add, ← Finset.range_eq_Ico, Finset.sum_congr rfl hcounter,
      sum_range_wsum q _ _ ps hasc hmem' i ps[i] (List.getElem?_eq_getElem hi')]
  · unfold cum_sum
    rw [zero_add, ← Finset.range_eq_Ico, Finset.sum_congr rfl hsums,
      sum_range_wsum q _ _ ps hasc hmem' i ps[i] (List.getElem?_eq_getElem hi')]

/-- Under the accessor contract, for every boundary `i < num_splits` with threshold
`t`: the cumulated count of the buckets `0 .. i` is the number of samples of the
node with value `<= t`, the cumulated sum is the sum of their outcome vectors, and
the first entries of the ordering, as many as the cumulated count, are those
samples. -/
theorem filled_cum_left {k : Nat} (data : Data) (node var : Nat)
    (responses_by_sample : Nat → Vec k) (samples : List (List Nat)) (s : Scratch k)
    (hc : accessor_contract data (samples.getD node []) var)
    (i : Nat) (t : Val)
    (hi : i + 1 < (data.get_all_values (samples.getD node []) var).1.length)
    (ht : (data.get_all_values (samples.getD node []) var).1[i]? = some t) :
    cum_count (filled_buckets data node var (samples.getD node []).length responses_by_sample
        samples s) 0 0 i = left_count data var t (samples.getD node []) ∧
    cum_sum (filled_buckets data node var (samples.getD node []).length responses_by_sample
        samples s) 0 0 i
      = ((left_child data var t (samples.getD node [])).map responses_by_sample).sum ∧
    (data.get_all_values (samples.getD node []) var).2.take
        (left_count data var t (samples.getD node []))
      = (data.get_all_values (samples.getD node []) var).2.filter
          (fun s => dle (data.get s var) t) ∧
    (data.get_all_values (samples.getD node []) var).2.drop
        (left_count data var t (samples.getD node []))
      = (data.get_all_values (samples.getD node []) var).2.filter
          (fun s => dgt (data.get s var) t) := by
  obtain ⟨q, ps, hps, hN, hl, hsorted, hasc, hmem, hlen, hpos, hperm⟩ :=
    contract_facts data _ var hc (by omega)
  have hpl : (data.get_all_values (samples.getD node []) var).1.length = ps.length := by
    rw [hps, List.length_map]
  have hi' : i < ps.length := by omega
  have htv : t = some ps[i] := by
    rw [hps, List.getElem?_map, List.getElem?_eq_getElem hi'] at ht
    exact (Option.some.inj ht).symm
  obtain ⟨hcount, hsum⟩ := filled_cum data node var responses_by_sample samples s q ps hps hl
    hsorted hasc hmem hlen hpos i (by omega) hi'
  have hpred : ∀ s ∈ (data.get_all_values (samples.getD node []) var).2,
      decide (q s ≤ ps[i]) = dle (data.get s var) t := by
    intro s hs
    rw [hl s hs, htv]
    simp [dle]
  have hpred' : ∀ s ∈ (data.get_all_values (samples.getD node []) var).2,
      decide (ps[i] < q s) = dgt (data.get s var) t := by
    intro s hs
    rw [hl s hs, htv]
    simp [dgt]
  have hleft : left_count data var t (samples.getD node [])
      = (data.get_all_values (samples.getD node []) var).2.countP
          (fun s => decide (q s ≤ ps[i])) := by
    unfold left_count
    rw [← hperm.countP_eq]
    exact (List.countP_congr (fun s hs => by rw [hpred s hs])).symm
  obtain ⟨htake, hdrop⟩ := filter_le_eq_take q ps[i] _ hsorted
  refine ⟨?_, ?_, ?_, ?_⟩
  · rw [hcount, wsum_one, hleft]
  · rw [hsum, wsum_congr _ _ _ _ hpred, wsum_perm _ _ _ _ hperm]
    rfl
  · rw [hleft, ← htake]
    exact List.filter_congr hpred
  · rw [hleft, ← hdrop]
    exact List.filter_congr hpred'

theorem value_steps_mem {k : Nat} (data : Data) (node var : Nat) (size_node mcs : Nat)
    (responses_by_sample : Nat → Vec k) (samples : List (List Nat)) (s : Scratch k)
    (st : Step k)
    (h : st ∈ value_steps data node var size_node mcs responses_by_sample samples s) :
    st.index + 1 < (data.get_all_values (samples.getD node []) var).1.length ∧
    st.n_left = cum_count (filled_buckets data node var size_node responses_by_sample
      samples s) 0 0 st.index ∧
    st.sum_left = cum_sum (filled_buckets data node var size_node responses_by_sample
      samples s) 0 0 st.index := by
  unfold value_steps at h
  split_ifs at h with h2
  · simp at h
  obtain ⟨_, h1, h3, h4⟩ := scan_steps_mem _ _ _ _ _ _ _ st h
  exact ⟨by omega, h3, h4⟩

/-! ## The means of the two children -/

theorem vec_sum_apply {k : Nat} (f : Nat → Vec k) (j : Fin k) :
    ∀ (l : List Nat), (l.map f).sum j = (l.map (fun s => f s j)).sum := by
  intro l
  induction l with
  | nil => rfl
  | cons a l ih =>
    simp only [List.map_cons, List.sum_cons, Pi.add_apply, ih]

theorem foldl_add_eq_sum {k : Nat} (f : Nat → Vec k) :
    ∀ (l : List Nat) (acc : Vec k),
      l.foldl (fun acc s => acc + f s) acc = acc + (l.map f).sum := by
  intro l
  induction l with
  | nil => intro acc; simp
  | cons a l ih =>
    intro acc
    rw [List.foldl_cons, ih, List.map_cons, List.sum_cons, add_assoc]

/-- The sum computed by lines 59-62 is the sum of the outcome vectors of the node. -/
theorem sum_node_of_eq_sum {k : Nat} (responses_by_sample : Nat → Vec k) (l : List Nat) :
    sum_node_of responses_by_sample l = (l.map responses_by_sample).sum := by
  unfold sum_node_of
  rw [foldl_add_eq_sum, zero_add]

theorem mean_of_perm {k : Nat} (responses_by_sample : Nat → Vec k) (l l' : List Nat)
    (h : l.Perm l') : mean_of responses_by_sample l = mean_of responses_by_sample l' := by
  unfold mean_of
  funext j
  rw [(h.map _).sum_eq, h.length_eq]

/-- The cumulated count and sum carried by a boundary evaluated by a scan. -/
theorem value_evals_cum {k : Nat} (sigma : Matrix (Fin 2) (Fin 2) ℚ) (data : Data)
    (node var : Nat) (sum_node : Vec k) (size_node mcs : Nat)
    (responses_by_sample : Nat → Vec k) (samples : List (List Nat)) (s : Scratch k)
    (e : Evaluated k)
    (he : e ∈ value_evals sigma data node var sum_node size_node mcs responses_by_sample
      samples s) :
    e.n_left = cum_count (filled_buckets data node var size_node responses_by_sample
      samples s) 0 0 e.index ∧
    e.sum_left = cum_sum (filled_buckets data node var size_node responses_by_sample
      samples s) 0 0 e.index := by
  unfold value_evals at he
  dsimp only at he
  split_ifs at he with h2
  · simp at he
  obtain ⟨_, _, hn, hs, _⟩ := scan_evals_mem _ _ _ _ _ _ _ _ _ _ _ _ _ e he
  exact ⟨hn, hs⟩

/-- Under the accessor contract the outcome vectors of a node add up to those of
the left child plus those of the right child, at every threshold. -/
theorem sum_left_add_sum_right {k : Nat} (data : Data) (var : Nat)
    (responses_by_sample : Nat → Vec k) (N : List Nat) (q : Nat → ℚ)
    (hN : ∀ s ∈ N, data.get s var = some (q s)) (x : ℚ) :
    (N.map responses_by_sample).sum
      = ((left_child data var (some x) N).map responses_by_sample).sum
        + ((right_child data var (some x) N).map responses_by_sample).sum := by
  have h := wsum_split responses_by_sample (fun _ => true)
    (fun s => dle (data.get s var) (some x)) (fun s => dgt (data.get s var) (some x)) N
    (by
      intro s hs
      dsimp only
      rw [hN s hs]
      simp only [dle, dgt]
      by_cases hle : q s ≤ x
      · simp [hle]
      · have : x < q s := not_le.mp hle
        simp [hle, this])
    (by
      intro s hs
      dsimp only
      rw [hN s hs]
      simp only [dle, dgt, decide_eq_true_eq]
      intro hboth
      exact absurd hboth.2 (not_lt.mpr hboth.1))
  unfold wsum at h
  rw [List.filter_eq_self.mpr (by intro _ _; rfl)] at h
  exact h

/-- With `min_child_size = 2` the scan of the small dataset evaluates a boundary. -/
theorem evals4_ne_nil :
    value_evals rule4.sigma data4 0 0 (sum_node_of responses4 ([[0, 1, 2, 3]].getD 0 []))
      ([[0, 1, 2, 3]].getD 0 []).length 2 responses4 [[0, 1, 2, 3]] (scratch0 2) ≠ [] := by
  intro h
  have hlen : (value_evals rule4.sigma data4 0 0
      (sum_node_of responses4 ([[0, 1, 2, 3]].getD 0 []))
      ([[0, 1, 2, 3]].getD 0 []).length 2 responses4 [[0, 1, 2, 3]] (scratch0 2)).length = 1 := by
    decide!
  rw [h] at hlen
  exact absurd hlen (by decide)

/-! ## The accumulations of the bucket-filling pass -/

/-- The trace lists the buckets the filling loop accumulates into: each counter
grows by the number of accumulations into its bucket, each row of sums by the
outcome vectors accumulated into its bucket. -/
theorem foldl_fill_step_trace {k : Nat} (data : Data) (var : Nat)
    (responses_by_sample : Nat → Vec k) (sorted_samples : List Nat) :
    ∀ (is : List Nat) (st : Nat × Scratch k) (b : Nat),
      (is.foldl (fill_step data var responses_by_sample sorted_samples) st).2.counter b
        = st.2.counter b
          + ((fill_trace data var sorted_samples is st.1).filter
              (fun p => decide (p.2 = b))).length ∧
      (is.foldl (fill_step data var responses_by_sample sorted_samples) st).2.sums b
        = st.2.sums b
          + (((fill_trace data var sorted_samples is st.1).filter
              (fun p => decide (p.2 = b))).map
              (fun p => responses_by_sample (sorted_samples.getD p.1 0))).sum := by
  intro is
  induction is with
  | nil => intro st b; simp [fill_trace]
  | cons i is ih =>
    intro st b
    rw [List.foldl_cons]
    obtain ⟨h1, h2⟩ := ih (fill_step data var responses_by_sample sorted_samples st i) b
    rw [h1, h2]
    simp only [fill_step, fill_trace, List.filter_cons]
    by_cases hb : st.1 = b
    · subst hb
      simp only [Function.update_same, decide_True, if_true, List.length_cons, List.map_cons,
        List.sum_cons]
      constructor
      · omega
      · rw [add_assoc]
    · simp only [Function.update_noteq (Ne.symm hb), hb, decide_False, Bool.false_eq_true,
        if_false]
      exact ⟨trivial, trivial⟩

theorem fill_trace_fst (data : Data) (var : Nat) (sorted_samples : List Nat) :
    ∀ (is : List Nat) (idx : Nat), (fill_trace data var sorted_samples is idx).map Prod.fst = is := by
  intro is
  induction is with
  | nil => intro idx; rfl
  | cons i is ih => intro idx; simp [fill_trace, ih]

theorem fill_trace_ge (data : Data) (var : Nat) (sorted_samples : List Nat) :
    ∀ (is : List Nat) (idx : Nat) (p : Nat × Nat),
      p ∈ fill_trace data var sorted_samples is idx → idx ≤ p.2 := by
  intro is
  induction is with
  | nil => intro idx p h; simp [fill_trace] at h
  | cons i is ih =>
    intro idx p h
    simp only [fill_trace] at h
    rcases List.mem_cons.mp h with h | h
    · rw [h]
    · have := ih _ p h
      split_ifs at this <;> omega

theorem fill_trace_pos (data : Data) (var : Nat) (sorted_samples : List Nat)
    (is : List Nat) (idx : Nat) (p : Nat × Nat)
    (h : p ∈ fill_trace data var sorted_samples is idx) : p.1 ∈ is := by
  rw [← fill_trace_fst data var sorted_samples is idx]
  exact List.mem_map_of_mem _ h

/-- Over consecutive positions: the bucket of the position after `i` is the bucket
of `i`, moved on by one when the two values compare different; and when they do,
every later position is accumulated into a later bucket. -/
theorem fill_trace_range (data : Data) (var : Nat) (sorted_samples : List Nat) :
    ∀ (n a idx : Nat) (i b : Nat),
      (i, b) ∈ fill_trace data var sorted_samples (List.range' a n) idx →
      (i = a → b = idx) ∧
      (∀ b', (i + 1, b') ∈ fill_trace data var sorted_samples (List.range' a n) idx →
        b' = if dne (data.get (sorted_samples.getD i 0) var)
                (data.get (sorted_samples.getD (i + 1) 0) var) then b + 1 else b) ∧
      (dne (data.get (sorted_samples.getD i 0) var)
          (data.get (sorted_samples.getD (i + 1) 0) var) = true →
        ∀ j b', i < j → (j, b') ∈ fill_trace data var sorted_samples (List.range' a n) idx →
          b < b') := by
  intro n
  induction n with
  | zero => intro a idx i b h; simp [fill_trace] at h
  | succ n ih =>
    intro a idx i b h
    rw [List.range'_succ] at h ⊢
    simp only [fill_trace] at h ⊢
    have htail_pos : ∀ (p : Nat × Nat) (idx' : Nat),
        p ∈ fill_trace data var sorted_samples (List.range' (a + 1) n) idx' → a + 1 ≤ p.1 := by
      intro p idx' hp
      exact (List.mem_range'_1.mp (fill_trace_pos _ _ _ _ _ p hp)).1
    rcases List.mem_cons.mp h with h | h
    · -- the accumulation of position `a`
      obtain ⟨hi, hb⟩ := Prod.mk.inj h
      subst hi hb
      refine ⟨fun _ => rfl, ?_, ?_⟩
      · intro b' hb'
        rcases List.mem_cons.mp hb' with hb' | hb'
        · have := (Prod.mk.inj hb').1
          omega
        · cases n with
          | zero => simp [fill_trace] at hb'
          | succ n => exact (ih (i + 1) _ (i + 1) b' hb').1 rfl
      · intro hne j b' hij hj
        rcases List.mem_cons.mp hj with hj | hj
        · have := (Prod.mk.inj hj).1
          omega
        · have := fill_trace_ge _ _ _ _ _ _ hj
          rw [if_pos hne] at this
          exact this
    · -- a later accumulation
      have hia := htail_pos _ _ h
      obtain ⟨_, h2, h3⟩ := ih (a + 1) _ i b h
      refine ⟨fun hi => by simp only at hia; omega, ?_, ?_⟩
      · intro b' hb'
        rcases List.mem_cons.mp hb' with hb' | hb'
        · have := (Prod.mk.inj hb').1
          simp only at hia
          omega
        · exact h2 b' hb'
      · intro hne j b' hij hj
        rcases List.mem_cons.mp hj with hj | hj
        · have := (Prod.mk.inj hj).1
          simp only at hia
          omega
        · exact h3 hne j b' hij hj

/-! ## The search does not look at the outcomes -/

/-- The counters found by the scan depend neither on the outcomes nor on what the
scratch buffers held before the call. -/
theorem filled_counter_indep {k : Nat} (data : Data) (node var size_node : Nat)
    (r r' : Nat → Vec k) (samples : List (List Nat)) (s s' : Scratch k) (j : Nat)
    (hj : j < (data.get_all_values (samples.getD node []) var).1.length - 1) :
    (filled_buckets data node var size_node r samples s).counter j
      = (filled_buckets data node var size_node r' samples s').counter j := by
  unfold filled_buckets fill_buckets
  rw [(foldl_fill_step_trace data var r _ _ (0, _) j).1,
    (foldl_fill_step_trace data var r' _ _ (0, _) j).1]
  simp only [zero_buckets, if_pos hj]

theorem cum_count_indep {k : Nat} (data : Data) (node var size_node : Nat)
    (r r' : Nat → Vec k) (samples : List (List Nat)) (s s' : Scratch k) (idx : Nat)
    (hidx : idx < (data.get_all_values (samples.getD node []) var).1.length - 1) :
    cum_count (filled_buckets data node var size_node r samples s) 0 0 idx
      = cum_count (filled_buckets data node var size_node r' samples s') 0 0 idx := by
  unfold cum_count
  congr 1
  apply Finset.sum_congr rfl
  intro j hj
  have := (Finset.mem_Ico.mp hj).2
  exact filled_counter_indep data node var size_node r r' samples s s' j (by omega)

/-- The variable, threshold and loss of a boundary, as the update of the running
best reads them. -/
theorem foldl_step_congr {k : Nat} :
    ∀ (l l' : List (Evaluated k)) (b : Best),
      l.map (fun e => (e.value, e.var, e.loss)) = l'.map (fun e => (e.value, e.var, e.loss)) →
      l.foldl Best.step b = l'.foldl Best.step b := by
  intro l
  induction l with
  | nil =>
    intro l' b h
    cases l' with
    | nil => rfl
    | cons e' l' => simp at h
  | cons e l ih =>
    intro l' b h
    cases l' with
    | nil => simp at h
    | cons e' l' =>
      simp only [List.map_cons, List.cons.injEq, Prod.mk.injEq] at h
      obtain ⟨⟨hv, hr, hl⟩, htl⟩ := h
      rw [List.foldl_cons, List.foldl_cons]
      have hstep : b.step e = b.step e' := by
        simp only [Best.step, hv, hr, hl]
      rw [hstep]
      exact ih l' _ htl

/-- With `min_child_size >= 1` the variable, threshold and loss of the boundaries
evaluated by a scan are the same for every two response matrices, sums of the node
and scratch states: the boundaries of index below `num_splits` that pass both size
tests, each with the loss `0`. -/
theorem value_evals_split_indep {k : Nat} (sigma : Matrix (Fin 2) (Fin 2) ℚ) (data : Data)
    (node var : Nat) (sum_node sum_node' : Vec k) (size_node mcs : Nat) (hm : 1 ≤ mcs)
    (r r' : Nat → Vec k) (samples : List (List Nat)) (s s' : Scratch k) :
    (value_evals sigma data node var sum_node size_node mcs r samples s).map
        (fun e => (e.value, e.var, e.loss))
      = (value_evals sigma data node var sum_node' size_node mcs r' samples s').map
        (fun e => (e.value, e.var, e.loss)) := by
  unfold value_evals
  dsimp only
  split_ifs with h2
  · rfl
  rw [scan_evals_eq_filter, scan_evals_eq_filter, List.map_map, List.map_map]
  have hf : (List.range' 0 ((data.get_all_values (samples.getD node []) var).1.length - 1)).filter
        (fun idx => decide (mcs ≤ cum_count (filled_buckets data node var size_node r samples s)
            0 0 idx ∧
          mcs ≤ size_node - cum_count (filled_buckets data node var size_node r samples s)
            0 0 idx))
      = (List.range' 0 ((data.get_all_values (samples.getD node []) var).1.length - 1)).filter
        (fun idx => decide (mcs ≤ cum_count (filled_buckets data node var size_node r' samples s')
            0 0 idx ∧
          mcs ≤ size_node - cum_count (filled_buckets data node var size_node r' samples s')
            0 0 idx)) := by
    apply List.filter_congr
    intro idx hidx
    have := (List.mem_range'_1.mp hidx).2
    rw [cum_count_indep data node var size_node r r' samples s s' idx (by omega)]
  have hf' := hf
  unfold filled_buckets at hf'
  rw [hf']
  apply List.map_congr_left
  intro idx hidx
  obtain ⟨hr, hp⟩ := List.mem_filter.mp hidx
  simp only [decide_eq_true_eq] at hp
  have hlt := (List.mem_range'_1.mp hr).2
  have hc := cum_count_indep data node var size_node r r' samples s s' idx (by omega)
  unfold filled_buckets at hc
  simp only [Function.comp_apply, boundary_at]
  rw [boundary_loss_eq_zero _ _ _ _ _ _ _ (by rw [hc]; omega),
    boundary_loss_eq_zero _ _ _ _ _ _ _ (by omega)]

/-- The variable, threshold and loss of the boundaries evaluated by a search are the
same for every two response matrices. -/
theorem search_evals_split_indep {k : Nat} (rule : MultiRegressionSplittingRule k)
    (data : Data) (node : Nat) (vars : List Nat) (r r' : Nat → Vec k)
    (samples : List (List Nat)) :
    (search_evals rule data node vars r samples).map (fun e => (e.value, e.var, e.loss))
      = (search_evals rule data node vars r' samples).map
          (fun e => (e.value, e.var, e.loss)) := by
  unfold search_evals
  dsimp only
  rw [evals_from_eq_flatMap _ _ _ _ _ _ _ _ rule.scratch,
    evals_from_eq_flatMap _ _ _ _ _ _ _ _ rule.scratch, List.map_flatMap, List.map_flatMap]
  apply List.flatMap_congr
  intro var _
  exact value_evals_split_indep _ _ _ _ _ _ _ _ (one_le_min_child_size_of _ _) _ _ _ _ _

theorem search_best_indep {k : Nat} (rule : MultiRegressionSplittingRule k)
    (data : Data) (node : Nat) (vars : List Nat) (r r' : Nat → Vec k)
    (samples : List (List Nat)) :
    (search rule data node vars r samples).2 = (search rule data node vars r' samples).2 := by
  rw [search_snd, search_snd]
  exact foldl_step_congr _ _ _ (search_evals_split_indep rule data node vars r r' samples)

/-- A search reports a leaf exactly when it evaluates no boundary. -/
theorem search_leaf_iff_nil {k : Nat} (rule : MultiRegressionSplittingRule k) (data : Data)
    (node : Nat) (vars : List Nat) (responses_by_sample : Nat → Vec k)
    (samples : List (List Nat)) (split_vars : List Nat) (split_values : List Val) :
    (find_best_split rule data node vars responses_by_sample samples split_vars
        split_values).leaf = true
      ↔ search_evals rule data node vars responses_by_sample samples = [] := by
  rw [find_best_split_leaf_iff, search_snd]
  constructor
  · intro hlt
    rcases foldl_step_cases (search_evals rule data node vars responses_by_sample samples)
      Best.init with ⟨_, hall⟩ | ⟨pre, c, post, hl, _, _, _, heq⟩
    · apply List.eq_nil_iff_forall_not_mem.mpr
      intro e he
      have h0 := search_evals_loss rule data node vars responses_by_sample samples e he
      have := hall e he
      rw [h0] at this
      norm_num [Best.init, sentinel_loss] at this
    · have hc : c ∈ search_evals rule data node vars responses_by_sample samples := by
        rw [hl]; simp
      rw [heq, search_evals_loss rule data node vars responses_by_sample samples c hc] at hlt
      norm_num [leaf_bound] at hlt
  · intro hnil
    rw [hnil]
    exact leaf_bound_lt_sentinel

/-- When a search reports a split, it writes the variable and the threshold of the
first boundary it evaluated. -/
theorem search_head_written {k : Nat} (rule : MultiRegressionSplittingRule k) (data : Data)
    (node : Nat) (vars : List Nat) (responses_by_sample : Nat → Vec k)
    (samples : List (List Nat)) (split_vars : List Nat) (split_values : List Val)
    (h : (find_best_split rule data node vars responses_by_sample samples split_vars
        split_values).leaf = false) :
    ∃ (c : Evaluated k) (post : List (Evaluated k)),
      search_evals rule data node vars responses_by_sample samples = c :: post ∧
      (find_best_split rule data node vars responses_by_sample samples split_vars
          split_values).split_vars = split_vars.set node c.var ∧
      (find_best_split rule data node vars responses_by_sample samples split_vars
          split_values).split_values = split_values.set node c.value := by
  obtain ⟨pre, c, post, hl, hpre, _, _, hfind⟩ := search_best_of_split rule data node vars
    responses_by_sample samples split_vars split_values h
  have hc : c ∈ search_evals rule data node vars responses_by_sample samples := by
    rw [hl]; simp
  have hnil : pre = [] := by
    apply List.eq_nil_iff_forall_not_mem.mpr
    intro d hd
    have hdm : d ∈ search_evals rule data node vars responses_by_sample samples := by
      rw [hl]; simp [hd]
    have := hpre d hd
    rw [search_evals_loss rule data node vars responses_by_sample samples c hc,
      search_evals_loss rule data node vars responses_by_sample samples d hdm] at this
    exact absurd this (lt_irrefl _)
  rw [hnil, List.nil_append] at hl
  refine ⟨c, post, hl, ?_, ?_⟩ <;> rw [hfind]

theorem flatMap_eq_cons {α β : Type} (f : α → List β) (c : β) :
    ∀ (l : List α) (post : List β), l.flatMap f = c :: post →
      ∃ pre v post' rest, l = pre ++ v :: post' ∧ (∀ u ∈ pre, f u = []) ∧ f v = c :: rest := by
  intro l
  induction l with
  | nil => intro post h; simp at h
  | cons a l ih =>
    intro post h
    rw [List.flatMap_cons] at h
    cases hfa : f a with
    | nil =>
      rw [hfa, List.nil_append] at h
      obtain ⟨pre, v, post', rest, hl, hpre, hv⟩ := ih post h
      refine ⟨a :: pre, v, post', rest, by rw [hl]; rfl, ?_, hv⟩
      intro u hu
      rcases List.mem_cons.mp hu with rfl | hu
      · exact hfa
      · exact hpre u hu
    | cons b bs =>
      rw [hfa, List.cons_append] at h
      have hb : b = c := (List.cons.inj h).1
      subst hb
      exact ⟨[], a, l, bs, rfl, by simp, hfa⟩

/-! ## The first admissible boundary -/

theorem dgt_self (v : Val) : dgt v v = false := by
  cases v <;> simp [dgt]

theorem dgt_of_dlt (u v : Val) (h : dlt u v = true) : dgt u v = false := by
  cases u <;> cases v <;> simp_all [dlt, dgt]
  exact le_of_lt h

theorem dle_of_dlt (u v : Val) (h : dlt u v = true) : dle u v = true := by
  cases u <;> cases v <;> simp_all [dlt, dle]
  exact le_of_lt h

/-- Under the accessor contract no sample of the node has a value above the last
distinct value. -/
theorem right_count_last (data : Data) (N : List Nat) (var : Nat)
    (hc : accessor_contract data N var) (t : Val)
    (ht : (data.get_all_values N var).1[(data.get_all_values N var).1.length - 1]? = some t) :
    right_count data var t N = 0 := by
  obtain ⟨_, _, hasc, hmem⟩ := hc
  obtain ⟨hlen, hv⟩ := List.getElem?_eq_some.mp ht
  unfold right_count
  rw [List.countP_eq_zero]
  intro s hs
  obtain ⟨m, hm, hms⟩ := List.getElem_of_mem ((hmem _).mpr ⟨s, hs, rfl⟩)
  rw [← hms, ← hv]
  rw [List.pairwise_iff_getElem] at hasc
  rcases Nat.lt_or_eq_of_le (Nat.le_sub_one_of_lt hm) with h | h
  · rw [dgt_of_dlt _ _ (hasc m _ hm hlen h)]
    exact Bool.false_ne_true
  · simp only [h, dgt_self]
    exact Bool.false_ne_true

/-- Under the accessor contract an admissible threshold is a distinct value other
than the last. -/
theorem admissible_index (data : Data) (N : List Nat) (var mcs : Nat) (hm : 1 ≤ mcs)
    (hc : accessor_contract data N var) (t : Val)
    (ht : t ∈ (data.get_all_values N var).1) (hadm : admissible data var N mcs t) :
    ∃ idx, idx + 1 < (data.get_all_values N var).1.length ∧
      (data.get_all_values N var).1[idx]? = some t := by
  obtain ⟨idx, hidx, hv⟩ := List.getElem_of_mem ht
  refine ⟨idx, ?_, by rw [List.getElem?_eq_getElem hidx, hv]⟩
  by_contra hnot
  have hlast : idx = (data.get_all_values N var).1.length - 1 := by omega
  have := right_count_last data N var hc t (by
    rw [← hlast, List.getElem?_eq_getElem hidx, hv])
  have h2 := hadm.2
  omega

theorem contract_left_add_right (data : Data) (N : List Nat) (var : Nat)
    (hc : accessor_contract data N var) (h2 : ¬ (data.get_all_values N var).1.length < 2)
    (t : Val) (ht : t ∈ (data.get_all_values N var).1) :
    left_count data var t N + right_count data var t N = N.length := by
  obtain ⟨q, ps, hps, hN, _⟩ := contract_facts data N var hc h2
  rw [hps] at ht
  obtain ⟨x, _, hx⟩ := List.mem_map.mp ht
  subst hx
  unfold left_count right_count
  have hsplit := List.length_eq_countP_add_countP
    (fun s => dle (data.get s var) (some x)) N
  have hcongr : List.countP (fun s => dgt (data.get s var) (some x)) N
      = List.countP (fun a => ¬ (dle (data.get a var) (some x)) = true) N := by
    apply List.countP_congr
    intro s hs
    rw [hN s hs]
    simp [dle, dgt]
  rw [hcongr]
  omega

/-- Under the accessor contract the boundaries evaluated by a scan are, in ascending
order, the boundaries below `num_splits` whose threshold is admissible. -/
theorem value_evals_index_eq_adm {k : Nat} (sigma : Matrix (Fin 2) (Fin 2) ℚ) (data : Data)
    (node var : Nat) (sum_node : Vec k) (mcs : Nat)
    (responses_by_sample : Nat → Vec k) (samples : List (List Nat)) (s : Scratch k)
    (hc : accessor_contract data (samples.getD node []) var) :
    (value_evals sigma data node var sum_node (samples.getD node []).length mcs
        responses_by_sample samples s).map (fun e => e.index)
      = (List.range ((data.get_all_values (samples.getD node []) var).1.length - 1)).filter
          (fun idx => decide (admissible data var (samples.getD node []) mcs
            ((data.get_all_values (samples.getD node []) var).1.getD idx none))) := by
  unfold value_evals
  dsimp only
  split_ifs with h2
  · have : (data.get_all_values (samples.getD node []) var).1.length - 1 = 0 := by omega
    rw [this]
    rfl
  rw [scan_evals_eq_filter, List.map_map, List.range_eq_range']
  have hid : ∀ l : List Nat,
      l.map ((fun e : Evaluated k => e.index) ∘
        boundary_at sigma responses_by_sample
          (data.get_all_values (samples.getD node []) var).1
          (data.get_all_values (samples.getD node []) var).2 var sum_node
          (samples.getD node []).length
          (fill_buckets data var responses_by_sample
            (data.get_all_values (samples.getD node []) var).2 (samples.getD node []).length
            (zero_buckets ((data.get_all_values (samples.getD node []) var).1.length - 1)
              s)).2 0 0 0) = l := by
    intro l
    conv_rhs => rw [← List.map_id l]
    apply List.map_congr_left
    intro idx _
    rfl
  rw [hid]
  apply List.filter_congr
  intro idx hidx
  have hlt := (List.mem_range'_1.mp hidx).2
  have hlt' : idx < (data.get_all_values (samples.getD node []) var).1.length := by omega
  have hget := getElem?_eq_some_getD (data.get_all_values (samples.getD node []) var).1 idx
    none hlt'
  obtain ⟨hcount, _⟩ := filled_cum_left data node var responses_by_sample samples s hc idx _
    (by omega) hget
  have hadd := contract_left_add_right data _ var hc h2 _ (List.mem_iff_getElem?.mpr ⟨idx, hget⟩)
  unfold filled_buckets at hcount
  rw [hcount]
  unfold admissible
  congr 1
  apply propext
  constructor
  · rintro ⟨h1, h3⟩
    exact ⟨h1, by omega⟩
  · rintro ⟨h1, h3⟩
    exact ⟨h1, by omega⟩

theorem getD_of_getElem? {α : Type} (l : List α) (i : Nat) (d a : α) (h : l[i]? = some a) :
    l.getD i d = a := by
  rw [List.getD_eq_getElem?_getD, h]
  rfl

/-- Under the accessor contract a scan evaluates no boundary exactly when no
distinct value of the variable is an admissible threshold. -/
theorem value_evals_nil_iff {k : Nat} (sigma : Matrix (Fin 2) (Fin 2) ℚ) (data : Data)
    (node var : Nat) (sum_node : Vec k) (mcs : Nat) (hm : 1 ≤ mcs)
    (responses_by_sample : Nat → Vec k) (samples : List (List Nat)) (s : Scratch k)
    (hc : accessor_contract data (samples.getD node []) var) :
    value_evals sigma data node var sum_node (samples.getD node []).length mcs
        responses_by_sample samples s = []
      ↔ ∀ t ∈ (data.get_all_values (samples.getD node []) var).1,
          ¬ admissible data var (samples.getD node []) mcs t := by
  have hidx := value_evals_index_eq_adm sigma data node var sum_node mcs responses_by_sample
    samples s hc
  constructor
  · intro hnil t ht hadm
    rw [hnil, List.map_nil] at hidx
    obtain ⟨idx, hlt, hget⟩ := admissible_index data _ var mcs hm hc t ht hadm
    have hin : idx ∈ (List.range
        ((data.get_all_values (samples.getD node []) var).1.length - 1)).filter
        (fun idx => decide (admissible data var (samples.getD node []) mcs
          ((data.get_all_values (samples.getD node []) var).1.getD idx none))) := by
      rw [List.mem_filter]
      refine ⟨List.mem_range.mpr (by omega), ?_⟩
      rw [getD_of_getElem? _ _ _ _ hget]
      exact decide_eq_true hadm
    rw [← hidx] at hin
    simp at hin
  · intro hall
    have hf : (List.range
        ((data.get_all_values (samples.getD node []) var).1.length - 1)).filter
        (fun idx => decide (admissible data var (samples.getD node []) mcs
          ((data.get_all_values (samples.getD node []) var).1.getD idx none))) = [] := by
      rw [List.filter_eq_nil_iff]
      intro idx hidx'
      have hlt := List.mem_range.mp hidx'
      have hget := getElem?_eq_some_getD (data.get_all_values (samples.getD node []) var).1
        idx none (by omega)
      simp only [decide_eq_true_eq]
      exact hall _ (List.mem_iff_getElem?.mpr ⟨idx, hget⟩)
    rw [hf] at hidx
    exact List.map_eq_nil_iff.mp hidx

/-- Under the accessor contract the first boundary evaluated by a scan has the
smallest admissible threshold of the variable. -/
theorem value_evals_head_min {k : Nat} (sigma : Matrix (Fin 2) (Fin 2) ℚ) (data : Data)
    (node var : Nat) (sum_node : Vec k) (mcs : Nat) (hm : 1 ≤ mcs)
    (responses_by_sample : Nat → Vec k) (samples : List (List Nat)) (s : Scratch k)
    (hc : accessor_contract data (samples.getD node []) var)
    (c : Evaluated k) (rest : List (Evaluated k))
    (hcons : value_evals sigma data node var sum_node (samples.getD node []).length mcs
      responses_by_sample samples s = c :: rest) :
    c.var = var ∧
    c.value ∈ (data.get_all_values (samples.getD node []) var).1 ∧
    admissible data var (samples.getD node []) mcs c.value ∧
    ∀ t ∈ (data.get_all_values (samples.getD node []) var).1,
      admissible data var (samples.getD node []) mcs t → dle c.value t = true := by
  have hcm : c ∈ value_evals sigma data node var sum_node (samples.getD node []).length mcs
      responses_by_sample samples s := by rw [hcons]; simp
  obtain ⟨hcv, hci, hcget, ⟨x, hx⟩, hleft, hright, hm1, hm2⟩ :=
    value_evals_counts _ _ _ _ _ _ _ _ _ hc c hcm
  refine ⟨hcv, List.mem_iff_getElem?.mpr ⟨c.index, hcget⟩, ⟨by rw [← hleft]; exact hm1,
    by rw [← hright]; exact hm2⟩, ?_⟩
  intro t ht hadm
  obtain ⟨idx, hlt, hget⟩ := admissible_index data _ var mcs hm hc t ht hadm
  have hidx := value_evals_index_eq_adm sigma data node var sum_node mcs responses_by_sample
    samples s hc
  have hin : idx ∈ (value_evals sigma data node var sum_node (samples.getD node []).length mcs
      responses_by_sample samples s).map (fun e => e.index) := by
    rw [hidx, List.mem_filter]
    refine ⟨List.mem_range.mpr (by omega), ?_⟩
    rw [getD_of_getElem? _ _ _ _ hget]
    exact decide_eq_true hadm
  obtain ⟨e, he, hei⟩ := List.mem_map.mp hin
  have hasc := value_evals_ascending sigma data node var sum_node
    (samples.getD node []).length mcs responses_by_sample samples s
  rw [hcons] at he hasc
  rw [List.pairwise_cons] at hasc
  rcases List.mem_cons.mp he with heq | hrest
  · -- the threshold is the one of the first boundary
    have : c.index = idx := by rw [← hei, heq]
    rw [this, hget] at hcget
    rw [Option.some.inj hcget, hx]
    simp [dle]
  · have hlt' : c.index < idx := by
      rw [← hei]
      exact hasc.1 e hrest
    have hp := hc.2.2.1
    rw [List.pairwise_iff_getElem] at hp
    obtain ⟨h1, hv1⟩ := List.getElem?_eq_some.mp hcget
    obtain ⟨h2, hv2⟩ := List.getElem?_eq_some.mp hget
    have := hp c.index idx h1 h2 hlt'
    rw [hv1, hv2] at this
    exact dle_of_dlt _ _ this

/-! ## The indices used on the scratch buffers -/

theorem fill_trace_map_succ (data : Data) (var : Nat) (a : Nat) (l : List Nat) :
    ∀ (is : List Nat) (idx : Nat),
      fill_trace data var (a :: l) (is.map Nat.succ) idx
        = (fill_trace data var l is idx).map (fun p => (p.1 + 1, p.2)) := by
  intro is
  induction is with
  | nil => intro idx; rfl
  | cons i is ih =>
    intro idx
    simp only [List.map_cons, fill_trace, Nat.succ_eq_add_one, List.getD_cons_succ, ih]

/-- Over a non-decreasing ordering the filling loop stays within as many buckets as
there are distinct values. -/
theorem fill_trace_bound (data : Data) (var : Nat) (q : Nat → ℚ) :
    ∀ (l : List Nat) (ps : List ℚ) (idx n : Nat),
      (∀ s ∈ l, data.get s var = some (q s)) →
      (l.map q).Pairwise (fun u v => u ≤ v) → ps.Pairwise (fun u v => u < v) →
      (∀ x, x ∈ ps ↔ x ∈ l.map q) → n + 1 ≤ l.length →
      ∀ p ∈ fill_trace data var l (List.range n) idx, p.2 < idx + ps.length := by
  intro l
  induction l with
  | nil => intro ps idx n _ _ _ _ hn; simp at hn
  | cons a l ih =>
    intro ps idx n hval hx hp hm hn p hmem
    obtain ⟨ps', rfl, hps'⟩ := head_of_sorted_values (q a) (l.map q) ps hx hp hm
    cases n with
    | zero => simp [fill_trace] at hmem
    | succ n =>
      cases l with
      | nil => simp at hn
      | cons b rest =>
        have ha : data.get a var = some (q a) := hval a (List.mem_cons_self _ _)
        have hb : data.get b var = some (q b) := hval b (by simp)
        have hval' : ∀ s ∈ b :: rest, data.get s var = some (q s) :=
          fun s hs => hval s (List.mem_cons_of_mem _ hs)
        have hx' : ((b :: rest).map q).Pairwise (fun u v => u ≤ v) := by
          rw [List.map_cons, List.pairwise_cons] at hx
          exact hx.2
        have hle : ∀ y ∈ (b :: rest).map q, q a ≤ y := by
          rw [List.map_cons, List.pairwise_cons] at hx
          exact hx.1
        have hp' : ps'.Pairwise (fun u v => u < v) := by
          rw [List.pairwise_cons] at hp
          exact hp.2
        rw [List.range_succ_eq_map] at hmem
        simp only [fill_trace, List.getD_cons_zero, List.getD_cons_succ, ha, hb, dne] at hmem
        rcases List.mem_cons.mp hmem with hhead | htail
        · rw [hhead]
          simp
        · rw [fill_trace_map_succ] at htail
          obtain ⟨p', hp'mem, hpp'⟩ := List.mem_map.mp htail
          have hp2 : p.2 = p'.2 := by rw [← hpp']
          rw [hp2]
          by_cases hab : q a = q b
          · have hm' : ∀ y, y ∈ q a :: ps' ↔ y ∈ (b :: rest).map q := by
              intro y
              rw [hm y]
              simp only [List.map_cons, List.mem_cons]
              constructor
              · rintro (h | h)
                · left; rw [h, hab]
                · exact h
              · intro h; right; exact h
            simp only [hab, ne_eq, not_true_eq_false, decide_False, Bool.false_eq_true,
              if_false] at hp'mem
            exact ih (q a :: ps') idx n hval' hx' hp hm' (by simpa using hn) p' hp'mem
          · have hlt' : q a < q b := lt_of_le_of_ne (hle (q b) (by simp)) hab
            have hm' : ∀ y, y ∈ ps' ↔ y ∈ (b :: rest).map q := by
              intro y
              constructor
              · intro hy
                have h1 := (hm y).mp (List.mem_cons_of_mem _ hy)
                rw [List.map_cons] at h1
                rcases List.mem_cons.mp h1 with h | h
                · exact absurd h (ne_of_gt (hps' y hy))
                · exact h
              · intro hy
                have h1 : q a < y := lt_of_lt_of_le hlt' (by
                  rw [List.map_cons, List.pairwise_cons] at hx'
                  rcases List.mem_cons.mp hy with h | h
                  · exact le_of_eq h.symm
                  · exact hx'.1 y h)
                have h2 := (hm y).mpr (by rw [List.map_cons]; exact List.mem_cons_of_mem _ hy)
                rcases List.mem_cons.mp h2 with h | h
                · exact absurd h (ne_of_gt h1)
                · exact h
            simp only [ne_eq, hab, not_false_eq_true, decide_True, if_true] at hp'mem
            have := ih ps' (idx + 1) n hval' hx' hp' hm' (by simpa using hn) p' hp'mem
            simp only [List.length_cons]
            omega

/-- Under the accessor contract a search in exact arithmetic is a leaf exactly when no
candidate variable has an admissible threshold, and otherwise writes the first
candidate variable that has one, at its smallest admissible threshold. -/
theorem first_admissible_written {k : Nat} (rule : MultiRegressionSplittingRule k)
    (data : Data) (node : Nat) (vars : List Nat) (r : Nat → Vec k) (samples : List (List Nat))
    (split_vars : List Nat) (split_values : List Val)
    (hc : ∀ var ∈ vars, accessor_contract data (samples.getD node []) var) :
    ((find_best_split rule data node vars r samples split_vars split_values).leaf = true
      ↔ ∀ var ∈ vars, ∀ t ∈ (data.get_all_values (samples.getD node []) var).1,
          ¬ admissible data var (samples.getD node [])
            (min_child_size_of rule.alpha (samples.getD node []).length) t) ∧
    ((find_best_split rule data node vars r samples split_vars split_values).leaf = false →
      ∃ pre v post t, vars = pre ++ v :: post ∧
        (∀ u ∈ pre, ∀ t' ∈ (data.get_all_values (samples.getD node []) u).1,
          ¬ admissible data u (samples.getD node [])
            (min_child_size_of rule.alpha (samples.getD node []).length) t') ∧
        t ∈ (data.get_all_values (samples.getD node []) v).1 ∧
        admissible data v (samples.getD node [])
          (min_child_size_of rule.alpha (samples.getD node []).length) t ∧
        (∀ t' ∈ (data.get_all_values (samples.getD node []) v).1,
          admissible data v (samples.getD node [])
            (min_child_size_of rule.alpha (samples.getD node []).length) t' →
          dle t t' = true) ∧
        (find_best_split rule data node vars r samples split_vars split_values).split_vars
          = split_vars.set node v ∧
        (find_best_split rule data node vars r samples split_vars split_values).split_values
          = split_values.set node t) := by
  have hone := one_le_min_child_size_of rule.alpha (samples.getD node []).length
  have hflat : search_evals rule data node vars r samples
      = vars.flatMap (fun var => value_evals rule.sigma data node var
          (sum_node_of r (samples.getD node [])) (samples.getD node []).length
          (min_child_size_of rule.alpha (samples.getD node []).length) r samples
          rule.scratch) := by
    unfold search_evals
    exact evals_from_eq_flatMap _ _ _ _ _ _ _ _ rule.scratch _ _
  constructor
  · rw [search_leaf_iff_nil, hflat, List.flatMap_eq_nil_iff]
    constructor
    · intro h var hvar
      exact (value_evals_nil_iff _ _ _ _ _ _ hone _ _ _ (hc var hvar)).mp (h var hvar)
    · intro h var hvar
      exact (value_evals_nil_iff _ _ _ _ _ _ hone _ _ _ (hc var hvar)).mpr (h var hvar)
  · intro hleaf
    obtain ⟨c, post, hl, hsv, hsval⟩ := search_head_written rule data node vars r samples
      split_vars split_values hleaf
    rw [hflat] at hl
    obtain ⟨pre, v, post', rest, hvars, hpre, hv⟩ := flatMap_eq_cons _ c vars post hl
    have hvin : v ∈ vars := by rw [hvars]; simp
    obtain ⟨hcv, hmem, hadm, hmin⟩ := value_evals_head_min _ _ _ _ _ _ hone _ _ _
      (hc v hvin) c rest hv
    refine ⟨pre, v, post', c.value, hvars, ?_, hmem, hadm, hmin, by rw [hsv, hcv], hsval⟩
    intro u hu
    have huin : u ∈ vars := by rw [hvars]; simp [hu]
    exact (value_evals_nil_iff _ _ _ _ _ _ hone _ _ _ (hc u huin)).mp (hpre u hu)

/-! ## The rule in double arithmetic -/

theorem dbl_max_pos : 0 < dbl_max := by
  unfold dbl_max
  apply Nat.cast_pos.mpr
  apply Nat.mul_pos
  · decide
  · exact Nat.pos_of_ne_zero (pow_ne_zero _ (by decide))

theorem round_double_zero : round_double 0 = 0 := by
  unfold round_double
  rw [if_pos rfl]

theorem Dbl.ofRat_zero : Dbl.ofRat 0 = Dbl.fin 0 := by
  have h := dbl_max_pos
  unfold Dbl.ofRat
  rw [round_double_zero, if_neg (by linarith), if_neg (by linarith)]

theorem Dbl.ofNat_zero : Dbl.ofNat 0 = Dbl.fin 0 := by
  unfold Dbl.ofNat
  rw [Nat.cast_zero]
  exact Dbl.ofRat_zero

theorem Dbl.zero_mul_fin (q : ℚ) : (Dbl.fin 0).mul (Dbl.fin q) = Dbl.fin 0 := by
  show Dbl.ofRat (0 * q) = Dbl.fin 0
  rw [zero_mul]
  exact Dbl.ofRat_zero

/-- The loss of line 167 in doubles is `0` when `ssl` is finite and NaN when it is
not, as soon as both children are non-empty: both weights are `0`. -/
theorem fl_loss_of_eq (size_node n_left n_right : Nat) (ssl : Dbl)
    (hl : n_left < size_node) (hr : n_right < size_node) :
    fl_loss_of size_node n_left n_right ssl (Dbl.fin 0)
      = if ssl.is_finite = true then Dbl.fin 0 else Dbl.nan := by
  unfold fl_loss_of
  rw [Nat.div_eq_of_lt hl, Nat.div_eq_of_lt hr, Dbl.ofNat_zero, Dbl.zero_mul_fin]
  cases ssl with
  | fin q =>
    rw [Dbl.zero_mul_fin]
    show Dbl.ofRat (0 + 0) = _
    rw [add_zero]
    exact Dbl.ofRat_zero
  | pinf => rfl
  | ninf => rfl
  | nan => rfl

theorem fl_scan_eq_foldl {k : Nat} (sigma : Matrix (Fin 2) (Fin 2) ℚ)
    (responses_by_sample : Nat → DVec k) (psv : List Val) (sorted_samples : List Nat)
    (var : Nat) (sum_node : DVec k) (size_node mcs : Nat) (s : DScratch k) :
    ∀ (fuel i n_left : Nat) (sum_left : DVec k) (best : DBest),
      fl_scan sigma responses_by_sample psv sorted_samples var sum_node size_node mcs s
          fuel i n_left sum_left best
        = (fl_scan_evals sigma responses_by_sample psv sorted_samples var sum_node size_node
            mcs s fuel i n_left sum_left).foldl DBest.step best := by
  intro fuel
  induction fuel with
  | zero => intro i n_left sum_left best; rfl
  | succ fuel ih =>
    intro i n_left sum_left best
    simp only [fl_scan, fl_scan_evals]
    split_ifs with h1 h2
    · exact ih _ _ _ _
    · rfl
    · rw [List.foldl_cons]
      exact ih _ _ _ _

theorem fl_find_best_split_value_snd {k : Nat} (sigma : Matrix (Fin 2) (Fin 2) ℚ) (data : Data)
    (node var : Nat) (sum_node : DVec k) (size_node mcs : Nat)
    (responses_by_sample : Nat → DVec k) (samples : List (List Nat))
    (st : DScratch k × DBest) :
    (fl_find_best_split_value sigma data node var sum_node size_node mcs responses_by_sample
        samples st).2
      = (fl_value_evals sigma data node var sum_node size_node mcs responses_by_sample samples
          st.1).foldl DBest.step st.2 := by
  unfold fl_find_best_split_value fl_value_evals
  dsimp only
  split_ifs with h
  · rfl
  · exact fl_scan_eq_foldl _ _ _ _ _ _ _ _ _ _ _ _ _ _

theorem fl_find_best_split_value_fst {k : Nat} (sigma : Matrix (Fin 2) (Fin 2) ℚ) (data : Data)
    (node var : Nat) (sum_node : DVec k) (size_node mcs : Nat)
    (responses_by_sample : Nat → DVec k) (samples : List (List Nat)) (s : DScratch k)
    (b b' : DBest) :
    (fl_find_best_split_value sigma data node var sum_node size_node mcs responses_by_sample
        samples (s, b)).1
      = (fl_find_best_split_value sigma data node var sum_node size_node mcs responses_by_sample
        samples (s, b')).1 := by
  unfold fl_find_best_split_value
  dsimp only
  split_ifs with h <;> rfl

theorem fl_foldl_find_best_split_value {k : Nat} (sigma : Matrix (Fin 2) (Fin 2) ℚ)
    (data : Data) (node : Nat) (sum_node : DVec k) (size_node mcs : Nat)
    (responses_by_sample : Nat → DVec k) (samples : List (List Nat)) :
    ∀ (vars : List Nat) (s : DScratch k) (b : DBest),
      (vars.foldl (fun st var => fl_find_best_split_value sigma data node var sum_node size_node
          mcs responses_by_sample samples st) (s, b)).2
        = (fl_evals_from sigma data node sum_node size_node mcs responses_by_sample samples
            vars s).foldl DBest.step b := by
  intro vars
  induction vars with
  | nil => intro s b; rfl
  | cons var vars ih =>
    intro s b
    rw [List.foldl_cons, fl_evals_from, List.foldl_append]
    rw [← fl_find_best_split_value_snd sigma data node var sum_node size_node mcs
      responses_by_sample samples (s, b)]
    rw [← ih]
    rw [fl_find_best_split_value_fst sigma data node var sum_node size_node mcs
      responses_by_sample samples s DBest.init b]

theorem fl_search_snd {k : Nat} (rule : MultiRegressionSplittingRule k) (s : DScratch k)
    (data : Data) (node : Nat) (vars : List Nat) (responses_by_sample : Nat → DVec k)
    (samples : List (List Nat)) :
    (fl_search rule s data node vars responses_by_sample samples).2
      = (fl_search_evals rule s data node vars responses_by_sample samples).foldl
          DBest.step DBest.init := by
  unfold fl_search fl_search_evals
  exact fl_foldl_find_best_split_value _ _ _ _ _ _ _ _ _ _ _

/-- Every boundary recorded in the double arithmetic passed both size tests and
carries the accumulator and the loss of lines 150-167. -/
theorem fl_scan_evals_mem {k : Nat} (sigma : Matrix (Fin 2) (Fin 2) ℚ)
    (responses_by_sample : Nat → DVec k) (psv : List Val) (sorted_samples : List Nat)
    (var : Nat) (sum_node : DVec k) (size_node mcs : Nat) (s : DScratch k) :
    ∀ (fuel i n0 : Nat) (s0 : DVec k) (e : DEvaluated),
      e ∈ fl_scan_evals sigma responses_by_sample psv sorted_samples var sum_node size_node
          mcs s fuel i n0 s0 →
      mcs ≤ e.n_left ∧ mcs ≤ size_node - e.n_left ∧ e.var = var ∧
      e.loss = fl_loss_of size_node e.n_left (size_node - e.n_left) e.ssl (Dbl.fin 0) := by
  intro fuel
  induction fuel with
  | zero => intro i n0 s0 e he; simp [fl_scan_evals] at he
  | succ fuel ih =>
    intro i n0 s0 e he
    simp only [fl_scan_evals] at he
    split_ifs at he with h1 h2
    · exact ih _ _ _ e he
    · simp at he
    · rcases List.mem_cons.mp he with rfl | he
      · exact ⟨not_lt.mp h1, not_lt.mp h2, rfl, rfl⟩
      · exact ih _ _ _ e he

theorem fl_evals_from_mem {k : Nat} (sigma : Matrix (Fin 2) (Fin 2) ℚ) (data : Data)
    (node : Nat) (sum_node : DVec k) (size_node mcs : Nat)
    (responses_by_sample : Nat → DVec k) (samples : List (List Nat)) :
    ∀ (vars : List Nat) (s : DScratch k) (e : DEvaluated),
      e ∈ fl_evals_from sigma data node sum_node size_node mcs responses_by_sample samples
          vars s →
      ∃ var ∈ vars, ∃ s' : DScratch k,
        e ∈ fl_value_evals sigma data node var sum_node size_node mcs responses_by_sample
          samples s' := by
  intro vars
  induction vars with
  | nil => intro s e he; simp [fl_evals_from] at he
  | cons var vars ih =>
    intro s e he
    rw [fl_evals_from] at he
    rcases List.mem_append.mp he with he | he
    · exact ⟨var, List.mem_cons_self _ _, s, he⟩
    · obtain ⟨v, hv, s', hs'⟩ := ih _ e he
      exact ⟨v, List.mem_cons_of_mem _ hv, s', hs'⟩

/-- Every loss computed during a search in doubles is `0` when the accumulator `ssl`
is finite and NaN when it is not. -/
theorem fl_search_evals_loss {k : Nat} (rule : MultiRegressionSplittingRule k)
    (s : DScratch k) (data : Data) (node : Nat) (vars : List Nat)
    (responses_by_sample : Nat → DVec k) (samples : List (List Nat)) (e : DEvaluated)
    (he : e ∈ fl_search_evals rule s data node vars responses_by_sample samples) :
    e.loss = if e.ssl.is_finite = true then Dbl.fin 0 else Dbl.nan := by
  unfold fl_search_evals at he
  dsimp only at he
  obtain ⟨var, _, s', hmem⟩ := fl_evals_from_mem _ _ _ _ _ _ _ _ _ _ e he
  unfold fl_value_evals at hmem
  dsimp only at hmem
  split_ifs at hmem with h2
  · simp at hmem
  obtain ⟨hm1, hm2, _, hloss⟩ := fl_scan_evals_mem _ _ _ _ _ _ _ _ _ _ _ _ _ e hmem
  have h1 := one_le_min_child_size_of rule.alpha (samples.getD node []).length
  rw [hloss]
  exact fl_loss_of_eq _ _ _ _ (by omega) (by omega)

theorem DBest.step_of_nan (b : DBest) (e : DEvaluated) (h : e.loss = Dbl.nan) :
    b.step e = b := by
  unfold DBest.step DBest.consider
  rw [h]
  rfl

theorem DBest.step_zero_zero (b : DBest) (e : DEvaluated) (hb : b.best_loss = Dbl.fin 0)
    (h : e.loss = Dbl.fin 0) : b.step e = b := by
  unfold DBest.step DBest.consider
  rw [h, hb]
  rfl

/-- A running best of loss `0` is not changed by boundaries of loss `0` or NaN. -/
theorem dfoldl_step_fixed :
    ∀ (l : List DEvaluated) (b : DBest), b.best_loss = Dbl.fin 0 →
      (∀ e ∈ l, e.loss = if e.ssl.is_finite = true then Dbl.fin 0 else Dbl.nan) →
      l.foldl DBest.step b = b := by
  intro l
  induction l with
  | nil => intro b _ _; rfl
  | cons e l ih =>
    intro b hb hl
    rw [List.foldl_cons]
    have he := hl e (List.mem_cons_self _ _)
    have hstep : b.step e = b := by
      by_cases hf : e.ssl.is_finite = true
      · rw [if_pos hf] at he
        exact DBest.step_zero_zero b e hb he
      · rw [if_neg hf] at he
        exact DBest.step_of_nan b e he
    rw [hstep]
    exact ih b hb (fun d hd => hl d (List.mem_cons_of_mem _ hd))

/-- Folding boundaries of loss `0` or NaN into the initial running best: either no
boundary has a finite `ssl` and the running best is unchanged, or the result is the
first boundary with a finite `ssl`. -/
theorem dfoldl_step_cases :
    ∀ (l : List DEvaluated),
      (∀ e ∈ l, e.loss = if e.ssl.is_finite = true then Dbl.fin 0 else Dbl.nan) →
      (l.foldl DBest.step DBest.init = DBest.init ∧ ∀ d ∈ l, d.ssl.is_finite = false) ∨
      (∃ pre c post, l = pre ++ c :: post ∧ (∀ d ∈ pre, d.ssl.is_finite = false) ∧
        c.ssl.is_finite = true ∧
        l.foldl DBest.step DBest.init
          = { best_value := c.value, best_var := c.var, best_loss := Dbl.fin 0 }) := by
  intro l
  induction l with
  | nil => intro _; left; exact ⟨rfl, by simp⟩
  | cons e l ih =>
    intro hl
    have he := hl e (List.mem_cons_self _ _)
    have hl' : ∀ d ∈ l, d.loss = if d.ssl.is_finite = true then Dbl.fin 0 else Dbl.nan :=
      fun d hd => hl d (List.mem_cons_of_mem _ hd)
    rw [List.foldl_cons]
    by_cases hf : e.ssl.is_finite = true
    · right
      rw [if_pos hf] at he
      have hstep : DBest.init.step e
          = { best_value := e.value, best_var := e.var, best_loss := Dbl.fin 0 } := by
        unfold DBest.step DBest.consider
        rw [he]
        have : (Dbl.fin 0).lt DBest.init.best_loss = true := by decide!
        rw [if_pos this]
      rw [hstep]
      exact ⟨[], e, l, rfl, by simp, hf, dfoldl_step_fixed l _ rfl hl'⟩
    · rw [if_neg hf] at he
      rw [DBest.step_of_nan _ e he]
      have hf' : e.ssl.is_finite = false := by simpa using hf
      rcases ih hl' with ⟨heq, hall⟩ | ⟨pre, c, post, hpl, hpre, hc, heq⟩
      · left
        refine ⟨heq, ?_⟩
        intro d hd
        rcases List.mem_cons.mp hd with rfl | hd
        · exact hf'
        · exact hall d hd
      · right
        refine ⟨e :: pre, c, post, by rw [hpl]; rfl, ?_, hc, heq⟩
        intro d hd
        rcases List.mem_cons.mp hd with rfl | hd
        · exact hf'
        · exact hpre d hd

/-- The result of `find_best_split` in doubles: a leaf with both outputs untouched
when no evaluated boundary has a finite `ssl`, and otherwise the variable and the
threshold of the first evaluated boundary with a finite `ssl`. -/
theorem fl_find_best_split_cases {k : Nat} (rule : MultiRegressionSplittingRule k)
    (s : DScratch k) (data : Data) (node : Nat) (vars : List Nat)
    (responses_by_sample : Nat → DVec k) (samples : List (List Nat))
    (split_vars : List Nat) (split_values : List Val) :
    ((fl_find_best_split rule s data node vars responses_by_sample samples split_vars
          split_values).leaf = true ∧
      (fl_find_best_split rule s data node vars responses_by_sample samples split_vars
          split_values).split_vars = split_vars ∧
      (fl_find_best_split rule s data node vars responses_by_sample samples split_vars
          split_values).split_values = split_values ∧
      ∀ d ∈ fl_search_evals rule s data node vars responses_by_sample samples,
        d.ssl.is_finite = false) ∨
    (∃ pre c post,
      fl_search_evals rule s data node vars responses_by_sample samples = pre ++ c :: post ∧
      (∀ d ∈ pre, d.ssl.is_finite = false) ∧ c.ssl.is_finite = true ∧
      (fl_find_best_split rule s data node vars responses_by_sample samples split_vars
          split_values).leaf = false ∧
      (fl_find_best_split rule s data node vars responses_by_sample samples split_vars
          split_values).split_vars = split_vars.set node c.var ∧
      (fl_find_best_split rule s data node vars responses_by_sample samples split_vars
          split_values).split_values = split_values.set node c.value) := by
  rcases dfoldl_step_cases (fl_search_evals rule s data node vars responses_by_sample samples)
    (fun e he => fl_search_evals_loss rule s data node vars responses_by_sample samples e he)
    with ⟨heq, hall⟩ | ⟨pre, c, post, hl, hpre, hc, heq⟩
  · left
    have hlt : (Dbl.fin leaf_bound).lt
        (fl_search rule s data node vars responses_by_sample samples).2.best_loss = true := by
      rw [fl_search_snd, heq]
      decide!
    unfold fl_find_best_split
    dsimp only
    rw [if_pos hlt]
    exact ⟨rfl, rfl, rfl, hall⟩
  · right
    have hlt : ¬ (Dbl.fin leaf_bound).lt
        (fl_search rule s data node vars responses_by_sample samples).2.best_loss = true := by
      rw [fl_search_snd, heq]
      show ¬ (Dbl.fin leaf_bound).lt (Dbl.fin 0) = true
      decide!
    refine ⟨pre, c, post, hl, hpre, hc, ?_⟩
    unfold fl_find_best_split
    dsimp only
    rw [if_neg hlt, fl_search_snd, heq]
    exact ⟨rfl, rfl, rfl⟩

/-! ## The double arithmetic and the exact arithmetic evaluate the same boundaries -/

theorem fl_foldl_fill_step_counter {k : Nat} (data : Data) (var : Nat)
    (rd : Nat → DVec k) (r : Nat → Vec k) (sorted_samples : List Nat) :
    ∀ (l : List Nat) (sd : Nat × DScratch k) (st : Nat × Scratch k),
      sd.1 = st.1 → sd.2.counter = st.2.counter →
      (l.foldl (fl_fill_step data var rd sorted_samples) sd).2.counter
        = (l.foldl (fill_step data var r sorted_samples) st).2.counter := by
  intro l
  induction l with
  | nil => intro sd st _ h2; exact h2
  | cons i l ih =>
    intro sd st h1 h2
    rw [List.foldl_cons, List.foldl_cons]
    apply ih
    · simp only [fl_fill_step, fill_step, h1]
    · simp only [fl_fill_step, fill_step, h1, h2]

theorem fl_scan_evals_skeleton {k : Nat} (sigma sigma' : Matrix (Fin 2) (Fin 2) ℚ)
    (rd : Nat → DVec k) (r : Nat → Vec k) (psv : List Val) (sorted_samples : List Nat)
    (var : Nat) (sum_node_d : DVec k) (sum_node : Vec k) (size_node mcs : Nat)
    (sd : DScratch k) (s : Scratch k) (hc : sd.counter = s.counter) :
    ∀ (fuel i n0 : Nat) (d0 : DVec k) (s0 : Vec k),
      (fl_scan_evals sigma rd psv sorted_samples var sum_node_d size_node mcs sd
          fuel i n0 d0).map (fun e => (e.index, e.n_left, e.value, e.var))
        = (scan_evals sigma' r psv sorted_samples var sum_node size_node mcs s
          fuel i n0 s0).map (fun e => (e.index, e.n_left, e.value, e.var)) := by
  intro fuel
  induction fuel with
  | zero => intro i n0 d0 s0; rfl
  | succ fuel ih =>
    intro i n0 d0 s0
    simp only [fl_scan_evals, scan_evals, hc]
    split_ifs with h1 h2
    · exact ih _ _ _ _
    · rfl
    · rw [List.map_cons, List.map_cons, ih]

/-- One scan evaluates the same boundaries in the double arithmetic and in the exact
arithmetic: the same indices, counts, thresholds and variable, in the same order,
whatever the outcomes and the scratch buffers are. -/
theorem fl_value_evals_skeleton {k : Nat} (sigma sigma' : Matrix (Fin 2) (Fin 2) ℚ)
    (data : Data) (node var : Nat) (sum_node_d : DVec k) (sum_node : Vec k)
    (size_node mcs : Nat) (rd : Nat → DVec k) (r : Nat → Vec k) (samples : List (List Nat))
    (sd : DScratch k) (s : Scratch k) :
    (fl_value_evals sigma data node var sum_node_d size_node mcs rd samples sd).map
        (fun e => (e.index, e.n_left, e.value, e.var))
      = (value_evals sigma' data node var sum_node size_node mcs r samples s).map
        (fun e => (e.index, e.n_left, e.value, e.var)) := by
  rw [value_evals_scratch sigma' data node var sum_node size_node mcs r samples s
    { counter := sd.counter, sums := fun _ => 0 }]
  unfold fl_value_evals value_evals
  dsimp only
  split_ifs with h
  · rfl
  · apply fl_scan_evals_skeleton
    unfold fl_fill_buckets fill_buckets
    apply fl_foldl_fill_step_counter
    · rfl
    · rfl

theorem fl_evals_from_skeleton {k : Nat} (sigma : Matrix (Fin 2) (Fin 2) ℚ)
    (data : Data) (node : Nat) (sum_node_d : DVec k) (sum_node : Vec k)
    (size_node mcs : Nat) (rd : Nat → DVec k) (r : Nat → Vec k) (samples : List (List Nat))
    (s : Scratch k) :
    ∀ (vars : List Nat) (sd : DScratch k),
      (fl_evals_from sigma data node sum_node_d size_node mcs rd samples vars sd).map
          (fun e => (e.index, e.n_left, e.value, e.var))
        = (evals_from sigma data node sum_node size_node mcs r samples vars s).map
          (fun e => (e.index, e.n_left, e.value, e.var)) := by
  intro vars
  induction vars with
  | nil => intro sd; rfl
  | cons var vars ih =>
    intro sd
    rw [fl_evals_from, evals_from, List.map_append, List.map_append, ih,
      fl_value_evals_skeleton sigma sigma data node var sum_node_d sum_node size_node mcs rd r
        samples sd s,
      evals_from_scratch sigma data node sum_node size_node mcs r samples vars
        (find_best_split_value sigma data node var sum_node size_node mcs r samples
          (s, Best.init)).1 s]

/-- A search evaluates the same boundaries in the double arithmetic and in the exact
arithmetic, whatever the outcomes and the scratch buffers are. -/
theorem fl_search_evals_skeleton {k : Nat} (rule : MultiRegressionSplittingRule k)
    (sd : DScratch k) (data : Data) (node : Nat) (vars : List Nat) (rd : Nat → DVec k)
    (r : Nat → Vec k) (samples : List (List Nat)) :
    (fl_search_evals rule sd data node vars rd samples).map
        (fun e => (e.index, e.n_left, e.value, e.var))
      = (search_evals rule data node vars r samples).map
        (fun e => (e.index, e.n_left, e.value, e.var)) := by
  unfold fl_search_evals search_evals
  exact fl_evals_from_skeleton _ _ _ _ _ _ _ _ _ _ _ _ _

/-- When no accumulator overflows, the call gives the same result in the double
arithmetic and in the exact arithmetic: the same flag and the same output vectors,
whatever the outcomes handed to either are. -/
theorem fl_find_best_split_eq_exact {k : Nat} (rule : MultiRegressionSplittingRule k)
    (sd : DScratch k) (data : Data) (node : Nat) (vars : List Nat) (rd : Nat → DVec k)
    (r : Nat → Vec k) (samples : List (List Nat)) (split_vars : List Nat)
    (split_values : List Val)
    (hfin : ∀ e ∈ fl_search_evals rule sd data node vars rd samples, e.ssl.is_finite = true) :
    (fl_find_best_split rule sd data node vars rd samples split_vars split_values).leaf
      = (find_best_split rule data node vars r samples split_vars split_values).leaf ∧
    (fl_find_best_split rule sd data node vars rd samples split_vars split_values).split_vars
      = (find_best_split rule data node vars r samples split_vars split_values).split_vars ∧
    (fl_find_best_split rule sd data node vars rd samples split_vars split_values).split_values
      = (find_best_split rule data node vars r samples split_vars split_values).split_values := by
  have hsk := fl_search_evals_skeleton rule sd data node vars rd r samples
  rcases fl_find_best_split_cases rule sd data node vars rd samples split_vars split_values with
    ⟨hleaf, hsv, hsval, hall⟩ | ⟨pre, c, post, hl, hpre, _, hleaf, hsv, hsval⟩
  · have hnil : fl_search_evals rule sd data node vars rd samples = [] := by
      apply List.eq_nil_iff_forall_not_mem.mpr
      intro e he
      have h1 := hfin e he
      rw [hall e he] at h1
      exact Bool.noConfusion h1
    rw [hnil, List.map_nil] at hsk
    have hnil' : search_evals rule data node vars r samples = [] :=
      List.map_eq_nil_iff.mp hsk.symm
    have hleaf' := (search_leaf_iff_nil rule data node vars r samples split_vars
      split_values).mpr hnil'
    have hbest : leaf_bound < (search rule data node vars r samples).2.best_loss :=
      (find_best_split_leaf_iff rule data node vars r samples split_vars split_values).mp hleaf'
    rw [hleaf, hsv, hsval, find_best_split_of_leaf _ _ _ _ _ _ _ _ hbest]
    exact ⟨rfl, rfl, rfl⟩
  · have hpnil : pre = [] := by
      apply List.eq_nil_iff_forall_not_mem.mpr
      intro d hd
      have h1 := hfin d (by rw [hl]; simp [hd])
      rw [hpre d hd] at h1
      exact Bool.noConfusion h1
    rw [hpnil, List.nil_append] at hl
    rw [hl, List.map_cons] at hsk
    have hleaf' : (find_best_split rule data node vars r samples split_vars
        split_values).leaf = false := by
      cases hb : (find_best_split rule data node vars r samples split_vars split_values).leaf
      · rfl
      · rw [(search_leaf_iff_nil rule data node vars r samples split_vars split_values).mp hb]
          at hsk
        exact absurd hsk (by simp)
    obtain ⟨c', post', hl', hsv', hsval'⟩ := search_head_written rule data node vars r samples
      split_vars split_values hleaf'
    rw [hl', List.map_cons] at hsk
    have hhead := (List.cons.inj hsk).1
    have hvalue : c.value = c'.value := (Prod.mk.inj (Prod.mk.inj (Prod.mk.inj hhead).2).2).1
    have hvar : c.var = c'.var := (Prod.mk.inj (Prod.mk.inj (Prod.mk.inj hhead).2).2).2
    rw [hleaf, hleaf', hsv, hsv', hsval, hsval', hvalue, hvar]
    exact ⟨rfl, rfl, rfl⟩

/-- Every boundary evaluated in the double arithmetic is evaluated in the exact
arithmetic, with the same index, count, threshold and variable. -/
theorem fl_search_evals_exact_mem {k : Nat} (rule : MultiRegressionSplittingRule k)
    (sd : DScratch k) (data : Data) (node : Nat) (vars : List Nat) (rd : Nat → DVec k)
    (r : Nat → Vec k) (samples : List (List Nat)) (c : DEvaluated)
    (hc : c ∈ fl_search_evals rule sd data node vars rd samples) :
    ∃ e : Evaluated k, e ∈ search_evals rule data node vars r samples ∧
      e.index = c.index ∧ e.n_left = c.n_left ∧ e.value = c.value ∧ e.var = c.var := by
  have hm := List.mem_map_of_mem (fun e : DEvaluated => (e.index, e.n_left, e.value, e.var)) hc
  rw [fl_search_evals_skeleton rule sd data node vars rd r samples] at hm
  obtain ⟨e, he, heq⟩ := List.mem_map.mp hm
  have h1 := (Prod.mk.inj heq).1
  have h2 := (Prod.mk.inj (Prod.mk.inj heq).2).1
  have h3 := (Prod.mk.inj (Prod.mk.inj (Prod.mk.inj heq).2).2).1
  have h4 := (Prod.mk.inj (Prod.mk.inj (Prod.mk.inj heq).2).2).2
  exact ⟨e, he, h1, h2, h3, h4⟩

/-- A search that evaluates no boundary in the exact arithmetic evaluates none in the
double arithmetic. -/
theorem fl_search_evals_nil {k : Nat} (rule : MultiRegressionSplittingRule k)
    (sd : DScratch k) (data : Data) (node : Nat) (vars : List Nat) (rd : Nat → DVec k)
    (r : Nat → Vec k) (samples : List (List Nat))
    (h : search_evals rule data node vars r samples = []) :
    fl_search_evals rule sd data node vars rd samples = [] := by
  have hsk := fl_search_evals_skeleton rule sd data node vars rd r samples
  rw [h, List.map_nil] at hsk
  exact List.map_eq_nil_iff.mp hsk

/-! ## The claims -/

/-- Claim C1 (optimality of `find_best_split`), evaluated on the scenario of the
claim: one variable with the values `1, 2, 3, 4`, the outcomes `(0, 0)`, `(0, 0)`,
`(10, 10)`, `(10, 10)` and `alpha = 0.05`, hence `min_child_size = 1`. The accessor
meets its contract, the boundary at `2` leaves two samples on each side and has the
least loss of the specification (`0`, against `200 / 3` at `1` and at `3`), and
`find_best_split` reports a split on the variable at the threshold `1`. -/
theorem C1_first_admissible_boundary_written :
    accessor_contract data4 [0, 1, 2, 3] 0 ∧
    min_child_size_of rule4.alpha 4 = 1 ∧
    (find_best_split rule4 data4 0 [0] responses4 [[0, 1, 2, 3]] [7] [none]).leaf = false ∧
    (find_best_split rule4 data4 0 [0] responses4 [[0, 1, 2, 3]] [7] [none]).split_vars = [0] ∧
    (find_best_split rule4 data4 0 [0] responses4 [[0, 1, 2, 3]] [7] [none]).split_values
      = [some 1] ∧
    left_count data4 0 (some 2) [0, 1, 2, 3] = 2 ∧
    right_count data4 0 (some 2) [0, 1, 2, 3] = 2 ∧
    spec_loss rule4.sigma data4 responses4 [0, 1, 2, 3] 0 (some 2) = 0 ∧
    spec_loss rule4.sigma data4 responses4 [0, 1, 2, 3] 0 (some 1) = 200 / 3 ∧
    spec_loss rule4.sigma data4 responses4 [0, 1, 2, 3] 0 (some 3) = 200 / 3 :=
  ⟨contract4, by decide!, by decide!, by decide!, by decide!, by decide!, by decide!,
    by decide!, by decide!, by decide!⟩

/-- Claim C2 (minimum child size), as amended. `min_child_size` is `max(ceil(p), 1)`
where `p` is the product `size_node * alpha` as the program computes it, in doubles
and rounded to the nearest double; it is `2` for `n = 10`, `alpha = 0.2` and `3` for
`n = 5`, `alpha = 0.5`, and also `3` for `n = 30`, `alpha = 0.1`, `8` for `n = 100`,
`alpha = 0.07` and `70` for `n = 1000`, `alpha = 0.07`. For a node in which no sample
has a missing value on a candidate variable (the accessor contract), whenever
`find_best_split` reports a split, in the exact arithmetic and in the double
arithmetic alike, the number of samples of the node with value `<=` the written
threshold on the written variable and the number with value `>` it are both at
least `min_child_size`; in particular neither child has exactly one sample when
`min_child_size >= 2`. -/
theorem C2_min_child_size_respected :
    (∀ (alpha : ℚ) (n : Nat),
      min_child_size_of alpha n = max ⌈round_double (round_double (n : ℚ) * alpha)⌉₊ 1) ∧
    (∀ (alpha : ℚ) (n m : Nat),
      min_child_size_of alpha n ≤ m
        ↔ (1 ≤ m ∧ round_double (round_double (n : ℚ) * alpha) ≤ (m : ℚ))) ∧
    min_child_size_of (round_double (1 / 5)) 10 = 2 ∧ min_child_size_of (1 / 2) 5 = 3 ∧
    min_child_size_of (round_double (1 / 10)) 30 = 3 ∧
    min_child_size_of (round_double (7 / 100)) 100 = 8 ∧
    min_child_size_of (round_double (7 / 100)) 1000 = 70 ∧
    (∀ (k : Nat) (rule : MultiRegressionSplittingRule k) (data : Data) (node : Nat)
      (vars : List Nat) (responses_by_sample : Nat → Vec k) (samples : List (List Nat))
      (split_vars : List Nat) (split_values : List Val) (out : Outcome k),
      out = find_best_split rule data node vars responses_by_sample samples split_vars
        split_values →
      (∀ var ∈ vars, accessor_contract data (samples.getD node []) var) →
      node < split_vars.length → node < split_values.length →
      out.leaf = false →
      ∃ v t, out.split_vars[node]? = some v ∧ out.split_values[node]? = some t ∧ v ∈ vars ∧
        min_child_size_of rule.alpha (samples.getD node []).length
          ≤ left_count data v t (samples.getD node []) ∧
        min_child_size_of rule.alpha (samples.getD node []).length
          ≤ right_count data v t (samples.getD node []) ∧
        (2 ≤ min_child_size_of rule.alpha (samples.getD node []).length →
          left_count data v t (samples.getD node []) ≠ 1 ∧
          right_count data v t (samples.getD node []) ≠ 1)) ∧
    (∀ (k : Nat) (rule : MultiRegressionSplittingRule k) (s : DScratch k) (data : Data)
      (node : Nat) (vars : List Nat) (responses_by_sample : Nat → DVec k)
      (samples : List (List Nat)) (split_vars : List Nat) (split_values : List Val)
      (out : DOutcome k),
      out = fl_find_best_split rule s data node vars responses_by_sample samples split_vars
        split_values →
      (∀ var ∈ vars, accessor_contract data (samples.getD node []) var) →
      node < split_vars.length → node < split_values.length →
      out.leaf = false →
      ∃ v t, out.split_vars[node]? = some v ∧ out.split_values[node]? = some t ∧ v ∈ vars ∧
        min_child_size_of rule.alpha (samples.getD node []).length
          ≤ left_count data v t (samples.getD node []) ∧
        min_child_size_of rule.alpha (samples.getD node []).length
          ≤ right_count data v t (samples.getD node []) ∧
        (2 ≤ min_child_size_of rule.alpha (samples.getD node []).length →
          left_count data v t (samples.getD node []) ≠ 1 ∧
          right_count data v t (samples.getD node []) ≠ 1)) := by
  refine ⟨fun _ _ => rfl, ?_, by decide!, by decide!, by decide!, by decide!, by decide!,
    ?_, ?_⟩
  · intro alpha n m
    unfold min_child_size_of
    rw [max_le_iff, Nat.ceil_le]
    exact and_comm
  · intro k rule data node vars responses_by_sample samples split_vars split_values out hout
      hc h1 h2 hleaf
    subst hout
    obtain ⟨pre, c, post, hl, _, _, _, hfind⟩ := search_best_of_split rule data node vars
      responses_by_sample samples split_vars split_values hleaf
    have hc_mem : c ∈ search_evals rule data node vars responses_by_sample samples := by
      rw [hl]; simp
    obtain ⟨var, hvar, hmem⟩ := search_evals_mem rule data node vars responses_by_sample
      samples c hc_mem
    obtain ⟨hcv, _, _, _, hleft, hright, hm1, hm2⟩ := value_evals_counts _ _ _ _ _ _ _ _ _
      (hc var hvar) c hmem
    rw [hfind]
    refine ⟨c.var, c.value, List.getElem?_set_self h1, List.getElem?_set_self h2,
      by rw [hcv]; exact hvar, ?_, ?_, ?_⟩
    · rw [hcv, ← hleft]; exact hm1
    · rw [hcv, ← hright]; exact hm2
    · intro h
      rw [hcv, ← hleft, ← hright]
      constructor <;> omega
  · intro k rule s data node vars responses_by_sample samples split_vars split_values out hout
      hc h1 h2 hleaf
    subst hout
    rcases fl_find_best_split_cases rule s data node vars responses_by_sample samples
      split_vars split_values with ⟨hl, _⟩ | ⟨pre, c, post, hl, _, _, _, hsv, hsval⟩
    · rw [hl] at hleaf
      exact Bool.noConfusion hleaf
    have hc_mem : c ∈ fl_search_evals rule s data node vars responses_by_sample samples := by
      rw [hl]; simp
    obtain ⟨e, he, _, hen, hev, hevar⟩ := fl_search_evals_exact_mem rule s data node vars
      responses_by_sample (fun _ => 0) samples c hc_mem
    obtain ⟨var, hvar, hmem⟩ := search_evals_mem rule data node vars (fun _ => 0) samples e he
    obtain ⟨hcv, _, _, _, hleft, hright, hm1, hm2⟩ := value_evals_counts _ _ _ _ _ _ _ _ _
      (hc var hvar) e hmem
    rw [hsv, hsval, ← hev, ← hevar]
    refine ⟨e.var, e.value, List.getElem?_set_self h1, List.getElem?_set_self h2,
      by rw [hcv]; exact hvar, ?_, ?_, ?_⟩
    · rw [hcv, ← hleft]; exact hm1
    · rw [hcv, ← hright]; exact hm2
    · intro h
      rw [hcv, ← hleft, ← hright]
      constructor <;> omega

/-- An instance of claim C2: four samples with the values `1, 2, 3, 4`,
`alpha = 0.5`, hence `min_child_size = 2`. -/
theorem C2_min_child_size_respected_witness :
    ∃ v t,
      (find_best_split rule4_half data4 0 [0] responses4 [[0, 1, 2, 3]] [7] [none]).split_vars[0]?
        = some v ∧
      (find_best_split rule4_half data4 0 [0] responses4 [[0, 1, 2, 3]] [7] [none]).split_values[0]?
        = some t ∧
      v ∈ [0] ∧
      min_child_size_of rule4_half.alpha ([[0, 1, 2, 3]].getD 0 []).length
        ≤ left_count data4 v t ([[0, 1, 2, 3]].getD 0 []) ∧
      min_child_size_of rule4_half.alpha ([[0, 1, 2, 3]].getD 0 []).length
        ≤ right_count data4 v t ([[0, 1, 2, 3]].getD 0 []) ∧
      (2 ≤ min_child_size_of rule4_half.alpha ([[0, 1, 2, 3]].getD 0 []).length →
        left_count data4 v t ([[0, 1, 2, 3]].getD 0 []) ≠ 1 ∧
        right_count data4 v t ([[0, 1, 2, 3]].getD 0 []) ≠ 1) :=
  C2_min_child_size_respected.2.2.2.2.2.2.2.1 2 rule4_half data4 0 [0] responses4
    [[0, 1, 2, 3]] [7] [none]
    _ rfl (by intro var hvar; simp at hvar; subst hvar; exact contract4) (by decide) (by decide)
    (by decide!)

/-- Claim C2 as stated fails on a node with a missing value: four samples with the
values `1, 1, 2` and a missing value, `alpha = 0.5`, hence `min_child_size = 2`.
The call reports a split at the threshold `1`, in the exact arithmetic and in the
double arithmetic, while a single sample of the node has a value `> 1`. And the
ceiling is taken of the rounded product: for `n = 30` and the double `0.1` it gives
`3`, while the ceiling of the product of `30` and the value of that double is `4`. -/
theorem C2_missing_value_child_too_small :
    (find_best_split rule4_half data_nan4 0 [0] responses4 [[0, 1, 2, 3]] [7] [none]).leaf
      = false ∧
    (find_best_split rule4_half data_nan4 0 [0] responses4 [[0, 1, 2, 3]] [7] [none]).split_vars
      = [0] ∧
    (find_best_split rule4_half data_nan4 0 [0] responses4 [[0, 1, 2, 3]] [7]
      [none]).split_values = [some 1] ∧
    (fl_find_best_split rule4_half (dscratch0 2) data_nan4 0 [0] (to_doubles responses4)
      [[0, 1, 2, 3]] [7] [none]).leaf = false ∧
    (fl_find_best_split rule4_half (dscratch0 2) data_nan4 0 [0] (to_doubles responses4)
      [[0, 1, 2, 3]] [7] [none]).split_values = [some 1] ∧
    min_child_size_of rule4_half.alpha 4 = 2 ∧
    left_count data_nan4 0 (some 1) [0, 1, 2, 3] = 2 ∧
    right_count data_nan4 0 (some 1) [0, 1, 2, 3] = 1 ∧
    min_child_size_of (round_double (1 / 10)) 30 = 3 ∧
    max ⌈((30 : Nat) : ℚ) * round_double (1 / 10)⌉₊ 1 = 4 := by
  refine ⟨by decide!, by decide!, by decide!, by decide!, by decide!, by decide!, by decide!,
    by decide!, by decide!, by decide!⟩

/-- Claim C3 (no viable split gives a leaf and no mutation), as amended. When every
candidate variable either has fewer than two distinct values in the node, or has no
missing value in the node (the accessor contract) and no distinct value that leaves at
least `min_child_size` samples on both sides, `find_best_split` returns `true` and
`split_vars` and `split_values` are exactly as before the call, in the exact
arithmetic and in the double arithmetic alike. This covers the empty candidate list
and the node in which every candidate variable has a single distinct value. -/
theorem C3_no_viable_split_is_leaf (k : Nat) (rule : MultiRegressionSplittingRule k)
    (data : Data) (node : Nat) (vars : List Nat) (responses_by_sample : Nat → Vec k)
    (samples : List (List Nat)) (split_vars : List Nat) (split_values : List Val)
    (h : ∀ var ∈ vars,
      (data.get_all_values (samples.getD node []) var).1.length < 2 ∨
      (accessor_contract data (samples.getD node []) var ∧
        ∀ t ∈ (data.get_all_values (samples.getD node []) var).1,
          ¬ (min_child_size_of rule.alpha (samples.getD node []).length
                ≤ left_count data var t (samples.getD node []) ∧
             min_child_size_of rule.alpha (samples.getD node []).length
                ≤ right_count data var t (samples.getD node [])))) :
    ((find_best_split rule data node vars responses_by_sample samples split_vars
        split_values).leaf = true ∧
    (find_best_split rule data node vars responses_by_sample samples split_vars
        split_values).split_vars = split_vars ∧
    (find_best_split rule data node vars responses_by_sample samples split_vars
        split_values).split_values = split_values) ∧
    ∀ (s : DScratch k) (rd : Nat → DVec k),
      (fl_find_best_split rule s data node vars rd samples split_vars split_values).leaf
        = true ∧
      (fl_find_best_split rule s data node vars rd samples split_vars split_values).split_vars
        = split_vars ∧
      (fl_find_best_split rule s data node vars rd samples split_vars split_values).split_values
        = split_values := by
  have hnil : search_evals rule data node vars responses_by_sample samples = [] := by
    apply List.eq_nil_iff_forall_not_mem.mpr
    intro e he
    obtain ⟨var, hvar, hmem⟩ := search_evals_mem rule data node vars responses_by_sample
      samples e he
    rcases h var hvar with hlt | ⟨hc, hno⟩
    · have := (value_evals_mem _ _ _ _ _ _ _ _ _ _ e hmem).2.1
      omega
    · obtain ⟨hcv, _, hget, _, hleft, hright, hm1, hm2⟩ := value_evals_counts _ _ _ _ _ _ _ _ _
        hc e hmem
      apply hno e.value (List.mem_iff_getElem?.mpr ⟨e.index, hget⟩)
      rw [← hleft, ← hright]
      exact ⟨hm1, hm2⟩
  have hbest : leaf_bound
      < (search rule data node vars responses_by_sample samples).2.best_loss := by
    rw [search_snd, hnil]
    exact leaf_bound_lt_sentinel
  refine ⟨?_, ?_⟩
  · rw [find_best_split_of_leaf _ _ _ _ _ _ _ _ hbest]
    exact ⟨rfl, rfl, rfl⟩
  · intro s rd
    have hnil' := fl_search_evals_nil rule s data node vars rd responses_by_sample samples hnil
    rcases fl_find_best_split_cases rule s data node vars rd samples split_vars split_values
      with ⟨hl, hsv, hsval, _⟩ | ⟨pre, c, post, hl, _⟩
    · exact ⟨hl, hsv, hsval⟩
    · rw [hnil'] at hl
      exact absurd hl (by simp)

/-- An instance of claim C3: four samples with the values `1, 2, 3, 4` and
`alpha = 1`, hence `min_child_size = 4`. -/
theorem C3_no_viable_split_is_leaf_witness :
    (find_best_split rule4_one data4 0 [0] responses4 [[0, 1, 2, 3]] [7] [none]).leaf = true ∧
    (find_best_split rule4_one data4 0 [0] responses4 [[0, 1, 2, 3]] [7] [none]).split_vars
      = [7] ∧
    (find_best_split rule4_one data4 0 [0] responses4 [[0, 1, 2, 3]] [7] [none]).split_values
      = [none] :=
  (C3_no_viable_split_is_leaf 2 rule4_one data4 0 [0] responses4 [[0, 1, 2, 3]] [7] [none]
    (by
      intro var hvar
      simp at hvar
      subst hvar
      right
      exact ⟨contract4, by decide!⟩)).1

/-- Claim C3 as stated fails on a node with a missing value: four samples with the
values `1, 1, 2` and a missing value, `alpha = 0.5`, hence `min_child_size = 2`. No
distinct value of the variable leaves two samples of the node on both sides, and yet
the call reports a split and writes the variable `0` and the threshold `1`, in the
exact arithmetic and in the double arithmetic. -/
theorem C3_missing_value_node_is_split :
    (∀ t ∈ (data_nan4.get_all_values [0, 1, 2, 3] 0).1,
      ¬ (min_child_size_of rule4_half.alpha 4 ≤ left_count data_nan4 0 t [0, 1, 2, 3] ∧
         min_child_size_of rule4_half.alpha 4 ≤ right_count data_nan4 0 t [0, 1, 2, 3])) ∧
    (find_best_split rule4_half data_nan4 0 [0] responses4 [[0, 1, 2, 3]] [7] [none]).leaf
      = false ∧
    (find_best_split rule4_half data_nan4 0 [0] responses4 [[0, 1, 2, 3]] [7] [none]).split_vars
      = [0] ∧
    (find_best_split rule4_half data_nan4 0 [0] responses4 [[0, 1, 2, 3]] [7]
      [none]).split_values = [some 1] ∧
    (fl_find_best_split rule4_half (dscratch0 2) data_nan4 0 [0] (to_doubles responses4)
      [[0, 1, 2, 3]] [7] [none]).leaf = false ∧
    (fl_find_best_split rule4_half (dscratch0 2) data_nan4 0 [0] (to_doubles responses4)
      [[0, 1, 2, 3]] [7] [none]).split_vars = [0] ∧
    (fl_find_best_split rule4_half (dscratch0 2) data_nan4 0 [0] (to_doubles responses4)
      [[0, 1, 2, 3]] [7] [none]).split_values = [some 1] := by
  refine ⟨by decide!, by decide!, by decide!, by decide!, by decide!, by decide!, by decide!⟩

/-- Claim C4 (leaf decision against the sentinel). `find_best_split` returns `true`,
with both output vectors untouched, exactly when no evaluated boundary of any
candidate variable has a computed loss strictly below the sentinel with which the
running best is initialised; otherwise it returns `false` and writes the running
best variable and threshold at index `node` of `split_vars` and `split_values`. -/
theorem C4_leaf_iff_nothing_below_sentinel (k : Nat) (rule : MultiRegressionSplittingRule k)
    (data : Data) (node : Nat) (vars : List Nat) (responses_by_sample : Nat → Vec k)
    (samples : List (List Nat)) (split_vars : List Nat) (split_values : List Val) :
    ((find_best_split rule data node vars responses_by_sample samples split_vars
        split_values).leaf = true
      ↔ ∀ e ∈ search_evals rule data node vars responses_by_sample samples,
          ¬ e.loss < Best.init.best_loss) ∧
    ((find_best_split rule data node vars responses_by_sample samples split_vars
        split_values).leaf = true →
      (find_best_split rule data node vars responses_by_sample samples split_vars
          split_values).split_vars = split_vars ∧
      (find_best_split rule data node vars responses_by_sample samples split_vars
          split_values).split_values = split_values) ∧
    ((find_best_split rule data node vars responses_by_sample samples split_vars
        split_values).leaf = false →
      (find_best_split rule data node vars responses_by_sample samples split_vars
          split_values).split_vars
        = split_vars.set node
          ((search_evals rule data node vars responses_by_sample samples).foldl
            Best.step Best.init).best_var ∧
      (find_best_split rule data node vars responses_by_sample samples split_vars
          split_values).split_values
        = split_values.set node
          ((search_evals rule data node vars responses_by_sample samples).foldl
            Best.step Best.init).best_value) := by
  refine ⟨?_, ?_, ?_⟩
  · rw [find_best_split_leaf_iff, search_snd]
    constructor
    · intro hlt e he hlow
      rcases foldl_step_cases (search_evals rule data node vars responses_by_sample samples)
        Best.init with ⟨_, hall⟩ | ⟨pre, c, post, hl, _, _, _, heq⟩
      · exact absurd hlow (not_lt.mpr (hall e he))
      · have hc : c ∈ search_evals rule data node vars responses_by_sample samples := by
          rw [hl]; simp
        rw [heq, search_evals_loss rule data node vars responses_by_sample samples c hc] at hlt
        norm_num [leaf_bound] at hlt
    · intro hall
      rcases foldl_step_cases (search_evals rule data node vars responses_by_sample samples)
        Best.init with ⟨heq, _⟩ | ⟨pre, c, post, hl, hlt, _, _, _⟩
      · rw [heq]
        exact leaf_bound_lt_sentinel
      · exact absurd hlt (hall c (by rw [hl]; simp))
  · intro hleaf
    rw [find_best_split_leaf_iff] at hleaf
    rw [find_best_split_of_leaf _ _ _ _ _ _ _ _ hleaf]
    exact ⟨rfl, rfl⟩
  · intro hleaf
    have hnot : ¬ leaf_bound
        < (search rule data node vars responses_by_sample samples).2.best_loss := by
      intro hlt
      rw [(find_best_split_leaf_iff rule data node vars responses_by_sample samples split_vars
        split_values).mpr hlt] at hleaf
      exact Bool.noConfusion hleaf
    rw [find_best_split_of_split _ _ _ _ _ _ _ _ hnot, search_snd]
    exact ⟨rfl, rfl⟩

/-- Claim C5 (tie-break). The boundaries are evaluated variable by variable in the
order of the candidate list and, within a variable, in ascending order of the
boundary index. Whenever `find_best_split` reports a split, the written variable
and threshold are those of the first evaluated boundary whose computed loss is the
least computed: every boundary met before it has a strictly larger loss, every
boundary met after it a loss at least as large. A boundary whose loss is not
strictly smaller than the running best leaves the running best as it is. -/
theorem C5_tie_keeps_first :
    (∀ (k : Nat) (rule : MultiRegressionSplittingRule k) (data : Data) (node : Nat)
      (vars : List Nat) (responses_by_sample : Nat → Vec k) (samples : List (List Nat)),
      search_evals rule data node vars responses_by_sample samples
        = vars.flatMap (fun var => value_evals rule.sigma data node var
            (sum_node_of responses_by_sample (samples.getD node []))
            (samples.getD node []).length
            (min_child_size_of rule.alpha (samples.getD node []).length)
            responses_by_sample samples rule.scratch) ∧
      ∀ var, (value_evals rule.sigma data node var
            (sum_node_of responses_by_sample (samples.getD node []))
            (samples.getD node []).length
            (min_child_size_of rule.alpha (samples.getD node []).length)
            responses_by_sample samples rule.scratch).Pairwise
          (fun a b => a.index < b.index)) ∧
    (∀ (k : Nat) (rule : MultiRegressionSplittingRule k) (data : Data) (node : Nat)
      (vars : List Nat) (responses_by_sample : Nat → Vec k) (samples : List (List Nat))
      (split_vars : List Nat) (split_values : List Val) (out : Outcome k),
      out = find_best_split rule data node vars responses_by_sample samples split_vars
        split_values →
      node < split_vars.length → node < split_values.length → out.leaf = false →
      ∃ (pre : List (Evaluated k)) (c : Evaluated k) (post : List (Evaluated k)),
        search_evals rule data node vars responses_by_sample samples = pre ++ c :: post ∧
        (∀ d ∈ pre, c.loss < d.loss) ∧ (∀ d ∈ post, c.loss ≤ d.loss) ∧
        out.split_vars[node]? = some c.var ∧ out.split_values[node]? = some c.value) ∧
    (∀ (best : Best) (value : Val) (var : Nat) (loss : ℚ),
      ¬ loss < best.best_loss → best.consider value var loss = best) := by
  refine ⟨?_, ?_, ?_⟩
  · intro k rule data node vars responses_by_sample samples
    refine ⟨?_, fun var => value_evals_ascending _ _ _ _ _ _ _ _ _ _⟩
    unfold search_evals
    exact evals_from_eq_flatMap _ _ _ _ _ _ _ _ rule.scratch _ _
  · intro k rule data node vars responses_by_sample samples split_vars split_values out hout
      h1 h2 hleaf
    subst hout
    obtain ⟨pre, c, post, hl, hpre, hpost, _, hfind⟩ := search_best_of_split rule data node vars
      responses_by_sample samples split_vars split_values hleaf
    rw [hfind]
    exact ⟨pre, c, post, hl, hpre, hpost, List.getElem?_set_self h1, List.getElem?_set_self h2⟩
  · intro best value var loss h
    simp [Best.consider, h]

/-- An instance of claim C5: on four samples with the values `1, 2, 3, 4` and
`alpha = 0.05` the three boundaries are evaluated with equal computed loss, and
the first one is written. -/
theorem C5_tie_keeps_first_witness :
    ∃ (pre : List (Evaluated 2)) (c : Evaluated 2) (post : List (Evaluated 2)),
      search_evals rule4 data4 0 [0] responses4 [[0, 1, 2, 3]] = pre ++ c :: post ∧
      (∀ d ∈ pre, c.loss < d.loss) ∧ (∀ d ∈ post, c.loss ≤ d.loss) ∧
      (find_best_split rule4 data4 0 [0] responses4 [[0, 1, 2, 3]] [7] [none]).split_vars[0]?
        = some c.var ∧
      (find_best_split rule4 data4 0 [0] responses4 [[0, 1, 2, 3]] [7] [none]).split_values[0]?
        = some c.value :=
  C5_tie_keeps_first.2.1 2 rule4 data4 0 [0] responses4 [[0, 1, 2, 3]] [7] [none] _ rfl
    (by decide) (by decide) (by decide!)

/-- Claim C6 (the threshold is the left value of a boundary). Under the accessor
contract, whenever `find_best_split` reports a split, the written threshold is one
of the distinct values the written variable takes in the node, it is strictly
smaller than the largest of them (so it is never the largest), and both the set of
samples of the node with value `<=` the threshold and the set with value `>` the
threshold are non-empty. -/
theorem C6_threshold_is_left_value (k : Nat) (rule : MultiRegressionSplittingRule k)
    (data : Data) (node : Nat) (vars : List Nat) (responses_by_sample : Nat → Vec k)
    (samples : List (List Nat)) (split_vars : List Nat) (split_values : List Val)
    (out : Outcome k)
    (hout : out = find_best_split rule data node vars responses_by_sample samples split_vars
      split_values)
    (hc : ∀ var ∈ vars, accessor_contract data (samples.getD node []) var)
    (h1 : node < split_vars.length) (h2 : node < split_values.length)
    (hleaf : out.leaf = false) :
    ∃ v t, out.split_vars[node]? = some v ∧ out.split_values[node]? = some t ∧ v ∈ vars ∧
      t ∈ (data.get_all_values (samples.getD node []) v).1 ∧
      (∃ s, s ∈ samples.getD node [] ∧ data.get s v = t) ∧
      (∀ last, (data.get_all_values (samples.getD node []) v).1.getLast? = some last →
        dlt t last = true ∧ t ≠ last) ∧
      left_child data v t (samples.getD node []) ≠ [] ∧
      right_child data v t (samples.getD node []) ≠ [] := by
  subst hout
  obtain ⟨pre, c, post, hl, _, _, _, hfind⟩ := search_best_of_split rule data node vars
    responses_by_sample samples split_vars split_values hleaf
  have hc_mem : c ∈ search_evals rule data node vars responses_by_sample samples := by
    rw [hl]; simp
  obtain ⟨var, hvar, hmem⟩ := search_evals_mem rule data node vars responses_by_sample
    samples c hc_mem
  obtain ⟨hcv, hidx, hget, _, hleft, hright, hm1, hm2⟩ := value_evals_counts _ _ _ _ _ _ _ _ _
    (hc var hvar) c hmem
  have hone := one_le_min_child_size_of rule.alpha (samples.getD node []).length
  have hin : c.value ∈ (data.get_all_values (samples.getD node []) var).1 :=
    List.mem_iff_getElem?.mpr ⟨c.index, hget⟩
  rw [hfind]
  refine ⟨c.var, c.value, List.getElem?_set_self h1, List.getElem?_set_self h2,
    by rw [hcv]; exact hvar, by rw [hcv]; exact hin, ?_, ?_, ?_, ?_⟩
  · rw [hcv]
    exact ((hc var hvar).2.2.2 c.value).mp hin
  · intro last hlast
    rw [hcv] at hlast
    rw [List.getLast?_eq_getElem?] at hlast
    obtain ⟨hlen, hlast'⟩ := List.getElem?_eq_some.mp hlast
    obtain ⟨hlen', hval'⟩ := List.getElem?_eq_some.mp hget
    have hp := (hc var hvar).2.2.1
    rw [List.pairwise_iff_getElem] at hp
    have hlt := hp c.index ((data.get_all_values (samples.getD node []) var).1.length - 1)
      hlen' hlen (by omega)
    rw [hval', hlast'] at hlt
    refine ⟨hlt, ?_⟩
    intro heq
    rw [heq] at hlt
    cases last <;> simp [dlt] at hlt
  · intro hnil
    have : left_count data var c.value (samples.getD node []) = 0 := by
      unfold left_count
      rw [List.countP_eq_length_filter]
      rw [hcv] at hnil
      unfold left_child at hnil
      rw [hnil]
      rfl
    omega
  · intro hnil
    have : right_count data var c.value (samples.getD node []) = 0 := by
      unfold right_count
      rw [List.countP_eq_length_filter]
      rw [hcv] at hnil
      unfold right_child at hnil
      rw [hnil]
      rfl
    omega

/-- An instance of claim C6: four samples with the values `1, 2, 3, 4` and
`alpha = 0.5`. -/
theorem C6_threshold_is_left_value_witness :
    ∃ v t,
      (find_best_split rule4_half data4 0 [0] responses4 [[0, 1, 2, 3]] [7]
        [none]).split_vars[0]? = some v ∧
      (find_best_split rule4_half data4 0 [0] responses4 [[0, 1, 2, 3]] [7]
        [none]).split_values[0]? = some t ∧
      v ∈ [0] ∧
      t ∈ (data4.get_all_values ([[0, 1, 2, 3]].getD 0 []) v).1 ∧
      (∃ s, s ∈ [[0, 1, 2, 3]].getD 0 [] ∧ data4.get s v = t) ∧
      (∀ last, (data4.get_all_values ([[0, 1, 2, 3]].getD 0 []) v).1.getLast? = some last →
        dlt t last = true ∧ t ≠ last) ∧
      left_child data4 v t ([[0, 1, 2, 3]].getD 0 []) ≠ [] ∧
      right_child data4 v t ([[0, 1, 2, 3]].getD 0 []) ≠ [] :=
  C6_threshold_is_left_value 2 rule4_half data4 0 [0] responses4 [[0, 1, 2, 3]] [7] [none] _
    rfl (by intro var hvar; simp at hvar; subst hvar; exact contract4) (by decide) (by decide)
    (by decide!)

/-- Claim C7 (determinism and scratch independence). Two calls of `find_best_split`
on the same dataset, node, candidate list, response matrix, sample lists and output
vectors, made by rules with the same `alpha` and `sigma`, return the same leaf flag
and the same output vectors, whatever the `counter` and `sums` buffers of the two
rules hold; in particular a call repeated on the buffers its predecessor left
behind gives the same result. -/
theorem C7_scratch_independent (k : Nat) (alpha p p' : ℚ) (sigma : Matrix (Fin 2) (Fin 2) ℚ)
    (s s' : Scratch k) (data : Data) (node : Nat) (vars : List Nat)
    (responses_by_sample : Nat → Vec k) (samples : List (List Nat))
    (split_vars : List Nat) (split_values : List Val) :
    ((find_best_split { alpha := alpha, imbalance_penalty := p, scratch := s, sigma := sigma }
        data node vars responses_by_sample samples split_vars split_values).leaf
      = (find_best_split
          { alpha := alpha, imbalance_penalty := p', scratch := s', sigma := sigma }
          data node vars responses_by_sample samples split_vars split_values).leaf ∧
    (find_best_split { alpha := alpha, imbalance_penalty := p, scratch := s, sigma := sigma }
        data node vars responses_by_sample samples split_vars split_values).split_vars
      = (find_best_split
          { alpha := alpha, imbalance_penalty := p', scratch := s', sigma := sigma }
          data node vars responses_by_sample samples split_vars split_values).split_vars ∧
    (find_best_split { alpha := alpha, imbalance_penalty := p, scratch := s, sigma := sigma }
        data node vars responses_by_sample samples split_vars split_values).split_values
      = (find_best_split
          { alpha := alpha, imbalance_penalty := p', scratch := s', sigma := sigma }
          data node vars responses_by_sample samples split_vars split_values).split_values) ∧
    ((find_best_split
        { alpha := alpha, imbalance_penalty := p,
          scratch := (find_best_split
            { alpha := alpha, imbalance_penalty := p, scratch := s, sigma := sigma }
            data node vars responses_by_sample samples split_vars split_values).scratch,
          sigma := sigma }
        data node vars responses_by_sample samples split_vars split_values).leaf
      = (find_best_split { alpha := alpha, imbalance_penalty := p, scratch := s, sigma := sigma }
          data node vars responses_by_sample samples split_vars split_values).leaf ∧
    (find_best_split
        { alpha := alpha, imbalance_penalty := p,
          scratch := (find_best_split
            { alpha := alpha, imbalance_penalty := p, scratch := s, sigma := sigma }
            data node vars responses_by_sample samples split_vars split_values).scratch,
          sigma := sigma }
        data node vars responses_by_sample samples split_vars split_values).split_vars
      = (find_best_split { alpha := alpha, imbalance_penalty := p, scratch := s, sigma := sigma }
          data node vars responses_by_sample samples split_vars split_values).split_vars ∧
    (find_best_split
        { alpha := alpha, imbalance_penalty := p,
          scratch := (find_best_split
            { alpha := alpha, imbalance_penalty := p, scratch := s, sigma := sigma }
            data node vars responses_by_sample samples split_vars split_values).scratch,
          sigma := sigma }
        data node vars responses_by_sample samples split_vars split_values).split_values
      = (find_best_split { alpha := alpha, imbalance_penalty := p, scratch := s, sigma := sigma }
          data node vars responses_by_sample samples split_vars split_values).split_values) := by
  have key : ∀ (q q' : ℚ) (t t' : Scratch k),
      (search { alpha := alpha, imbalance_penalty := q, scratch := t, sigma := sigma }
          data node vars responses_by_sample samples).2
        = (search { alpha := alpha, imbalance_penalty := q', scratch := t', sigma := sigma }
          data node vars responses_by_sample samples).2 := by
    intro q q' t t'
    rw [search_snd, search_snd, search_evals_scratch alpha q q' sigma t t']
  have main : ∀ (q q' : ℚ) (t t' : Scratch k),
      (find_best_split { alpha := alpha, imbalance_penalty := q, scratch := t, sigma := sigma }
          data node vars responses_by_sample samples split_vars split_values).leaf
        = (find_best_split
            { alpha := alpha, imbalance_penalty := q', scratch := t', sigma := sigma }
            data node vars responses_by_sample samples split_vars split_values).leaf ∧
      (find_best_split { alpha := alpha, imbalance_penalty := q, scratch := t, sigma := sigma }
          data node vars responses_by_sample samples split_vars split_values).split_vars
        = (find_best_split
            { alpha := alpha, imbalance_penalty := q', scratch := t', sigma := sigma }
            data node vars responses_by_sample samples split_vars split_values).split_vars ∧
      (find_best_split { alpha := alpha, imbalance_penalty := q, scratch := t, sigma := sigma }
          data node vars responses_by_sample samples split_vars split_values).split_values
        = (find_best_split
            { alpha := alpha, imbalance_penalty := q', scratch := t', sigma := sigma }
            data node vars responses_by_sample samples split_vars split_values).split_values := by
    intro q q' t t'
    unfold find_best_split
    dsimp only
    rw [key q q' t t']
    split_ifs <;> exact ⟨rfl, rfl, rfl⟩
  exact ⟨main p p' s s', main p p _ s⟩

/-- Claim C8 (frame of `find_best_split`). For a call on node `node`, every entry of
`split_vars` and `split_values` at an index other than `node` is unchanged and the
two vectors keep their lengths; when the call returns `true` both vectors are
unchanged, and when it returns `false` the entries at index `node` hold the chosen
variable and threshold. The sample lists and the response matrix are arguments that
the call only reads: the outcome of a call consists of the flag, the two output
vectors and the scratch buffers. -/
theorem C8_frame (k : Nat) (rule : MultiRegressionSplittingRule k) (data : Data) (node : Nat)
    (vars : List Nat) (responses_by_sample : Nat → Vec k) (samples : List (List Nat))
    (split_vars : List Nat) (split_values : List Val) :
    (∀ j, j ≠ node →
      (find_best_split rule data node vars responses_by_sample samples split_vars
          split_values).split_vars[j]? = split_vars[j]? ∧
      (find_best_split rule data node vars responses_by_sample samples split_vars
          split_values).split_values[j]? = split_values[j]?) ∧
    (find_best_split rule data node vars responses_by_sample samples split_vars
        split_values).split_vars.length = split_vars.length ∧
    (find_best_split rule data node vars responses_by_sample samples split_vars
        split_values).split_values.length = split_values.length ∧
    ((find_best_split rule data node vars responses_by_sample samples split_vars
        split_values).leaf = true →
      (find_best_split rule data node vars responses_by_sample samples split_vars
          split_values).split_vars = split_vars ∧
      (find_best_split rule data node vars responses_by_sample samples split_vars
          split_values).split_values = split_values) ∧
    ((find_best_split rule data node vars responses_by_sample samples split_vars
        split_values).leaf = false →
      (node < split_vars.length →
        (find_best_split rule data node vars responses_by_sample samples split_vars
            split_values).split_vars[node]?
          = some (search rule data node vars responses_by_sample samples).2.best_var) ∧
      (node < split_values.length →
        (find_best_split rule data node vars responses_by_sample samples split_vars
            split_values).split_values[node]?
          = some (search rule data node vars responses_by_sample samples).2.best_value)) := by
  by_cases h : leaf_bound < (search rule data node vars responses_by_sample samples).2.best_loss
  · rw [find_best_split_of_leaf _ _ _ _ _ _ _ _ h]
    refine ⟨fun j _ => ⟨rfl, rfl⟩, rfl, rfl, fun _ => ⟨rfl, rfl⟩, ?_⟩
    intro hf
    exact Bool.noConfusion hf
  · rw [find_best_split_of_split _ _ _ _ _ _ _ _ h]
    refine ⟨?_, by simp, by simp, ?_, ?_⟩
    · intro j hj
      exact ⟨List.getElem?_set_ne (Ne.symm hj), List.getElem?_set_ne (Ne.symm hj)⟩
    · intro hf
      exact Bool.noConfusion hf
    · intro _
      exact ⟨fun h1 => List.getElem?_set_self h1, fun h2 => List.getElem?_set_self h2⟩

/-- Claim C9 (the per-variable search never regresses the running best). After a
call of `find_best_split_value` the running `best_loss` is at most the incoming
one; if it equals the incoming one then `best_var` and `best_value` are unchanged;
if it is strictly smaller then `best_var` is the scanned variable and `best_value`
is one of its boundary values, a distinct value other than the last. -/
theorem C9_never_regresses (k : Nat) (sigma : Matrix (Fin 2) (Fin 2) ℚ) (data : Data)
    (node var : Nat) (sum_node : Vec k) (size_node min_child_size : Nat)
    (responses_by_sample : Nat → Vec k) (samples : List (List Nat)) (st : Scratch k × Best) :
    (find_best_split_value sigma data node var sum_node size_node min_child_size
        responses_by_sample samples st).2.best_loss ≤ st.2.best_loss ∧
    ((find_best_split_value sigma data node var sum_node size_node min_child_size
        responses_by_sample samples st).2.best_loss = st.2.best_loss →
      (find_best_split_value sigma data node var sum_node size_node min_child_size
          responses_by_sample samples st).2.best_var = st.2.best_var ∧
      (find_best_split_value sigma data node var sum_node size_node min_child_size
          responses_by_sample samples st).2.best_value = st.2.best_value) ∧
    ((find_best_split_value sigma data node var sum_node size_node min_child_size
        responses_by_sample samples st).2.best_loss < st.2.best_loss →
      (find_best_split_value sigma data node var sum_node size_node min_child_size
          responses_by_sample samples st).2.best_var = var ∧
      ∃ i, i + 1 < (data.get_all_values (samples.getD node []) var).1.length ∧
        (data.get_all_values (samples.getD node []) var).1[i]?
          = some (find_best_split_value sigma data node var sum_node size_node min_child_size
              responses_by_sample samples st).2.best_value) := by
  rw [find_best_split_value_snd]
  refine ⟨foldl_step_loss_le _ _, ?_, ?_⟩
  · intro h
    rw [foldl_step_eq_of_loss_eq _ _ h]
    exact ⟨rfl, rfl⟩
  · intro h
    obtain ⟨e, he, heq⟩ := foldl_step_mem_of_lt _ _ h
    obtain ⟨hvar, hidx, hget, _⟩ := value_evals_mem _ _ _ _ _ _ _ _ _ _ e he
    rw [heq]
    exact ⟨hvar, e.index, hidx, hget⟩

/-- Claim C10 (loss formula), evaluated on four samples with the values `1, 2, 3, 4`,
the outcomes `(0, 0)`, `(0, 0)`, `(10, 10)`, `(10, 10)` and `alpha = 0.05`. The three
boundaries are evaluated with `n_left = 1, 2, 3` and the loss compared against the
running best is `0` at each of them. At the first boundary the accumulators are
`ssl = 800 / 9` and `ssr = 0`, so that the formula with the fractions `1 / 4` and
`3 / 4` taken in the rationals gives `200 / 9`; with the dispersions of the
specification it gives `200 / 3`. -/
theorem C10_loss_with_truncated_fractions :
    (search_evals rule4 data4 0 [0] responses4 [[0, 1, 2, 3]]).map
        (fun e => (e.index, e.n_left, e.value, e.loss))
      = [(0, 1, some 1, 0), (1, 2, some 2, 0), (2, 3, some 3, 0)] ∧
    boundary_loss rule4.sigma responses4 [0, 1, 2, 3] (sum_node_of responses4 [0, 1, 2, 3])
      4 1 (responses4 0) = 0 ∧
    boundary_ssl rule4.sigma responses4 [0, 1, 2, 3] (sum_node_of responses4 [0, 1, 2, 3])
      4 1 (responses4 0) = 800 / 9 ∧
    (1 : ℚ) / 4 * boundary_ssl rule4.sigma responses4 [0, 1, 2, 3]
        (sum_node_of responses4 [0, 1, 2, 3]) 4 1 (responses4 0) + 3 / 4 * ssr_of = 200 / 9 ∧
    spec_loss rule4.sigma data4 responses4 [0, 1, 2, 3] 0 (some 1) = 200 / 3 :=
  ⟨by decide!, by decide!, by decide!, by decide!, by decide!⟩

/-- Claim C11 (per-side dispersion), evaluated on four samples with the values
`1, 2, 3, 4`, the outcomes `(0, 0)`, `(0, 0)`, `(10, 10)`, `(10, 10)` and the first
boundary (`n_left = 1`, threshold `1`). The left child is the sample `0` and its
dispersion is `0`; the right child is the samples `1, 2, 3` and its dispersion is
`800 / 9`. The accumulator `ssl` of the code is `800 / 9`, the sum of both sides,
and the accumulator `ssr` is `0`. -/
theorem C11_right_loop_adds_to_ssl :
    left_child data4 0 (some 1) [0, 1, 2, 3] = [0] ∧
    right_child data4 0 (some 1) [0, 1, 2, 3] = [1, 2, 3] ∧
    dispersion rule4.sigma responses4 (left_child data4 0 (some 1) [0, 1, 2, 3]) = 0 ∧
    dispersion rule4.sigma responses4 (right_child data4 0 (some 1) [0, 1, 2, 3]) = 800 / 9 ∧
    boundary_ssl rule4.sigma responses4 [0, 1, 2, 3] (sum_node_of responses4 [0, 1, 2, 3])
      4 1 (responses4 0) = 800 / 9 ∧
    ssr_of = 0 :=
  ⟨by decide!, by decide!, by decide!, by decide!, by decide!, rfl⟩

/-- Claim C12 (bucket aggregation). Under the accessor contract, when the variable
has at least two distinct values in the node: every step `i` the scan goes through
has `i < num_splits` and its `n_left` and `sum_left` are the counters and the sums
of the buckets `0 .. i` added up; and for every `i < num_splits` with threshold
`t = possible_split_values[i]` these are the number of samples of the node with value
`<= t` and the sum of their outcome vectors, and the first `n_left` entries of
`sorted_samples` are exactly the samples of the ordering with value `<= t`, a
permutation of the samples of the node with value `<= t`. -/
theorem C12_bucket_aggregation (k : Nat) (data : Data) (node var : Nat)
    (min_child_size : Nat) (responses_by_sample : Nat → Vec k) (samples : List (List Nat))
    (s : Scratch k)
    (hc : accessor_contract data (samples.getD node []) var)
    (hd : 2 ≤ (data.get_all_values (samples.getD node []) var).1.length) :
    (∀ st ∈ value_steps data node var (samples.getD node []).length min_child_size
        responses_by_sample samples s,
      st.index + 1 < (data.get_all_values (samples.getD node []) var).1.length ∧
      st.n_left = cum_count (filled_buckets data node var (samples.getD node []).length
        responses_by_sample samples s) 0 0 st.index ∧
      st.sum_left = cum_sum (filled_buckets data node var (samples.getD node []).length
        responses_by_sample samples s) 0 0 st.index) ∧
    (∀ (i : Nat) (t : Val),
      i + 1 < (data.get_all_values (samples.getD node []) var).1.length →
      (data.get_all_values (samples.getD node []) var).1[i]? = some t →
      cum_count (filled_buckets data node var (samples.getD node []).length
          responses_by_sample samples s) 0 0 i
        = left_count data var t (samples.getD node []) ∧
      cum_sum (filled_buckets data node var (samples.getD node []).length
          responses_by_sample samples s) 0 0 i
        = ((left_child data var t (samples.getD node [])).map responses_by_sample).sum ∧
      (data.get_all_values (samples.getD node []) var).2.take
          (cum_count (filled_buckets data node var (samples.getD node []).length
            responses_by_sample samples s) 0 0 i)
        = (data.get_all_values (samples.getD node []) var).2.filter
            (fun s => dle (data.get s var) t) ∧
      ((data.get_all_values (samples.getD node []) var).2.take
          (cum_count (filled_buckets data node var (samples.getD node []).length
            responses_by_sample samples s) 0 0 i)).Perm
        (left_child data var t (samples.getD node []))) := by
  have _ := hd
  refine ⟨fun st hst => value_steps_mem _ _ _ _ _ _ _ _ st hst, ?_⟩
  intro i t hi ht
  obtain ⟨h1, h2, h3, _⟩ := filled_cum_left data node var responses_by_sample samples s hc i t
    hi ht
  refine ⟨h1, h2, by rw [h1, h3], ?_⟩
  rw [h1, h3]
  exact hc.1.filter _

/-- An instance of claim C12: four samples with the values `1, 2, 3, 4`, the second
boundary (threshold `2`). -/
theorem C12_bucket_aggregation_witness :
    cum_count (filled_buckets data4 0 0 ([[0, 1, 2, 3]].getD 0 []).length responses4
        [[0, 1, 2, 3]] (scratch0 2)) 0 0 1
      = left_count data4 0 (some 2) ([[0, 1, 2, 3]].getD 0 []) ∧
    cum_sum (filled_buckets data4 0 0 ([[0, 1, 2, 3]].getD 0 []).length responses4
        [[0, 1, 2, 3]] (scratch0 2)) 0 0 1
      = ((left_child data4 0 (some 2) ([[0, 1, 2, 3]].getD 0 [])).map responses4).sum ∧
    (data4.get_all_values ([[0, 1, 2, 3]].getD 0 []) 0).2.take
        (cum_count (filled_buckets data4 0 0 ([[0, 1, 2, 3]].getD 0 []).length responses4
          [[0, 1, 2, 3]] (scratch0 2)) 0 0 1)
      = (data4.get_all_values ([[0, 1, 2, 3]].getD 0 []) 0).2.filter
          (fun s => dle (data4.get s 0) (some 2)) ∧
    ((data4.get_all_values ([[0, 1, 2, 3]].getD 0 []) 0).2.take
        (cum_count (filled_buckets data4 0 0 ([[0, 1, 2, 3]].getD 0 []).length responses4
          [[0, 1, 2, 3]] (scratch0 2)) 0 0 1)).Perm
      (left_child data4 0 (some 2) ([[0, 1, 2, 3]].getD 0 [])) :=
  (C12_bucket_aggregation 2 data4 0 0 1 responses4 [[0, 1, 2, 3]] (scratch0 2) contract4
    (by decide)).2 1 (some 2) (by decide) (by decide!)

/-- Claim C13 (child means). Under the accessor contract, at every boundary evaluated
by the scan of a variable: `sum_node` is the sum of the outcome vectors over
`samples[node]`; `mu_left = sum_left / n_left` is the arithmetic mean of the outcome
vectors of the samples of the node with value `<=` the threshold; and
`mu_right = (sum_node - sum_left) / n_right` is the arithmetic mean of the outcome
vectors of the remaining samples, which are the entries of `sorted_samples` at the
positions `n_left .. size_node - 1` and the samples of the node with value `>` the
threshold. -/
theorem C13_child_means (k : Nat) (sigma : Matrix (Fin 2) (Fin 2) ℚ) (data : Data)
    (node var : Nat) (min_child_size : Nat) (responses_by_sample : Nat → Vec k)
    (samples : List (List Nat)) (s : Scratch k)
    (hc : accessor_contract data (samples.getD node []) var) (e : Evaluated k)
    (he : e ∈ value_evals sigma data node var
      (sum_node_of responses_by_sample (samples.getD node []))
      (samples.getD node []).length min_child_size responses_by_sample samples s) :
    sum_node_of responses_by_sample (samples.getD node [])
      = ((samples.getD node []).map responses_by_sample).sum ∧
    mu_left_of e.sum_left e.n_left
      = mean_of responses_by_sample (left_child data var e.value (samples.getD node [])) ∧
    mu_right_of (sum_node_of responses_by_sample (samples.getD node [])) e.sum_left
        ((samples.getD node []).length - e.n_left)
      = mean_of responses_by_sample (right_child data var e.value (samples.getD node [])) ∧
    ((data.get_all_values (samples.getD node []) var).2.drop e.n_left).Perm
      (right_child data var e.value (samples.getD node [])) ∧
    mu_right_of (sum_node_of responses_by_sample (samples.getD node [])) e.sum_left
        ((samples.getD node []).length - e.n_left)
      = mean_of responses_by_sample
          ((data.get_all_values (samples.getD node []) var).2.drop e.n_left) := by
  obtain ⟨_, hidx, hget, ⟨x, hx⟩, hleft, hright, _, _⟩ :=
    value_evals_counts _ _ _ _ _ _ _ _ _ hc e he
  obtain ⟨q, ps, _, hN, _, _, _, _, _, _, _⟩ := contract_facts data _ var hc (by omega)
  obtain ⟨_, hsum⟩ := value_evals_cum _ _ _ _ _ _ _ _ _ _ e he
  obtain ⟨_, hcs, _, hdrop⟩ := filled_cum_left data node var responses_by_sample samples s hc
    e.index e.value hidx hget
  have hsl : e.sum_left
      = ((left_child data var e.value (samples.getD node [])).map responses_by_sample).sum := by
    rw [hsum, hcs]
  have hnl : e.n_left = (left_child data var e.value (samples.getD node [])).length := by
    rw [hleft]
    unfold left_count left_child
    exact List.countP_eq_length_filter _ _
  have hnr : (samples.getD node []).length - e.n_left
      = (right_child data var e.value (samples.getD node [])).length := by
    rw [hright]
    unfold right_count right_child
    exact List.countP_eq_length_filter _ _
  have hperm : ((data.get_all_values (samples.getD node []) var).2.drop e.n_left).Perm
      (right_child data var e.value (samples.getD node [])) := by
    rw [hleft, hdrop]
    exact hc.1.filter _
  have hmr : mu_right_of (sum_node_of responses_by_sample (samples.getD node [])) e.sum_left
        ((samples.getD node []).length - e.n_left)
      = mean_of responses_by_sample (right_child data var e.value (samples.getD node [])) := by
    funext j
    unfold mu_right_of mean_of
    rw [hnr, sum_node_of_eq_sum, hsl, hx,
      sum_left_add_sum_right data var responses_by_sample _ q hN x, Pi.add_apply,
      add_sub_cancel_left, vec_sum_apply]
  refine ⟨sum_node_of_eq_sum _ _, ?_, hmr, hperm, ?_⟩
  · funext j
    unfold mu_left_of mean_of
    rw [hsl, vec_sum_apply, hnl]
  · rw [hmr]
    exact (mean_of_perm _ _ _ hperm).symm

/-- An instance of claim C13: four samples with the values `1, 2, 3, 4` and
`min_child_size = 2`, at the first evaluated boundary. -/
theorem C13_child_means_witness :
    mu_left_of
        ((value_evals rule4.sigma data4 0 0
          (sum_node_of responses4 ([[0, 1, 2, 3]].getD 0 []))
          ([[0, 1, 2, 3]].getD 0 []).length 2 responses4 [[0, 1, 2, 3]]
          (scratch0 2)).head evals4_ne_nil).sum_left
        ((value_evals rule4.sigma data4 0 0
          (sum_node_of responses4 ([[0, 1, 2, 3]].getD 0 []))
          ([[0, 1, 2, 3]].getD 0 []).length 2 responses4 [[0, 1, 2, 3]]
          (scratch0 2)).head evals4_ne_nil).n_left
      = mean_of responses4 (left_child data4 0
          ((value_evals rule4.sigma data4 0 0
            (sum_node_of responses4 ([[0, 1, 2, 3]].getD 0 []))
            ([[0, 1, 2, 3]].getD 0 []).length 2 responses4 [[0, 1, 2, 3]]
            (scratch0 2)).head evals4_ne_nil).value
          ([[0, 1, 2, 3]].getD 0 [])) ∧
    mu_right_of (sum_node_of responses4 ([[0, 1, 2, 3]].getD 0 []))
        ((value_evals rule4.sigma data4 0 0
          (sum_node_of responses4 ([[0, 1, 2, 3]].getD 0 []))
          ([[0, 1, 2, 3]].getD 0 []).length 2 responses4 [[0, 1, 2, 3]]
          (scratch0 2)).head evals4_ne_nil).sum_left
        (([[0, 1, 2, 3]].getD 0 []).length
          - ((value_evals rule4.sigma data4 0 0
            (sum_node_of responses4 ([[0, 1, 2, 3]].getD 0 []))
            ([[0, 1, 2, 3]].getD 0 []).length 2 responses4 [[0, 1, 2, 3]]
            (scratch0 2)).head evals4_ne_nil).n_left)
      = mean_of responses4 (right_child data4 0
          ((value_evals rule4.sigma data4 0 0
            (sum_node_of responses4 ([[0, 1, 2, 3]].getD 0 []))
            ([[0, 1, 2, 3]].getD 0 []).length 2 responses4 [[0, 1, 2, 3]]
            (scratch0 2)).head evals4_ne_nil).value
          ([[0, 1, 2, 3]].getD 0 [])) :=
  ⟨(C13_child_means 2 rule4.sigma data4 0 0 2 responses4 [[0, 1, 2, 3]] (scratch0 2) contract4
      _ (List.head_mem evals4_ne_nil)).2.1,
    (C13_child_means 2 rule4.sigma data4 0 0 2 responses4 [[0, 1, 2, 3]] (scratch0 2) contract4
      _ (List.head_mem evals4_ne_nil)).2.2.1⟩

/-- Claim C14 (the early stop loses nothing). For every scan, the boundaries whose
loss is evaluated by the loop with `continue` on `n_left < min_child_size` and
`break` on `n_right < min_child_size` are exactly the boundaries `i` of the scanned
range with `n_left(i) >= min_child_size` and `size_node - n_left(i) >=
min_child_size`, in ascending order of `i`; once a boundary has
`n_right < min_child_size` every later boundary has it too; the scan with `break`
returns the same running best as the scan that passes over every inadmissible
boundary without stopping, and `find_best_split_value` returns the same state with
either scan. -/
theorem C14_early_stop_loses_nothing (k : Nat) (sigma : Matrix (Fin 2) (Fin 2) ℚ)
    (data : Data) (node var : Nat) (sum_node : Vec k) (size_node min_child_size : Nat)
    (responses_by_sample : Nat → Vec k) (samples : List (List Nat))
    (possible_split_values : List Val) (sorted_samples : List Nat) :
    (∀ (s : Scratch k) (num_splits : Nat),
      scan_evals sigma responses_by_sample possible_split_values sorted_samples var sum_node
          size_node min_child_size s num_splits 0 0 0
        = ((List.range num_splits).filter (fun i =>
              decide (min_child_size ≤ cum_count s 0 0 i ∧
                min_child_size ≤ size_node - cum_count s 0 0 i))).map
            (boundary_at sigma responses_by_sample possible_split_values sorted_samples var
              sum_node size_node s 0 0 0)) ∧
    (∀ (s : Scratch k) (i j : Nat), i ≤ j →
      size_node - cum_count s 0 0 i < min_child_size →
      size_node - cum_count s 0 0 j < min_child_size) ∧
    (∀ (s : Scratch k) (num_splits : Nat) (best : Best),
      scan sigma responses_by_sample possible_split_values sorted_samples var sum_node
          size_node min_child_size s num_splits 0 0 0 best
        = scan_no_break sigma responses_by_sample possible_split_values sorted_samples var
          sum_node size_node min_child_size s num_splits 0 0 0 best) ∧
    (∀ (st : Scratch k × Best),
      find_best_split_value sigma data node var sum_node size_node min_child_size
          responses_by_sample samples st
        = find_best_split_value_no_break sigma data node var sum_node size_node
          min_child_size responses_by_sample samples st) := by
  refine ⟨?_, ?_, ?_, ?_⟩
  · intro s num_splits
    rw [scan_evals_eq_filter, List.range_eq_range']
  · intro s i j hij h
    have := cum_count_mono s 0 0 i j hij
    omega
  · intro s num_splits best
    exact scan_eq_scan_no_break _ _ _ _ _ _ _ _ _ _ _ _ _ _
  · intro st
    unfold find_best_split_value find_best_split_value_no_break
    dsimp only
    split_ifs with h
    · rfl
    · rw [scan_eq_scan_no_break]

/-- Claim C16 (the dispersion matrix matches the outcome count), evaluated on the
constructor: whatever `num_outcomes` is, the matrix `sigma` of the rule has two rows
and two columns; for `num_outcomes = 3` it is not a `3 x 3` matrix, and its size is
`num_outcomes x num_outcomes` only for `num_outcomes = 2`. -/
theorem C16_sigma_is_two_by_two :
    (∀ (num_outcomes : Nat) (alpha imbalance_penalty : ℚ) (init : Scratch num_outcomes),
      dims (MultiRegressionSplittingRule.new num_outcomes alpha imbalance_penalty init).sigma
        = (2, 2)) ∧
    dims (MultiRegressionSplittingRule.new 3 (1 / 20) 0 (scratch0 3)).sigma ≠ (3, 3) ∧
    (∀ (num_outcomes : Nat) (alpha imbalance_penalty : ℚ) (init : Scratch num_outcomes),
      dims (MultiRegressionSplittingRule.new num_outcomes alpha imbalance_penalty init).sigma
          = (num_outcomes, num_outcomes)
        ↔ num_outcomes = 2) := by
  refine ⟨fun _ _ _ _ => rfl, by decide, ?_⟩
  intro num_outcomes alpha imbalance_penalty init
  simp only [dims, Prod.mk.injEq]
  omega

/-- Claim C17 (missing values open their own bucket), as amended. The bucket-filling
pass accumulates the samples at the positions `0 .. size_node - 2` of the ordering,
each once, and the counters and sums grow by exactly these accumulations; the sample
at the last position is not accumulated. For every pair of adjacent positions whose
values compare different, which includes every pair in which one value is missing:
when both samples are accumulated, the later one goes into the next bucket, and no
sample accumulated after the earlier one goes into the bucket of the earlier one. -/
theorem C17_different_values_different_buckets (k : Nat) (data : Data) (var : Nat)
    (responses_by_sample : Nat → Vec k) (sorted_samples : List Nat) (size_node : Nat)
    (s : Scratch k) :
    (∀ b,
      (fill_buckets data var responses_by_sample sorted_samples size_node s).2.counter b
        = s.counter b
          + ((fill_accumulations data var sorted_samples size_node).filter
              (fun p => decide (p.2 = b))).length ∧
      (fill_buckets data var responses_by_sample sorted_samples size_node s).2.sums b
        = s.sums b
          + (((fill_accumulations data var sorted_samples size_node).filter
              (fun p => decide (p.2 = b))).map
              (fun p => responses_by_sample (sorted_samples.getD p.1 0))).sum) ∧
    (fill_accumulations data var sorted_samples size_node).map Prod.fst
      = List.range (pred_size_t size_node) ∧
    (∀ i b b', (i, b) ∈ fill_accumulations data var sorted_samples size_node →
      (i + 1, b') ∈ fill_accumulations data var sorted_samples size_node →
      dne (data.get (sorted_samples.getD i 0) var)
        (data.get (sorted_samples.getD (i + 1) 0) var) = true →
      b' = b + 1) ∧
    (∀ i b j b', (i, b) ∈ fill_accumulations data var sorted_samples size_node →
      (j, b') ∈ fill_accumulations data var sorted_samples size_node → i < j →
      dne (data.get (sorted_samples.getD i 0) var)
        (data.get (sorted_samples.getD (i + 1) 0) var) = true →
      b < b') ∧
    (∀ i, data.get (sorted_samples.getD i 0) var = none ∨
        data.get (sorted_samples.getD (i + 1) 0) var = none →
      dne (data.get (sorted_samples.getD i 0) var)
        (data.get (sorted_samples.getD (i + 1) 0) var) = true) := by
  refine ⟨?_, ?_, ?_, ?_, ?_⟩
  · intro b
    unfold fill_buckets fill_accumulations
    exact foldl_fill_step_trace data var responses_by_sample sorted_samples _ (0, s) b
  · exact fill_trace_fst _ _ _ _ _
  · intro i b b' h1 h2 hne
    unfold fill_accumulations at h1 h2
    rw [List.range_eq_range'] at h1 h2
    have := (fill_trace_range data var sorted_samples _ _ _ i b h1).2.1 b' h2
    rw [if_pos hne] at this
    exact this
  · intro i b j b' h1 h2 hij hne
    unfold fill_accumulations at h1 h2
    rw [List.range_eq_range'] at h1 h2
    exact (fill_trace_range data var sorted_samples _ _ _ i b h1).2.2 hne j b' hij h2
  · intro i h
    rcases h with h | h
    · rw [h]; rfl
    · rw [h]
      cases data.get (sorted_samples.getD i 0) var <;> rfl

/-- Claim C17 as stated fails on three samples ordered with the values `1`, `2` and
a missing value: the pass accumulates the first sample into bucket `0` and the
second into bucket `1`; the values of the second and the third sample compare
different, and the third sample is accumulated into no bucket. -/
theorem C17_last_sample_not_accumulated :
    fill_accumulations data_nan 0 [0, 1, 2] 3 = [(0, 0), (1, 1)] ∧
    dne (data_nan.get ([0, 1, 2].getD 1 0) 0) (data_nan.get ([0, 1, 2].getD 2 0) 0) = true ∧
    ¬ ∃ b b', (1, b) ∈ fill_accumulations data_nan 0 [0, 1, 2] 3 ∧
      (2, b') ∈ fill_accumulations data_nan 0 [0, 1, 2] 3 ∧ b ≠ b' := by
  have h : fill_accumulations data_nan 0 [0, 1, 2] 3 = [(0, 0), (1, 1)] := by decide!
  refine ⟨h, by decide!, ?_⟩
  rintro ⟨b, b', _, h2, _⟩
  rw [h] at h2
  simp at h2

/-- Claim C18 (the split chosen does not depend on the outcomes), as amended. For
every dataset, node, candidate list and response matrix, the loss the program
computes at an evaluated boundary is `0` when its accumulator `ssl` is finite and NaN
when `ssl` is an infinity or NaN; the call is a leaf, with both outputs untouched,
exactly when no evaluated boundary has a finite `ssl`, and otherwise it writes the
variable and threshold of the first evaluated boundary with a finite `ssl`. Hence
for every two response matrices with which no accumulator overflows, the call returns
the same leaf flag and the same output vectors, those of the exact arithmetic. For a
node without missing values on the candidate variables (the accessor contract) this
is the first admissible boundary in scan order: the first candidate variable that has
a threshold leaving at least `min_child_size` samples on both sides, at its smallest
such threshold; and the call is a leaf exactly when no candidate variable has such a
threshold. -/
theorem C18_split_independent_of_outcomes (k : Nat) (rule : MultiRegressionSplittingRule k)
    (s : DScratch k) (data : Data) (node : Nat) (vars : List Nat) (samples : List (List Nat))
    (split_vars : List Nat) (split_values : List Val) :
    (∀ (r : Nat → DVec k), ∀ e ∈ fl_search_evals rule s data node vars r samples,
      e.loss = if e.ssl.is_finite = true then Dbl.fin 0 else Dbl.nan) ∧
    (∀ (r : Nat → DVec k),
      ((fl_find_best_split rule s data node vars r samples split_vars split_values).leaf = true
        ↔ ∀ e ∈ fl_search_evals rule s data node vars r samples, e.ssl.is_finite = false) ∧
      ((fl_find_best_split rule s data node vars r samples split_vars split_values).leaf = true →
        (fl_find_best_split rule s data node vars r samples split_vars split_values).split_vars
          = split_vars ∧
        (fl_find_best_split rule s data node vars r samples split_vars split_values).split_values
          = split_values) ∧
      ((fl_find_best_split rule s data node vars r samples split_vars split_values).leaf = false →
        ∃ (pre : List DEvaluated) (c : DEvaluated) (post : List DEvaluated),
          fl_search_evals rule s data node vars r samples = pre ++ c :: post ∧
          (∀ d ∈ pre, d.ssl.is_finite = false) ∧ c.ssl.is_finite = true ∧
          (fl_find_best_split rule s data node vars r samples split_vars split_values).split_vars
            = split_vars.set node c.var ∧
          (fl_find_best_split rule s data node vars r samples split_vars
            split_values).split_values = split_values.set node c.value)) ∧
    (∀ (r r' : Nat → DVec k),
      (∀ e ∈ fl_search_evals rule s data node vars r samples, e.ssl.is_finite = true) →
      (∀ e ∈ fl_search_evals rule s data node vars r' samples, e.ssl.is_finite = true) →
      (fl_find_best_split rule s data node vars r samples split_vars split_values).leaf
        = (fl_find_best_split rule s data node vars r' samples split_vars split_values).leaf ∧
      (fl_find_best_split rule s data node vars r samples split_vars split_values).split_vars
        = (fl_find_best_split rule s data node vars r' samples split_vars
            split_values).split_vars ∧
      (fl_find_best_split rule s data node vars r samples split_vars split_values).split_values
        = (fl_find_best_split rule s data node vars r' samples split_vars
            split_values).split_values) ∧
    (∀ (r : Nat → DVec k) (q : Nat → Vec k),
      (∀ e ∈ fl_search_evals rule s data node vars r samples, e.ssl.is_finite = true) →
      (fl_find_best_split rule s data node vars r samples split_vars split_values).leaf
        = (find_best_split rule data node vars q samples split_vars split_values).leaf ∧
      (fl_find_best_split rule s data node vars r samples split_vars split_values).split_vars
        = (find_best_split rule data node vars q samples split_vars split_values).split_vars ∧
      (fl_find_best_split rule s data node vars r samples split_vars split_values).split_values
        = (find_best_split rule data node vars q samples split_vars
            split_values).split_values) ∧
    (∀ (r : Nat → DVec k),
      (∀ var ∈ vars, accessor_contract data (samples.getD node []) var) →
      (∀ e ∈ fl_search_evals rule s data node vars r samples, e.ssl.is_finite = true) →
      ((fl_find_best_split rule s data node vars r samples split_vars split_values).leaf = true
        ↔ ∀ var ∈ vars, ∀ t ∈ (data.get_all_values (samples.getD node []) var).1,
            ¬ admissible data var (samples.getD node [])
              (min_child_size_of rule.alpha (samples.getD node []).length) t) ∧
      ((fl_find_best_split rule s data node vars r samples split_vars split_values).leaf
          = false →
        ∃ pre v post t, vars = pre ++ v :: post ∧
          (∀ u ∈ pre, ∀ t' ∈ (data.get_all_values (samples.getD node []) u).1,
            ¬ admissible data u (samples.getD node [])
              (min_child_size_of rule.alpha (samples.getD node []).length) t') ∧
          t ∈ (data.get_all_values (samples.getD node []) v).1 ∧
          admissible data v (samples.getD node [])
            (min_child_size_of rule.alpha (samples.getD node []).length) t ∧
          (∀ t' ∈ (data.get_all_values (samples.getD node []) v).1,
            admissible data v (samples.getD node [])
              (min_child_size_of rule.alpha (samples.getD node []).length) t' →
            dle t t' = true) ∧
          (fl_find_best_split rule s data node vars r samples split_vars split_values).split_vars
            = split_vars.set node v ∧
          (fl_find_best_split rule s data node vars r samples split_vars
            split_values).split_values = split_values.set node t)) := by
  refine ⟨?_, ?_, ?_, ?_, ?_⟩
  · intro r e he
    exact fl_search_evals_loss rule s data node vars r samples e he
  · intro r
    rcases fl_find_best_split_cases rule s data node vars r samples split_vars split_values
      with ⟨hl, hsv, hsval, hall⟩ | ⟨pre, c, post, hl, hpre, hc, hleaf, hsv, hsval⟩
    · refine ⟨⟨fun _ => hall, fun _ => hl⟩, fun _ => ⟨hsv, hsval⟩, ?_⟩
      intro h
      rw [hl] at h
      exact Bool.noConfusion h
    · refine ⟨⟨?_, ?_⟩, ?_, fun _ => ⟨pre, c, post, hl, hpre, hc, hsv, hsval⟩⟩
      · intro h
        rw [hleaf] at h
        exact Bool.noConfusion h
      · intro h
        have h1 := h c (by rw [hl]; simp)
        rw [hc] at h1
        exact Bool.noConfusion h1
      · intro h
        rw [hleaf] at h
        exact Bool.noConfusion h
  · intro r r' hr hr'
    obtain ⟨h1, h2, h3⟩ := fl_find_best_split_eq_exact rule s data node vars r (fun _ => 0)
      samples split_vars split_values hr
    obtain ⟨h1', h2', h3'⟩ := fl_find_best_split_eq_exact rule s data node vars r' (fun _ => 0)
      samples split_vars split_values hr'
    exact ⟨by rw [h1, h1'], by rw [h2, h2'], by rw [h3, h3']⟩
  · intro r q hr
    exact fl_find_best_split_eq_exact rule s data node vars r q samples split_vars
      split_values hr
  · intro r hc hr
    obtain ⟨h1, h2, h3⟩ := fl_find_best_split_eq_exact rule s data node vars r (fun _ => 0)
      samples split_vars split_values hr
    rw [h1, h2, h3]
    exact first_admissible_written rule data node vars (fun _ => 0) samples split_vars
      split_values hc

/-- An instance of claim C18: four samples with the values `1, 2, 3, 4`,
`alpha = 0.05`, and the outcomes `(0, 0)`, `(0, 0)`, `(10, 10)`, `(10, 10)`. -/
theorem C18_split_independent_of_outcomes_witness :
    ∃ pre v post t, [0] = pre ++ v :: post ∧
      (∀ u ∈ pre, ∀ t' ∈ (data4.get_all_values ([[0, 1, 2, 3]].getD 0 []) u).1,
        ¬ admissible data4 u ([[0, 1, 2, 3]].getD 0 [])
          (min_child_size_of rule4.alpha ([[0, 1, 2, 3]].getD 0 []).length) t') ∧
      t ∈ (data4.get_all_values ([[0, 1, 2, 3]].getD 0 []) v).1 ∧
      admissible data4 v ([[0, 1, 2, 3]].getD 0 [])
        (min_child_size_of rule4.alpha ([[0, 1, 2, 3]].getD 0 []).length) t ∧
      (∀ t' ∈ (data4.get_all_values ([[0, 1, 2, 3]].getD 0 []) v).1,
        admissible data4 v ([[0, 1, 2, 3]].getD 0 [])
          (min_child_size_of rule4.alpha ([[0, 1, 2, 3]].getD 0 []).length) t' →
        dle t t' = true) ∧
      (fl_find_best_split rule4 (dscratch0 2) data4 0 [0] (to_doubles responses4)
        [[0, 1, 2, 3]] [7] [none]).split_vars = [7].set 0 v ∧
      (fl_find_best_split rule4 (dscratch0 2) data4 0 [0] (to_doubles responses4)
        [[0, 1, 2, 3]] [7] [none]).split_values = [none].set 0 t :=
  ((C18_split_independent_of_outcomes 2 rule4 (dscratch0 2) data4 0 [0] [[0, 1, 2, 3]] [7]
      [none]).2.2.2.2
    (to_doubles responses4) (by intro var hvar; simp at hvar; subst hvar; exact contract4)
    (by decide!)).2 (by decide!)

/-- Claim C18 as stated fails in two ways. With finite outcomes that make a squared
distance overflow, the written threshold changes: on four samples with the values
`1, 2, 3, 4` the call writes the threshold `1` for the outcomes `(0, 0)`, `(0, 0)`,
`(10, 10)`, `(10, 10)` and the threshold `2` for the outcomes `(0, 0)`, `(0, 0)`,
`(1e200, 1e200)`, `(1e200, 1e200)`. And on a node with a missing value (the values
`1, 1, 2` and a missing value, `alpha = 0.5`, `min_child_size = 2`) no threshold leaves
two samples on both sides, and yet the call is not a leaf. -/
theorem C18_overflow_changes_split :
    (∀ (sample : Nat) (j : Fin 2), (to_doubles responses4 sample j).is_finite = true) ∧
    (∀ (sample : Nat) (j : Fin 2), (responses_big sample j).is_finite = true) ∧
    (fl_find_best_split rule4 (dscratch0 2) data4 0 [0] (to_doubles responses4)
      [[0, 1, 2, 3]] [7] [none]).leaf = false ∧
    (fl_find_best_split rule4 (dscratch0 2) data4 0 [0] (to_doubles responses4)
      [[0, 1, 2, 3]] [7] [none]).split_values = [some 1] ∧
    (fl_find_best_split rule4 (dscratch0 2) data4 0 [0] responses_big
      [[0, 1, 2, 3]] [7] [none]).leaf = false ∧
    (fl_find_best_split rule4 (dscratch0 2) data4 0 [0] responses_big
      [[0, 1, 2, 3]] [7] [none]).split_values = [some 2] ∧
    (∀ t ∈ (data_nan4.get_all_values [0, 1, 2, 3] 0).1,
      ¬ admissible data_nan4 0 [0, 1, 2, 3] (min_child_size_of rule4_half.alpha 4) t) ∧
    (fl_find_best_split rule4_half (dscratch0 2) data_nan4 0 [0] (to_doubles responses4)
      [[0, 1, 2, 3]] [7] [none]).leaf = false := by
  refine ⟨?_, ?_, by decide!, by decide!, by decide!, by decide!, by decide!, by decide!⟩
  · intro sample j
    unfold to_doubles responses4
    split_ifs
    · decide!
    · decide!
  · intro sample j
    unfold responses_big
    split_ifs
    · rfl
    · decide!

/-- Claim C19 (scratch-buffer indices stay in bounds), as amended. For every call of
`find_best_split_value` on a node in which no sample has a missing value on the
variable (the accessor contract), with `d` distinct values,
`d <= max_num_unique_values` and `size_node` samples in the node: the cells zeroed
are `0 .. d - 2`, the filling loop writes only bucket indices `<= d - 1`, the scan
reads only bucket indices `<= d - 2` (so the index `d - 1` is neither zeroed nor
read), every index used on `counter` and on the rows of `sums` is below
`max_num_unique_values`, and every index used on `sorted_samples` is below
`size_node`, the length of `sorted_samples`. -/
theorem C19_indices_in_bounds (k : Nat) (sigma : Matrix (Fin 2) (Fin 2) ℚ) (data : Data)
    (node var : Nat) (sum_node : Vec k) (min_child_size : Nat)
    (responses_by_sample : Nat → Vec k) (samples : List (List Nat)) (s : Scratch k)
    (max_num_unique_values : Nat)
    (hc : accessor_contract data (samples.getD node []) var)
    (hcap : (data.get_all_values (samples.getD node []) var).1.length
      ≤ max_num_unique_values) :
    (∀ b ∈ (value_accesses sigma data node var sum_node (samples.getD node []).length
        min_child_size responses_by_sample samples s).buckets_zeroed,
      b + 1 < (data.get_all_values (samples.getD node []) var).1.length ∧
      b < max_num_unique_values) ∧
    (∀ b ∈ (value_accesses sigma data node var sum_node (samples.getD node []).length
        min_child_size responses_by_sample samples s).buckets_written,
      b < (data.get_all_values (samples.getD node []) var).1.length ∧
      b < max_num_unique_values) ∧
    (∀ b ∈ (value_accesses sigma data node var sum_node (samples.getD node []).length
        min_child_size responses_by_sample samples s).buckets_read,
      b + 1 < (data.get_all_values (samples.getD node []) var).1.length ∧
      b < max_num_unique_values) ∧
    (data.get_all_values (samples.getD node []) var).1.length - 1
      ∉ (value_accesses sigma data node var sum_node (samples.getD node []).length
        min_child_size responses_by_sample samples s).buckets_zeroed ∧
    (data.get_all_values (samples.getD node []) var).1.length - 1
      ∉ (value_accesses sigma data node var sum_node (samples.getD node []).length
        min_child_size responses_by_sample samples s).buckets_read ∧
    (∀ p ∈ (value_accesses sigma data node var sum_node (samples.getD node []).length
        min_child_size responses_by_sample samples s).positions,
      p < (samples.getD node []).length ∧
      p < (data.get_all_values (samples.getD node []) var).2.length) := by
  by_cases h2 : (data.get_all_values (samples.getD node []) var).1.length < 2
  · rw [value_accesses, if_pos h2]
    exact ⟨fun b hb => absurd hb (List.not_mem_nil b), fun b hb => absurd hb (List.not_mem_nil b),
      fun b hb => absurd hb (List.not_mem_nil b), List.not_mem_nil _, List.not_mem_nil _,
      fun p hp => absurd hp (List.not_mem_nil p)⟩
  rw [value_accesses, if_neg h2]
  obtain ⟨q, ps, hps, _, hl, hsorted, hasc, hmem, hlen, hpos, _⟩ :=
    contract_facts data _ var hc h2
  have hpl : (data.get_all_values (samples.getD node []) var).1.length = ps.length := by
    rw [hps, List.length_map]
  have hpred : pred_size_t (samples.getD node []).length
      = (samples.getD node []).length - 1 := by
    unfold pred_size_t
    rw [if_neg hpos]
  have hzero : ∀ b ∈ List.range ((data.get_all_values (samples.getD node []) var).1.length - 1),
      b + 1 < (data.get_all_values (samples.getD node []) var).1.length ∧
      b < max_num_unique_values := by
    intro b hb
    have := List.mem_range.mp hb
    omega
  have hread : ∀ b ∈ (value_steps data node var (samples.getD node []).length min_child_size
        responses_by_sample samples s).map (fun st => st.index),
      b + 1 < (data.get_all_values (samples.getD node []) var).1.length ∧
      b < max_num_unique_values := by
    intro b hb
    obtain ⟨st, hst, hsb⟩ := List.mem_map.mp hb
    have := (value_steps_mem _ _ _ _ _ _ _ _ st hst).1
    omega
  refine ⟨hzero, ?_, hread, ?_, ?_, ?_⟩
  · intro b hb
    obtain ⟨p, hp, hpb⟩ := List.mem_map.mp hb
    unfold fill_accumulations at hp
    have := fill_trace_bound data var q _ ps 0 _ hl hsorted hasc hmem
      (by rw [hlen, hpred]; omega) p hp
    omega
  · intro hin
    have := (hzero _ hin).1
    omega
  · intro hin
    have := (hread _ hin).1
    omega
  · intro p hp
    rw [hlen]
    refine ⟨?_, ?_⟩ <;>
    · rcases List.mem_append.mp hp with hp | hp
      · obtain ⟨i, hi, hpi⟩ := List.mem_flatMap.mp hp
        have hi' := List.mem_range.mp hi
        rw [hpred] at hi'
        simp only [List.mem_cons, List.mem_singleton] at hpi
        rcases hpi with hpi | hpi | hpi
        · omega
        · omega
        · exact absurd hpi (by simp)
      · obtain ⟨e, he, hpe⟩ := List.mem_flatMap.mp hp
        have hcum := (value_evals_cum _ _ _ _ _ _ _ _ _ _ e he).1
        have hidx := (value_evals_mem _ _ _ _ _ _ _ _ _ _ e he).2.1
        have hle := filled_prefix_sum_le data var responses_by_sample
          (data.get_all_values (samples.getD node []) var).2 (samples.getD node []).length
          ((data.get_all_values (samples.getD node []) var).1.length - 1) s (e.index + 1)
          (by omega)
        have hn : e.n_left ≤ (samples.getD node []).length - 1 := by
          rw [hcum]
          unfold cum_count filled_buckets
          rw [Nat.zero_add, ← Finset.range_eq_Ico, ← hpred]
          exact hle
        rcases List.mem_append.mp hpe with hpe | hpe
        · have := List.mem_range.mp hpe
          omega
        · have := (List.mem_range'_1.mp hpe).2
          omega

/-- An instance of claim C19: four samples with the values `1, 2, 3, 4` and a scratch
capacity of `4`. -/
theorem C19_indices_in_bounds_witness :
    (∀ b ∈ (value_accesses rule4.sigma data4 0 0 (sum_node_of responses4 [0, 1, 2, 3])
        ([[0, 1, 2, 3]].getD 0 []).length 1 responses4 [[0, 1, 2, 3]]
        (scratch0 2)).buckets_written,
      b < (data4.get_all_values ([[0, 1, 2, 3]].getD 0 []) 0).1.length ∧ b < 4) ∧
    (∀ p ∈ (value_accesses rule4.sigma data4 0 0 (sum_node_of responses4 [0, 1, 2, 3])
        ([[0, 1, 2, 3]].getD 0 []).length 1 responses4 [[0, 1, 2, 3]]
        (scratch0 2)).positions,
      p < ([[0, 1, 2, 3]].getD 0 []).length ∧
      p < (data4.get_all_values ([[0, 1, 2, 3]].getD 0 []) 0).2.length) :=
  ⟨(C19_indices_in_bounds 2 rule4.sigma data4 0 0 (sum_node_of responses4 [0, 1, 2, 3]) 1
      responses4 [[0, 1, 2, 3]] (scratch0 2) 4 contract4 (by decide)).2.1,
    (C19_indices_in_bounds 2 rule4.sigma data4 0 0 (sum_node_of responses4 [0, 1, 2, 3]) 1
      responses4 [[0, 1, 2, 3]] (scratch0 2) 4 contract4 (by decide)).2.2.2.2.2⟩

/-- Claim C19 as stated fails on a node with missing values: four samples ordered with
the values `1, 2` and two missing values. The accessor returns `d = 2` distinct
values and an ordering of length `size_node = 4`, and with
`max_num_unique_values = 2` the filling loop writes the buckets `0, 1, 2`: the index
`2` is neither `<= d - 1` nor `< max_num_unique_values`. -/
theorem C19_missing_values_write_past_d :
    (data_nan22.get_all_values ([[0, 1, 2, 3]].getD 0 []) 0).1.length = 2 ∧
    (data_nan22.get_all_values ([[0, 1, 2, 3]].getD 0 []) 0).2.length
      = ([[0, 1, 2, 3]].getD 0 []).length ∧
    (value_accesses rule4.sigma data_nan22 0 0 (sum_node_of responses4 [0, 1, 2, 3])
        ([[0, 1, 2, 3]].getD 0 []).length 1 responses4 [[0, 1, 2, 3]]
        (scratch0 2)).buckets_written = [0, 1, 2] ∧
    ¬ (∀ b ∈ (value_accesses rule4.sigma data_nan22 0 0 (sum_node_of responses4 [0, 1, 2, 3])
        ([[0, 1, 2, 3]].getD 0 []).length 1 responses4 [[0, 1, 2, 3]]
        (scratch0 2)).buckets_written, b < 2) := by
  have h : (value_accesses rule4.sigma data_nan22 0 0 (sum_node_of responses4 [0, 1, 2, 3])
        ([[0, 1, 2, 3]].getD 0 []).length 1 responses4 [[0, 1, 2, 3]]
        (scratch0 2)).buckets_written = [0, 1, 2] := by decide!
  refine ⟨by decide!, by decide!, h, ?_⟩
  rw [h]
  intro hall
  exact absurd (hall 2 (by simp)) (by decide)

end grf
